import Mathlib

/-!
Verification of the search-methods program (`Search_Method.py`).

The Python source is shallowly embedded below:
  * floating-point numbers are idealised as real numbers (`ℝ`);
  * Python dictionaries built by the loaders are association lists with
    Python's update semantics (update in place, insert at the end);
  * the `while` loops of the five search functions are embedded with an
    explicit fuel parameter; a result of `none` means the fuel ran out
    (we prove the chosen fuel bounds are always sufficient);
  * `float()` parsing in `load_cities` is abstracted by a `parse` oracle,
    and the CSV / whitespace tokenisation of the input files is taken as
    the input boundary: loaders consume lists of token lists;
  * a Python exception (`ValueError` from tuple unpacking, `KeyError`
    from a missing dictionary key) is an explicit error result.
-/

namespace SearchMethod

abbrev City := String

/-- A coordinate pair (latitude, longitude) in degrees, as in `load_cities`. -/
abbrev Coord := ℝ × ℝ

/-- A route is an ordered list of city names, as built by the searches. -/
abbrev Route := List City

/-- `math.radians`: degrees to radians. -/
noncomputable def radians (x : ℝ) : ℝ := x * Real.pi / 180

/-- `math.atan2 y x`, by the usual case analysis on the signs of the
arguments (the program only ever calls it with nonnegative arguments). -/
noncomputable def atan2 (y x : ℝ) : ℝ :=
  if 0 < x then Real.arctan (y / x)
  else if x < 0 then
    (if 0 ≤ y then Real.arctan (y / x) + Real.pi else Real.arctan (y / x) - Real.pi)
  else if 0 < y then Real.pi / 2
  else if y < 0 then -(Real.pi / 2)
  else 0

/-- `haversine(coord1, coord2)` from the source: great-circle distance with
Earth radius 6371 km. -/
noncomputable def haversine (coord1 coord2 : Coord) : ℝ :=
  let R : ℝ := 6371
  let lat1 := radians coord1.1
  let lon1 := radians coord1.2
  let lat2 := radians coord2.1
  let lon2 := radians coord2.2
  let dlat := lat2 - lat1
  let dlon := lon2 - lon1
  let a := Real.sin (dlat / 2) ^ 2 +
    Real.cos lat1 * Real.cos lat2 * Real.sin (dlon / 2) ^ 2
  2 * R * atan2 (Real.sqrt a) (Real.sqrt (1 - a))

/-! ### Loaders

`load_cities` reads CSV rows (lists of fields); `load_adjacency` reads
whitespace-split lines (lists of tokens).  Rows with too few fields are
skipped; rows with *more* fields than the tuple pattern expects make the
Python unpacking raise `ValueError`, which we model as `Except.error ()`.
A failing `float()` call is likewise a `ValueError`. -/

/-- Python dictionary assignment `d[k] = v`: update in place if the key is
present, otherwise append at the end (insertion order). -/
def dictInsert {α : Type} (m : List (City × α)) (k : City) (v : α) :
    List (City × α) :=
  if m.any (fun kv => kv.1 = k) then
    m.map (fun kv => if kv.1 = k then (k, v) else kv)
  else m ++ [(k, v)]

/-- Python dictionary lookup `d.get(k)` as an option. -/
def dictFind {α : Type} (m : List (City × α)) (k : City) : Option α :=
  (m.find? (fun kv => kv.1 = k)).map (fun kv => kv.2)

/-- The loop body accumulator version of `load_cities`. -/
def loadCitiesAux (parse : String → Option ℝ) :
    List (List String) → List (City × Coord) → Except Unit (List (City × Coord))
  | [], acc => .ok acc
  | row :: rest, acc =>
    if row.length < 3 then loadCitiesAux parse rest acc
    else
      match row with
      | [name, lat, lon] =>
        match parse lat, parse lon with
        | some la, some lo => loadCitiesAux parse rest (dictInsert acc name (la, lo))
        | _, _ => .error ()
      | _ => .error ()

/-- `load_cities`: builds the name → (lat, lon) dictionary.  `parse` models
Python's `float()`, returning `none` when `float()` would raise. -/
def load_cities (parse : String → Option ℝ) (rows : List (List String)) :
    Except Unit (List (City × Coord)) :=
  loadCitiesAux parse rows []

/-- `adjacency_list.setdefault(c1, []).append(c2)`. -/
def adjInsert (m : List (City × List City)) (c1 c2 : City) :
    List (City × List City) :=
  if m.any (fun kv => kv.1 = c1) then
    m.map (fun kv => if kv.1 = c1 then (kv.1, kv.2 ++ [c2]) else kv)
  else m ++ [(c1, [c2])]

/-- The loop body accumulator version of `load_adjacency`. -/
def loadAdjAux : List (List String) → List (City × List City) →
    Except Unit (List (City × List City))
  | [], acc => .ok acc
  | parts :: rest, acc =>
    if parts.length < 2 then loadAdjAux rest acc
    else
      match parts with
      | [city1, city2] => loadAdjAux rest (adjInsert (adjInsert acc city1 city2) city2 city1)
      | _ => .error ()

/-- `load_adjacency`: each input line is given as its whitespace tokens. -/
def load_adjacency (lines : List (List String)) :
    Except Unit (List (City × List City)) :=
  loadAdjAux lines []

/-! ### The search functions. -/

/-- The adjacency dictionary produced by `load_adjacency`. -/
abbrev Adj := List (City × List City)

/-- `adjacency_list.get(city, [])`. -/
def adjGet (adj : Adj) (city : City) : List City := (dictFind adj city).getD []

/-- Result of one search call: a found route, the Python `None`, or an
uncaught exception (`KeyError`). -/
inductive SResult where
  | found : Route → SResult
  | notFound : SResult
  | keyError : SResult
deriving DecidableEq

/-- The vertices a search run can ever mention: the start plus every key
and every neighbour of the adjacency dictionary. -/
def verts (adj : Adj) (start : City) : List City :=
  start :: adj.flatMap (fun kv => kv.1 :: kv.2)

/-- Fuel sufficient for the stack/queue based searches (proved below). -/
def fuelBound (adj : Adj) (start : City) : Nat :=
  ((verts adj start).length + 2) ^ ((verts adj start).length + 2) + 1

/-- Loop of `brute_force_search`.  The Python stack pops from the end; we
keep the stack reversed (head = top of stack), so the pushes of one
expansion are prepended in reverse order. -/
def bruteAux (adj : Adj) (goal : City) :
    Nat → List (City × Route) → Option SResult
  | 0, _ => none
  | _ + 1, [] => some .notFound
  | fuel + 1, (city, path) :: stack =>
    if city = goal then some (.found path)
    else
      bruteAux adj goal fuel
        ((((adjGet adj city).filter (fun n => !path.contains n)).map
            (fun n => (n, path ++ [n]))).reverse ++ stack)

/-- `brute_force_search(start, goal, adjacency_list, cities)`; the `cities`
argument is accepted and ignored, as in the source. -/
def brute_force_search (start goal : City) (adj : Adj)
    (cities : City → Option Coord) : Option SResult :=
  bruteAux adj goal (fuelBound adj start) [(start, [start])]

/-- Loop of `bfs`: FIFO queue, pop at the head, append pushes at the end. -/
def bfsAux (adj : Adj) (goal : City) :
    Nat → List (City × Route) → Option SResult
  | 0, _ => none
  | _ + 1, [] => some .notFound
  | fuel + 1, (city, path) :: queue =>
    if city = goal then some (.found path)
    else
      bfsAux adj goal fuel
        (queue ++ ((adjGet adj city).filter (fun n => !path.contains n)).map
          (fun n => (n, path ++ [n])))

/-- `bfs(start, goal, adjacency_list)`. -/
def bfs (start goal : City) (adj : Adj) : Option SResult :=
  bfsAux adj goal (fuelBound adj start) [(start, [start])]

/-- Loop of `dfs`: identical to `bruteAux`, as in the source. -/
def dfsAux (adj : Adj) (goal : City) :
    Nat → List (City × Route) → Option SResult
  | 0, _ => none
  | _ + 1, [] => some .notFound
  | fuel + 1, (city, path) :: stack =>
    if city = goal then some (.found path)
    else
      dfsAux adj goal fuel
        ((((adjGet adj city).filter (fun n => !path.contains n)).map
            (fun n => (n, path ++ [n]))).reverse ++ stack)

/-- `dfs(start, goal, adjacency_list)`. -/
def dfs (start goal : City) (adj : Adj) : Option SResult :=
  dfsAux adj goal (fuelBound adj start) [(start, [start])]

/-! ### The heap model

`heapq` pops a least element under Python's lexicographic tuple order.
Two distinct tuples are never tied under that order, so a heap behaves
exactly like: remove some least element of the multiset.  `popMinWith`
removes the first occurrence of a least element w.r.t. `le`. -/

def popMinWith {α : Type} (le : α → α → Bool) : List α → Option (α × List α)
  | [] => none
  | e :: rest =>
    match popMinWith le rest with
    | none => some (e, [])
    | some (m, rest') => if le e m then some (e, rest) else some (m, e :: rest')

/-- Lexicographic comparison of routes (Python list comparison). -/
def routeLe : Route → Route → Bool
  | [], _ => true
  | _ :: _, [] => false
  | a :: as, b :: bs => if a < b then true else if b < a then false else routeLe as bs

/-- Order on the best-first heap entries `(h-score, city, path)`. -/
noncomputable def bestLe (e1 e2 : ℝ × City × Route) : Bool :=
  if e1.1 < e2.1 then true
  else if e2.1 < e1.1 then false
  else if e1.2.1 < e2.2.1 then true
  else if e2.2.1 < e1.2.1 then false
  else routeLe e1.2.2 e2.2.2

/-- Order on the A* heap entries `(f-score, city, path, g-score)`. -/
noncomputable def aLe (e1 e2 : ℝ × City × Route × ℝ) : Bool :=
  if e1.1 < e2.1 then true
  else if e2.1 < e1.1 then false
  else if e1.2.1 < e2.2.1 then true
  else if e2.2.1 < e1.2.1 then false
  else if routeLe e1.2.2.1 e2.2.2.1 then
    (if routeLe e2.2.2.1 e1.2.2.1 then decide (e1.2.2.2 ≤ e2.2.2.2) else true)
  else false

/-- Look up the coordinates of each city in `ns`; `none` models the
`KeyError` raised at the first missing key. -/
def lookupAll (cities : City → Option Coord) : List City → Option (List (City × Coord))
  | [] => some []
  | n :: ns =>
    match cities n with
    | none => none
    | some c => (lookupAll cities ns).map (fun l => (n, c) :: l)

/-- Loop of `best_first_search`: `gc` is `cities[goal]`. -/
noncomputable def bestAux (adj : Adj) (cities : City → Option Coord)
    (goal : City) (gc : Coord) :
    Nat → List (ℝ × City × Route) → Option SResult
  | 0, _ => none
  | fuel + 1, pq =>
    match popMinWith bestLe pq with
    | none => some .notFound
    | some ((_, city, path), rest) =>
      if city = goal then some (.found path)
      else
        match lookupAll cities ((adjGet adj city).filter (fun n => !path.contains n)) with
        | none => some .keyError
        | some ncs =>
          bestAux adj cities goal gc fuel
            (rest ++ ncs.map (fun nc => (haversine nc.2 gc, nc.1, path ++ [nc.1])))

/-- `best_first_search(start, goal, adjacency_list, cities)`.  The initial
heap entry evaluates `cities[start]` and `cities[goal]`; a missing key is
the `KeyError` outcome. -/
noncomputable def best_first_search (start goal : City) (adj : Adj)
    (cities : City → Option Coord) : Option SResult :=
  match cities start, cities goal with
  | some cs, some cg =>
    bestAux adj cities goal cg (fuelBound adj start) [(haversine cs cg, start, [start])]
  | _, _ => some .keyError

/-- One A* expansion step: process the neighbours in order, threading the
heap and the `visited` best-g map; `cities[city]`, `cities[neighbor]` and
`cities[goal]` are all looked up for each neighbour, so a missing key
raises.  Pushes happen only when the neighbour is unvisited or strictly
improves the best known g. -/
noncomputable def aExpand (cities : City → Option Coord) (goal city : City)
    (path : Route) (g : ℝ) :
    List City → List (ℝ × City × Route × ℝ) → (City → Option ℝ) →
    Option (List (ℝ × City × Route × ℝ) × (City → Option ℝ))
  | [], pq, vis => some (pq, vis)
  | n :: ns, pq, vis =>
    match cities city, cities n, cities goal with
    | some cc, some nc, some gc =>
      let new_g := g + haversine cc nc
      let new_f := new_g + haversine nc gc
      match vis n with
      | none =>
        aExpand cities goal city path g ns
          (pq ++ [(new_f, n, path ++ [n], new_g)])
          (fun c => if c = n then some new_g else vis c)
      | some v =>
        if new_g < v then
          aExpand cities goal city path g ns
            (pq ++ [(new_f, n, path ++ [n], new_g)])
            (fun c => if c = n then some new_g else vis c)
        else aExpand cities goal city path g ns pq vis
    | _, _, _ => none

/-- Fuel sufficient for `a_star_search` (proved below). -/
def fuelBoundA (adj : Adj) (start : City) : Nat :=
  ((verts adj start).length + 2) ^ ((verts adj start).length + 3) + 2

/-- Loop of `a_star_search`. -/
noncomputable def aStarAux (adj : Adj) (cities : City → Option Coord) (goal : City) :
    Nat → List (ℝ × City × Route × ℝ) → (City → Option ℝ) → Option SResult
  | 0, _, _ => none
  | fuel + 1, pq, vis =>
    match popMinWith aLe pq with
    | none => some .notFound
    | some ((_, city, path, g), rest) =>
      if city = goal then some (.found path)
      else
        match aExpand cities goal city path g (adjGet adj city) rest vis with
        | none => some .keyError
        | some (pq', vis') => aStarAux adj cities goal fuel pq' vis'

/-- `a_star_search(start, goal, adjacency_list, cities)`.  The initial heap
is `[(0, start, [start], 0)]` and `visited` is empty; no coordinate is
looked up before the first expansion. -/
noncomputable def a_star_search (start goal : City) (adj : Adj)
    (cities : City → Option Coord) : Option SResult :=
  aStarAux adj cities goal (fuelBoundA adj start) [(0, start, [start], 0)] (fun _ => none)

/-- Total distance of a route, as computed by `main` when displaying a
result: the sum of `haversine` over consecutive cities.  (For any route a
search can return, every coordinate lookup succeeds, so the `getD`
default is never read.) -/
noncomputable def routeDistance (cities : City → Option Coord) : Route → ℝ
  | a :: b :: rest =>
    haversine ((cities a).getD (0, 0)) ((cities b).getD (0, 0)) +
      routeDistance cities (b :: rest)
  | _ => 0

/-! ### Specification predicates. -/

/-- `p` is a route from `start` to `goal` along edges of `adj`. -/
def ValidRoute (adj : Adj) (start goal : City) : Route → Prop
  | [] => False
  | [c] => c = start ∧ c = goal
  | c :: c' :: rest => c = start ∧ c' ∈ adjGet adj c ∧ ValidRoute adj c' goal (c' :: rest)

/-- Goal `goal` is reachable from `start` in `adj`. -/
def Reachable (adj : Adj) (start goal : City) : Prop :=
  ∃ p, ValidRoute adj start goal p

/-- The quantity `a` computed inside `haversine`. -/
noncomputable def hav_a (c1 c2 : Coord) : ℝ :=
  Real.sin ((radians c2.1 - radians c1.1) / 2) ^ 2 +
    Real.cos (radians c1.1) * Real.cos (radians c2.1) *
      Real.sin ((radians c2.2 - radians c1.2) / 2) ^ 2
/-- Unit vector on the sphere for a (latitude, longitude) pair in degrees. -/
noncomputable def sphVec (c : Coord) : ℝ × ℝ × ℝ :=
  (Real.cos (radians c.1) * Real.cos (radians c.2),
    Real.cos (radians c.1) * Real.sin (radians c.2),
    Real.sin (radians c.1))
/-- Euclidean inner product on ℝ³. -/
noncomputable def dot3 (u v : ℝ × ℝ × ℝ) : ℝ :=
  u.1 * v.1 + u.2.1 * v.2.1 + u.2.2 * v.2.2
/-- The neighbours that the lines of an adjacency file contribute to city
`A`, in file order (each pair line contributes both directions). -/
def adjPartners (A : City) (lines : List (List String)) : List City :=
  lines.flatMap (fun parts =>
    match parts with
    | [c1, c2] => (if c1 = A then [c2] else []) ++ (if c2 = A then [c1] else [])
    | _ => [])
/-- A city-file row the loader accepts without raising: either skipped
(fewer than 3 fields) or exactly three fields with both numbers parsing. -/
def GoodCityRow (parse : String → Option ℝ) (row : List String) : Prop :=
  row.length < 3 ∨
    ∃ n la lo x y, row = [n, la, lo] ∧ parse la = some x ∧ parse lo = some y
/-- An adjacency-file line the loader accepts without raising. -/
def GoodAdjLine (l : List String) : Prop := l.length < 2 ∨ ∃ a b, l = [a, b]

/-! ### The haversine function is a pseudometric

For all real inputs the haversine formula equals `R * arccos (u₁ ⬝ u₂)`
where `uᵢ` are the corresponding unit vectors on the sphere; from this we
get symmetry, `haversine c c = 0`, nonnegativity and the triangle
inequality (needed for A* admissibility). -/

lemma haversine_def' (c1 c2 : Coord) :
    haversine c1 c2 =
      2 * 6371 * atan2 (Real.sqrt (hav_a c1 c2)) (Real.sqrt (1 - hav_a c1 c2)) := rfl

lemma dot3_comm (u v : ℝ × ℝ × ℝ) : dot3 u v = dot3 v u := by
  simp only [dot3]; ring

lemma dot3_self_sphVec (c : Coord) : dot3 (sphVec c) (sphVec c) = 1 := by
  simp only [sphVec, dot3]
  nlinarith [Real.sin_sq_add_cos_sq (radians c.1), Real.sin_sq_add_cos_sq (radians c.2)]

lemma sin_sq_half (x : ℝ) : Real.sin (x / 2) ^ 2 = (1 - Real.cos x) / 2 := by
  have h := Real.cos_sq (x / 2)
  have h2 : 2 * (x / 2) = x := by ring
  rw [h2] at h
  have h3 := Real.sin_sq (x / 2)
  rw [h3, h]; ring

lemma hav_a_eq_dot (c1 c2 : Coord) :
    hav_a c1 c2 = (1 - dot3 (sphVec c1) (sphVec c2)) / 2 := by
  simp only [hav_a, sphVec, dot3]
  rw [sin_sq_half, sin_sq_half, Real.cos_sub, Real.cos_sub]
  ring

lemma dot3_sq_le (u v : ℝ × ℝ × ℝ) : dot3 u v ^ 2 ≤ dot3 u u * dot3 v v := by
  simp only [dot3]
  nlinarith [sq_nonneg (u.1 * v.2.1 - u.2.1 * v.1), sq_nonneg (u.1 * v.2.2 - u.2.2 * v.1),
    sq_nonneg (u.2.1 * v.2.2 - u.2.2 * v.2.1)]

lemma unit_dot_bounds (u v : ℝ × ℝ × ℝ) (hu : dot3 u u = 1) (hv : dot3 v v = 1) :
    -1 ≤ dot3 u v ∧ dot3 u v ≤ 1 := by
  have h := dot3_sq_le u v
  rw [hu, hv] at h
  constructor <;> nlinarith [sq_nonneg (dot3 u v + 1), sq_nonneg (dot3 u v - 1)]

lemma hav_a_nonneg (c1 c2 : Coord) : 0 ≤ hav_a c1 c2 := by
  rw [hav_a_eq_dot]
  have h := (unit_dot_bounds _ _ (dot3_self_sphVec c1) (dot3_self_sphVec c2)).2
  linarith

lemma hav_a_le_one (c1 c2 : Coord) : hav_a c1 c2 ≤ 1 := by
  rw [hav_a_eq_dot]
  have h := (unit_dot_bounds _ _ (dot3_self_sphVec c1) (dot3_self_sphVec c2)).1
  linarith

lemma atan2_sqrt_eq {a : ℝ} (h0 : 0 ≤ a) (h1 : a ≤ 1) :
    atan2 (Real.sqrt a) (Real.sqrt (1 - a)) = Real.arccos (1 - 2 * a) / 2 := by
  have hm1 : -1 ≤ 1 - 2 * a := by linarith
  have hle1 : 1 - 2 * a ≤ 1 := by linarith
  set θ := Real.arccos (1 - 2 * a) with hθdef
  have hθ0 : 0 ≤ θ := Real.arccos_nonneg _
  have hθπ : θ ≤ Real.pi := Real.arccos_le_pi _
  have hpi := Real.pi_pos
  have hs : 0 ≤ Real.sin (θ / 2) :=
    Real.sin_nonneg_of_nonneg_of_le_pi (by linarith) (by linarith)
  have hc : 0 ≤ Real.cos (θ / 2) :=
    Real.cos_nonneg_of_mem_Icc ⟨by linarith, by linarith⟩
  have hsinsq : Real.sin (θ / 2) ^ 2 = a := by
    rw [sin_sq_half, hθdef, Real.cos_arccos hm1 hle1]; ring
  have hcossq : Real.cos (θ / 2) ^ 2 = 1 - a := by
    have h := Real.sin_sq_add_cos_sq (θ / 2)
    linarith
  have hsqa : Real.sqrt a = Real.sin (θ / 2) := by rw [← hsinsq, Real.sqrt_sq hs]
  have hsqb : Real.sqrt (1 - a) = Real.cos (θ / 2) := by rw [← hcossq, Real.sqrt_sq hc]
  rw [hsqa, hsqb]
  by_cases hcpos : 0 < Real.cos (θ / 2)
  · have hlt : θ / 2 < Real.pi / 2 := by
      rcases lt_or_eq_of_le (show θ / 2 ≤ Real.pi / 2 by linarith) with h | h
      · exact h
      · rw [h, Real.cos_pi_div_two] at hcpos; exact absurd hcpos (lt_irrefl 0)
    unfold atan2
    rw [if_pos hcpos, ← Real.tan_eq_sin_div_cos]
    exact Real.arctan_tan (by linarith) hlt
  · have hc0 : Real.cos (θ / 2) = 0 := le_antisymm (not_lt.mp hcpos) hc
    have hθ2 : θ / 2 = Real.pi / 2 := by
      by_contra hne
      have hlt : θ / 2 < Real.pi / 2 := lt_of_le_of_ne (by linarith) hne
      have hp := Real.cos_pos_of_mem_Ioo ⟨by linarith, hlt⟩
      rw [hc0] at hp; exact absurd hp (lt_irrefl 0)
    rw [hθ2, Real.sin_pi_div_two, Real.cos_pi_div_two]
    unfold atan2
    norm_num

lemma haversine_eq_arccos (c1 c2 : Coord) :
    haversine c1 c2 = 6371 * Real.arccos (dot3 (sphVec c1) (sphVec c2)) := by
  rw [haversine_def', atan2_sqrt_eq (hav_a_nonneg c1 c2) (hav_a_le_one c1 c2),
    hav_a_eq_dot]
  have h : 1 - 2 * ((1 - dot3 (sphVec c1) (sphVec c2)) / 2) =
      dot3 (sphVec c1) (sphVec c2) := by ring
  rw [h]; ring

lemma haversine_nonneg (c1 c2 : Coord) : 0 ≤ haversine c1 c2 := by
  rw [haversine_eq_arccos]
  exact mul_nonneg (by norm_num) (Real.arccos_nonneg _)

lemma haversine_self (c : Coord) : haversine c c = 0 := by
  rw [haversine_eq_arccos, dot3_self_sphVec, Real.arccos_one, mul_zero]

lemma haversine_comm (c1 c2 : Coord) : haversine c1 c2 = haversine c2 c1 := by
  rw [haversine_eq_arccos, haversine_eq_arccos, dot3_comm]

lemma arccos_antitone {x y : ℝ} (hx : -1 ≤ x) (hy : y ≤ 1) (hxy : x ≤ y) :
    Real.arccos y ≤ Real.arccos x := by
  rcases lt_or_eq_of_le hxy with h | h
  · exact (Real.strictAntiOn_arccos ⟨hx, by linarith⟩ ⟨by linarith, hy⟩ h).le
  · rw [h]

lemma dot3_triangle_core (u v w : ℝ × ℝ × ℝ) (hu : dot3 u u = 1)
    (hv : dot3 v v = 1) (hw : dot3 w w = 1) :
    dot3 u v * dot3 v w -
      Real.sqrt (1 - dot3 u v ^ 2) * Real.sqrt (1 - dot3 v w ^ 2) ≤ dot3 u w := by
  set p := dot3 u v with hp
  set q := dot3 v w with hq
  set u' : ℝ × ℝ × ℝ := (u.1 - p * v.1, u.2.1 - p * v.2.1, u.2.2 - p * v.2.2) with hu'
  set w' : ℝ × ℝ × ℝ := (w.1 - q * v.1, w.2.1 - q * v.2.1, w.2.2 - q * v.2.2) with hw'
  have huu2 : dot3 u' u' = 1 - p ^ 2 := by
    have hexp : dot3 u' u' = dot3 u u - 2 * p * dot3 u v + p ^ 2 * dot3 v v := by
      simp only [hu', dot3]; ring
    rw [hexp, hu, hv, ← hp]; ring
  have hww2 : dot3 w' w' = 1 - q ^ 2 := by
    have hexp : dot3 w' w' = dot3 w w - 2 * q * dot3 v w + q ^ 2 * dot3 v v := by
      simp only [hw', dot3]; ring
    rw [hexp, hw, hv, ← hq]; ring
  have hdot : dot3 u' w' = dot3 u w - p * q := by
    have hexp : dot3 u' w' =
        dot3 u w - q * dot3 u v - p * dot3 v w + p * q * dot3 v v := by
      simp only [hu', hw', dot3]; ring
    rw [hexp, hv, ← hp, ← hq]; ring
  have hcs : dot3 u' w' ^ 2 ≤ (1 - p ^ 2) * (1 - q ^ 2) := by
    have h := dot3_sq_le u' w'
    rw [huu2, hww2] at h; exact h
  have habs : |dot3 u' w'| ≤ Real.sqrt ((1 - p ^ 2) * (1 - q ^ 2)) :=
    Real.abs_le_sqrt hcs
  have hp2 : (0:ℝ) ≤ 1 - p ^ 2 := by
    have h := dot3_sq_le u v
    rw [hu, hv, ← hp] at h
    linarith
  have hsplit : Real.sqrt ((1 - p ^ 2) * (1 - q ^ 2)) =
      Real.sqrt (1 - p ^ 2) * Real.sqrt (1 - q ^ 2) := Real.sqrt_mul hp2 _
  have hlow : -(Real.sqrt (1 - p ^ 2) * Real.sqrt (1 - q ^ 2)) ≤ dot3 u' w' := by
    rw [← hsplit]
    have := neg_abs_le (dot3 u' w')
    linarith [habs]
  linarith [hdot, hlow]

lemma arccos_dot3_triangle (u v w : ℝ × ℝ × ℝ) (hu : dot3 u u = 1)
    (hv : dot3 v v = 1) (hw : dot3 w w = 1) :
    Real.arccos (dot3 u w) ≤ Real.arccos (dot3 u v) + Real.arccos (dot3 v w) := by
  have hpb := unit_dot_bounds u v hu hv
  have hqb := unit_dot_bounds v w hv hw
  have hrb := unit_dot_bounds u w hu hw
  by_cases hsum : Real.pi ≤ Real.arccos (dot3 u v) + Real.arccos (dot3 v w)
  · exact le_trans (Real.arccos_le_pi _) hsum
  · push_neg at hsum
    have hcos : Real.cos (Real.arccos (dot3 u v) + Real.arccos (dot3 v w)) ≤ dot3 u w := by
      rw [Real.cos_add, Real.cos_arccos hpb.1 hpb.2, Real.cos_arccos hqb.1 hqb.2,
        Real.sin_arccos, Real.sin_arccos]
      exact dot3_triangle_core u v w hu hv hw
    have h1 : Real.arccos (dot3 u w) ≤
        Real.arccos (Real.cos (Real.arccos (dot3 u v) + Real.arccos (dot3 v w))) :=
      arccos_antitone (Real.neg_one_le_cos _) hrb.2 hcos
    have hnn : 0 ≤ Real.arccos (dot3 u v) + Real.arccos (dot3 v w) :=
      add_nonneg (Real.arccos_nonneg _) (Real.arccos_nonneg _)
    rw [Real.arccos_cos hnn hsum.le] at h1
    exact h1

lemma haversine_triangle (c1 c2 c3 : Coord) :
    haversine c1 c3 ≤ haversine c1 c2 + haversine c2 c3 := by
  rw [haversine_eq_arccos, haversine_eq_arccos, haversine_eq_arccos]
  have h := arccos_dot3_triangle (sphVec c1) (sphVec c2) (sphVec c3)
    (dot3_self_sphVec c1) (dot3_self_sphVec c2) (dot3_self_sphVec c3)
  linarith

/-! ### Dictionary lemmas. -/

lemma find?_key_map {α : Type} (m : List (City × α)) (g : City × α → City × α)
    (hg : ∀ kv, (g kv).1 = kv.1) (j : City) :
    (m.map g).find? (fun kv => kv.1 = j) = (m.find? (fun kv => kv.1 = j)).map g := by
  induction m with
  | nil => rfl
  | cons kv rest ih =>
    by_cases h : kv.1 = j
    · rw [List.map_cons, List.find?_cons_of_pos _ (by simp [hg, h]),
        List.find?_cons_of_pos _ (by simp [h])]
      rfl
    · rw [List.map_cons, List.find?_cons_of_neg _ (by simp [hg, h]),
        List.find?_cons_of_neg _ (by simp [h]), ih]

lemma find?_exists_of_any {α : Type} (m : List (City × α)) (k : City)
    (hany : m.any (fun kv => kv.1 = k)) :
    ∃ kv, m.find? (fun kv => kv.1 = k) = some kv ∧ kv.1 = k := by
  have h : (m.find? (fun kv => kv.1 = k)).isSome := by
    rw [List.find?_isSome]
    obtain ⟨x, hx, hpx⟩ := List.any_eq_true.mp hany
    exact ⟨x, hx, hpx⟩
  obtain ⟨kv, hkv⟩ := Option.isSome_iff_exists.mp h
  exact ⟨kv, hkv, by simpa using List.find?_some hkv⟩

lemma find?_none_of_not_any {α : Type} (m : List (City × α)) (k : City)
    (hany : ¬ m.any (fun kv => kv.1 = k)) :
    m.find? (fun kv => kv.1 = k) = none := by
  rw [List.find?_eq_none]
  intro x hx hpx
  exact hany (List.any_eq_true.mpr ⟨x, hx, hpx⟩)

lemma dictFind_dictInsert_self {α : Type} (m : List (City × α)) (k : City) (v : α) :
    dictFind (dictInsert m k v) k = some v := by
  unfold dictInsert dictFind
  by_cases hany : m.any (fun kv => kv.1 = k)
  · rw [if_pos hany,
      find?_key_map _ _ (fun kv => by by_cases hh : kv.1 = k <;> simp [hh])]
    obtain ⟨kv, hkv, hk⟩ := find?_exists_of_any m k hany
    rw [hkv]
    simp [hk]
  · rw [if_neg hany, List.find?_append, find?_none_of_not_any m k hany]
    simp

lemma dictFind_dictInsert_ne {α : Type} (m : List (City × α)) (k : City) (v : α)
    (j : City) (h : j ≠ k) :
    dictFind (dictInsert m k v) j = dictFind m j := by
  unfold dictInsert dictFind
  by_cases hany : m.any (fun kv => kv.1 = k)
  · rw [if_pos hany,
      find?_key_map _ _ (fun kv => by by_cases hh : kv.1 = k <;> simp [hh])]
    cases hfind : m.find? (fun kv => kv.1 = j) with
    | none => simp
    | some kv =>
      have hkj : kv.1 = j := by simpa using List.find?_some hfind
      have hkk : ¬ kv.1 = k := by rw [hkj]; exact h
      simp [hkk]
  · rw [if_neg hany, List.find?_append]
    have : ([(k, v)].find? (fun kv => kv.1 = j)) = none := by
      simp [Ne.symm h]
    rw [this]
    simp

lemma dictFind_isSome_iff {α : Type} (m : List (City × α)) (j : City) :
    (dictFind m j).isSome ↔ ∃ kv ∈ m, kv.1 = j := by
  unfold dictFind
  have h : ∀ o : Option (City × α), (o.map (fun kv => kv.2)).isSome = o.isSome := by
    intro o; cases o <;> rfl
  rw [h, List.find?_isSome]
  simp

lemma keys_dictInsert {α : Type} (m : List (City × α)) (k : City) (v : α) :
    (dictInsert m k v).map Prod.fst =
      if m.any (fun kv => kv.1 = k) then m.map Prod.fst else m.map Prod.fst ++ [k] := by
  unfold dictInsert
  split
  · rw [List.map_map]
    apply List.map_congr_left
    intro kv _
    dsimp only [Function.comp]
    split <;> simp_all
  · simp

lemma keysNodup_dictInsert {α : Type} (m : List (City × α)) (k : City) (v : α)
    (h : (m.map Prod.fst).Nodup) : ((dictInsert m k v).map Prod.fst).Nodup := by
  rw [keys_dictInsert]
  split
  · exact h
  · rename_i hany
    rw [List.nodup_append]
    refine ⟨h, List.nodup_singleton k, ?_⟩
    intro a ha hb
    simp only [List.mem_singleton] at hb
    subst hb
    obtain ⟨kv, hkv, hfst⟩ := List.mem_map.mp ha
    exact hany (List.any_eq_true.mpr ⟨kv, hkv, by simp [hfst]⟩)

lemma adjGet_adjInsert (m : Adj) (c1 c2 A : City) :
    adjGet (adjInsert m c1 c2) A = adjGet m A ++ (if c1 = A then [c2] else []) := by
  unfold adjInsert adjGet dictFind
  by_cases hany : m.any (fun kv => kv.1 = c1)
  · rw [if_pos hany,
      find?_key_map _ _ (fun kv => by by_cases hh : kv.1 = c1 <;> simp [hh])]
    by_cases hc : c1 = A
    · subst hc
      obtain ⟨kv, hkv, hk⟩ := find?_exists_of_any m c1 hany
      rw [hkv]
      simp [hk]
    · cases hfind : m.find? (fun kv => kv.1 = A) with
      | none => simp [hc]
      | some kv =>
        have hkj : kv.1 = A := by simpa using List.find?_some hfind
        have hkk : ¬ kv.1 = c1 := by rw [hkj]; exact fun hh => hc hh.symm
        simp [hkk, hc]
  · rw [if_neg hany, List.find?_append]
    by_cases hc : c1 = A
    · subst hc
      rw [find?_none_of_not_any m c1 hany]
      simp
    · have h2 : ([(c1, [c2])].find? (fun kv => kv.1 = A)) = none := by simp [hc]
      rw [h2]
      simp [hc]

/-! ### Loader characterisations. -/

lemma loadAdjAux_ok_partners :
    ∀ (lines : List (List String)) (acc m : Adj),
      loadAdjAux lines acc = .ok m → ∀ A, adjGet m A = adjGet acc A ++ adjPartners A lines := by
  intro lines
  induction lines with
  | nil =>
    intro acc m h A
    cases h
    simp [adjPartners]
  | cons parts rest ih =>
    intro acc m h A
    simp only [loadAdjAux] at h
    by_cases hlen : parts.length < 2
    · rw [if_pos hlen] at h
      have hr := ih _ _ h A
      have hparts : (match parts with
          | [c1, c2] => (if c1 = A then [c2] else []) ++ (if c2 = A then [c1] else [])
          | _ => ([] : List City)) = [] := by
        match parts, hlen with
        | [], _ => rfl
        | [x], _ => rfl
      rw [hr]
      simp only [adjPartners, List.flatMap_cons, hparts, List.nil_append]
    · rw [if_neg hlen] at h
      match parts, hlen, h with
      | [c1, c2], _, h =>
        have hr := ih _ _ h A
        rw [hr, adjGet_adjInsert, adjGet_adjInsert]
        simp only [adjPartners, List.flatMap_cons]
        simp [List.append_assoc]
      | c1 :: c2 :: c3 :: t, _, h => cases h

lemma loadCitiesAux_cons_skip (parse : String → Option ℝ) (row : List String)
    (rest : List (List String)) (acc : List (City × Coord)) (h : row.length < 3) :
    loadCitiesAux parse (row :: rest) acc = loadCitiesAux parse rest acc := by
  simp only [loadCitiesAux]
  rw [if_pos h]

lemma loadCitiesAux_append (parse : String → Option ℝ) :
    ∀ (r1 r2 : List (List String)) (acc : List (City × Coord)),
      loadCitiesAux parse (r1 ++ r2) acc =
        match loadCitiesAux parse r1 acc with
        | .ok acc2 => loadCitiesAux parse r2 acc2
        | .error e => .error e := by
  intro r1
  induction r1 with
  | nil => intro r2 acc; rfl
  | cons r rest ih =>
    intro r2 acc
    simp only [List.cons_append, loadCitiesAux]
    by_cases h : r.length < 3
    · rw [if_pos h, if_pos h]; exact ih r2 acc
    · rw [if_neg h, if_neg h]
      rcases r with _ | ⟨a, _ | ⟨b, _ | ⟨c, _ | ⟨d, t⟩⟩⟩⟩
      · simp at h
      · simp at h
      · simp at h
      · dsimp only
        rcases hpa : parse b with _ | x <;> rcases hpb : parse c with _ | y <;>
          simp only [hpa, hpb]
        exact ih r2 _
      · rfl

lemma loadCitiesAux_good_ok (parse : String → Option ℝ) :
    ∀ (r1 : List (List String)) (acc : List (City × Coord)),
      (∀ r ∈ r1, GoodCityRow parse r) →
      ∃ acc2, loadCitiesAux parse r1 acc = .ok acc2 := by
  intro r1
  induction r1 with
  | nil => intro acc _; exact ⟨acc, rfl⟩
  | cons r rest ih =>
    intro acc hg
    rcases hg r (List.mem_cons_self r rest) with h | ⟨n, la, lo, x, y, hrow, hla, hlo⟩
    · rw [loadCitiesAux_cons_skip _ _ _ _ h]
      exact ih acc (fun r hr => hg r (List.mem_cons_of_mem _ hr))
    · subst hrow
      simp only [loadCitiesAux]
      rw [if_neg (by simp)]
      simp only [hla, hlo]
      exact ih _ (fun r hr => hg r (List.mem_cons_of_mem _ hr))

lemma loadCitiesAux_untouched (parse : String → Option ℝ) (name : City) :
    ∀ (rows : List (List String)) (acc m : List (City × Coord)),
      (∀ row ∈ rows, ¬ ∃ la lo, row = [name, la, lo]) →
      loadCitiesAux parse rows acc = .ok m →
      dictFind m name = dictFind acc name := by
  intro rows
  induction rows with
  | nil => intro acc m _ h; cases h; rfl
  | cons r rest ih =>
    intro acc m hg h
    by_cases hl : r.length < 3
    · rw [loadCitiesAux_cons_skip _ _ _ _ hl] at h
      exact ih _ _ (fun row hr => hg row (List.mem_cons_of_mem _ hr)) h
    · simp only [loadCitiesAux] at h
      rw [if_neg hl] at h
      rcases r with _ | ⟨a, _ | ⟨b, _ | ⟨c, _ | ⟨d, t⟩⟩⟩⟩
      · simp at hl
      · simp at hl
      · simp at hl
      · rcases hpa : parse b with _ | x <;> rcases hpb : parse c with _ | y <;>
          simp only [hpa, hpb] at h
        · exact Except.noConfusion h
        · exact Except.noConfusion h
        · exact Except.noConfusion h
        · have hne : name ≠ a := by
            intro hna
            exact hg [a, b, c] (List.mem_cons_self _ _) ⟨b, c, by rw [hna]⟩
          rw [ih _ _ (fun row hr => hg row (List.mem_cons_of_mem _ hr)) h]
          exact dictFind_dictInsert_ne acc a (x, y) name hne
      · exact Except.noConfusion h

lemma dictFind_dictInsert_isSome {α : Type} (m : List (City × α)) (k j : City) (v : α) :
    (dictFind (dictInsert m k v) j).isSome ↔ j = k ∨ (dictFind m j).isSome := by
  by_cases h : j = k
  · subst h; rw [dictFind_dictInsert_self]; simp
  · rw [dictFind_dictInsert_ne m k v j h]; simp [h]

lemma loadCitiesAux_keys (parse : String → Option ℝ) :
    ∀ (rows : List (List String)) (acc m : List (City × Coord)),
      loadCitiesAux parse rows acc = .ok m →
      ∀ k, (dictFind m k).isSome ↔
        ((dictFind acc k).isSome ∨ ∃ row ∈ rows, ∃ la lo, row = [k, la, lo]) := by
  intro rows
  induction rows with
  | nil => intro acc m h k; cases h; simp
  | cons r rest ih =>
    intro acc m h k
    by_cases hl : r.length < 3
    · rw [loadCitiesAux_cons_skip _ _ _ _ hl] at h
      rw [ih _ _ h k]
      constructor
      · rintro (h1 | ⟨row, hr, h2⟩)
        · exact Or.inl h1
        · exact Or.inr ⟨row, List.mem_cons_of_mem _ hr, h2⟩
      · rintro (h1 | ⟨row, hr, la, lo, h2⟩)
        · exact Or.inl h1
        · rcases List.mem_cons.mp hr with hcase | hcase
          · exfalso; rw [hcase] at h2; rw [h2] at hl; simp at hl
          · exact Or.inr ⟨row, hcase, la, lo, h2⟩
    · simp only [loadCitiesAux] at h
      rw [if_neg hl] at h
      rcases r with _ | ⟨a, _ | ⟨b, _ | ⟨c, _ | ⟨d, t⟩⟩⟩⟩
      · simp at hl
      · simp at hl
      · simp at hl
      · rcases hpa : parse b with _ | x <;> rcases hpb : parse c with _ | y <;>
          simp only [hpa, hpb] at h
        · exact Except.noConfusion h
        · exact Except.noConfusion h
        · exact Except.noConfusion h
        · rw [ih _ _ h k, dictFind_dictInsert_isSome]
          constructor
          · rintro ((h1 | h1) | ⟨row, hr, h2⟩)
            · exact Or.inr ⟨[a, b, c], List.mem_cons_self _ _, b, c, by rw [h1]⟩
            · exact Or.inl h1
            · exact Or.inr ⟨row, List.mem_cons_of_mem _ hr, h2⟩
          · rintro (h1 | ⟨row, hr, la, lo, h2⟩)
            · exact Or.inl (Or.inr h1)
            · rcases List.mem_cons.mp hr with hcase | hcase
              · rw [hcase] at h2
                exact Or.inl (Or.inl (by injection h2 with h3 h4; exact h3.symm))
              · exact Or.inr ⟨row, hcase, la, lo, h2⟩
      · exact Except.noConfusion h

lemma loadCitiesAux_nodup (parse : String → Option ℝ) :
    ∀ (rows : List (List String)) (acc m : List (City × Coord)),
      (acc.map Prod.fst).Nodup →
      loadCitiesAux parse rows acc = .ok m → (m.map Prod.fst).Nodup := by
  intro rows
  induction rows with
  | nil => intro acc m hacc h; cases h; exact hacc
  | cons r rest ih =>
    intro acc m hacc h
    by_cases hl : r.length < 3
    · rw [loadCitiesAux_cons_skip _ _ _ _ hl] at h
      exact ih _ _ hacc h
    · simp only [loadCitiesAux] at h
      rw [if_neg hl] at h
      rcases r with _ | ⟨a, _ | ⟨b, _ | ⟨c, _ | ⟨d, t⟩⟩⟩⟩
      · simp at hl
      · simp at hl
      · simp at hl
      · rcases hpa : parse b with _ | x <;> rcases hpb : parse c with _ | y <;>
          simp only [hpa, hpb] at h
        · exact Except.noConfusion h
        · exact Except.noConfusion h
        · exact Except.noConfusion h
        · exact ih _ _ (keysNodup_dictInsert acc a (x, y) hacc) h
      · exact Except.noConfusion h

lemma loadAdjAux_cons_skip (parts : List String) (rest : List (List String))
    (acc : Adj) (h : parts.length < 2) :
    loadAdjAux (parts :: rest) acc = loadAdjAux rest acc := by
  simp only [loadAdjAux]
  rw [if_pos h]

lemma loadAdjAux_append :
    ∀ (r1 r2 : List (List String)) (acc : Adj),
      loadAdjAux (r1 ++ r2) acc =
        match loadAdjAux r1 acc with
        | .ok acc2 => loadAdjAux r2 acc2
        | .error e => .error e := by
  intro r1
  induction r1 with
  | nil => intro r2 acc; rfl
  | cons r rest ih =>
    intro r2 acc
    simp only [List.cons_append, loadAdjAux]
    by_cases h : r.length < 2
    · rw [if_pos h, if_pos h]; exact ih r2 acc
    · rw [if_neg h, if_neg h]
      rcases r with _ | ⟨a, _ | ⟨b, _ | ⟨c, t⟩⟩⟩
      · simp at h
      · simp at h
      · exact ih r2 _
      · rfl

lemma loadAdjAux_good_ok :
    ∀ (r1 : List (List String)) (acc : Adj),
      (∀ l ∈ r1, GoodAdjLine l) → ∃ acc2, loadAdjAux r1 acc = .ok acc2 := by
  intro r1
  induction r1 with
  | nil => intro acc _; exact ⟨acc, rfl⟩
  | cons r rest ih =>
    intro acc hg
    rcases hg r (List.mem_cons_self r rest) with h | ⟨a, b, hrow⟩
    · rw [loadAdjAux_cons_skip _ _ _ h]
      exact ih acc (fun l hl => hg l (List.mem_cons_of_mem _ hl))
    · subst hrow
      simp only [loadAdjAux]
      rw [if_neg (by simp)]
      exact ih _ (fun l hl => hg l (List.mem_cons_of_mem _ hl))

/-! ### dfs and brute-force coincide. -/

lemma dfsAux_eq_bruteAux (adj : Adj) (goal : City) :
    ∀ (fuel : Nat) (st : List (City × Route)),
      dfsAux adj goal fuel st = bruteAux adj goal fuel st := by
  intro fuel
  induction fuel with
  | zero => intro st; rfl
  | succ n ih =>
    intro st
    cases st with
    | nil => rfl
    | cons e rest =>
      obtain ⟨city, path⟩ := e
      by_cases h : city = goal
      · simp [dfsAux, bruteAux, h]
      · simp [dfsAux, bruteAux, h, ih]


lemma loadCitiesAux_cons_long (parse : String → Option ℝ) (row : List String)
    (rest : List (List String)) (acc : List (City × Coord)) (h : 3 < row.length) :
    loadCitiesAux parse (row :: rest) acc = .error () := by
  rcases row with _ | ⟨a, _ | ⟨b, _ | ⟨c, _ | ⟨d, t⟩⟩⟩⟩
  · simp at h
  · simp at h
  · simp at h
  · simp at h
  · simp only [loadCitiesAux]
    rw [if_neg (by simp only [List.length_cons]; omega)]

lemma loadCitiesAux_cons_parsefail (parse : String → Option ℝ) (n la lo : String)
    (rest : List (List String)) (acc : List (City × Coord))
    (h : (parse la).isNone ∨ (parse lo).isNone) :
    loadCitiesAux parse ([n, la, lo] :: rest) acc = .error () := by
  simp only [loadCitiesAux]
  rw [if_neg (by simp)]
  rcases hpa : parse la with _ | x <;> rcases hpb : parse lo with _ | y <;>
    simp only [hpa, hpb]
  rw [hpa, hpb] at h
  simp at h

lemma loadAdjAux_cons_long (parts : List String) (rest : List (List String))
    (acc : Adj) (h : 2 < parts.length) :
    loadAdjAux (parts :: rest) acc = .error () := by
  rcases parts with _ | ⟨a, _ | ⟨b, _ | ⟨c, t⟩⟩⟩
  · simp at h
  · simp at h
  · simp at h
  · simp only [loadAdjAux]
    rw [if_neg (by simp only [List.length_cons]; omega)]

/-! ## The claims -/

/-- C9: for every pair of coordinates the haversine distance is symmetric,
and the distance from a coordinate to itself is 0; the embedding of
`haversine` is a pure function of its two arguments, so determinism holds
by construction. -/
theorem C9_haversine_symmetric_zero :
    (∀ A B : Coord, haversine A B = haversine B A) ∧
    (∀ A : Coord, haversine A A = 0) :=
  ⟨haversine_comm, haversine_self⟩

/-- C7: `dfs(start, goal, adjacency_list)` returns exactly the same result
as `brute_force_search(start, goal, adjacency_list, cities)` for every
input; `brute_force_search` ignores its `cities` argument. -/
theorem C7_dfs_eq_brute_force (start goal : City) (adj : Adj)
    (cities : City → Option Coord) :
    dfs start goal adj = brute_force_search start goal adj cities := by
  unfold dfs brute_force_search
  exact dfsAux_eq_bruteAux adj goal _ _

/-- C8: when `load_adjacency` succeeds, each well-formed line `[A, B]`
inserts both directions — `B` appears among the neighbours of `A` and `A`
among the neighbours of `B` — and in fact every neighbour list is exactly
the partners contributed by the lines in file order. -/
theorem C8_load_adjacency_bidirectional (lines : List (List String)) (m : Adj)
    (A B : City) (hok : load_adjacency lines = .ok m) (hmem : [A, B] ∈ lines) :
    B ∈ adjGet m A ∧ A ∈ adjGet m B ∧ ∀ C, adjGet m C = adjPartners C lines := by
  have hchar : ∀ C, adjGet m C = adjPartners C lines := by
    intro C
    have h := loadAdjAux_ok_partners lines [] m hok C
    have hnil : adjGet [] C = [] := rfl
    rw [hnil, List.nil_append] at h
    exact h
  refine ⟨?_, ?_, hchar⟩
  · rw [hchar A]
    unfold adjPartners
    rw [List.mem_flatMap]
    exact ⟨[A, B], hmem, by simp⟩
  · rw [hchar B]
    unfold adjPartners
    rw [List.mem_flatMap]
    refine ⟨[A, B], hmem, ?_⟩
    by_cases h : A = B <;> simp [h]

/-- Witness for C8 at a concrete input: the single line "A B" produces the
dictionary `{A: [B], B: [A]}`. -/
theorem C8_witness :
    "B" ∈ adjGet [("A", ["B"]), ("B", ["A"])] "A" ∧
    "A" ∈ adjGet [("A", ["B"]), ("B", ["A"])] "B" ∧
    ∀ C, adjGet [("A", ["B"]), ("B", ["A"])] C = adjPartners C [["A", "B"]] :=
  C8_load_adjacency_bidirectional [["A", "B"]] _ "A" "B" rfl (by simp)

/-- C5 is refuted: a malformed record with too many fields makes each
loader raise a `ValueError` from tuple unpacking (modelled `.error ()`),
not be silently dropped. -/
theorem C5_counterexample :
    load_cities (fun _ => some 0) [["a", "1", "2", "3"]] = .error () ∧
    load_adjacency [["a", "b", "c"]] = .error () :=
  ⟨rfl, rfl⟩

/-- C5 (amended): a record with fewer fields than required is silently
dropped — loading is the same as if the record were absent, so it
contributes no entry and raises nothing — but a record with *more* fields
than the unpacking expects, or (for `load_cities`) with a number `float()`
rejects, makes the loader raise once reached. -/
theorem C5_amended_malformed_records :
    (∀ (parse : String → Option ℝ) (r1 r2 : List (List String)) (row : List String),
       row.length < 3 →
       load_cities parse (r1 ++ row :: r2) = load_cities parse (r1 ++ r2)) ∧
    (∀ (r1 r2 : List (List String)) (parts : List String),
       parts.length < 2 →
       load_adjacency (r1 ++ parts :: r2) = load_adjacency (r1 ++ r2)) ∧
    (∀ (parse : String → Option ℝ) (r1 r2 : List (List String)) (row : List String),
       3 < row.length → (∀ r ∈ r1, GoodCityRow parse r) →
       load_cities parse (r1 ++ row :: r2) = .error ()) ∧
    (∀ (parse : String → Option ℝ) (r1 r2 : List (List String)) (n la lo : String),
       (parse la).isNone ∨ (parse lo).isNone → (∀ r ∈ r1, GoodCityRow parse r) →
       load_cities parse (r1 ++ [n, la, lo] :: r2) = .error ()) ∧
    (∀ (r1 r2 : List (List String)) (parts : List String),
       2 < parts.length → (∀ l ∈ r1, GoodAdjLine l) →
       load_adjacency (r1 ++ parts :: r2) = .error ()) := by
  refine ⟨?_, ?_, ?_, ?_, ?_⟩
  · intro parse r1 r2 row hlen
    unfold load_cities
    rw [loadCitiesAux_append, loadCitiesAux_append]
    cases h1 : loadCitiesAux parse r1 [] with
    | error e => rfl
    | ok acc2 => exact loadCitiesAux_cons_skip parse row r2 acc2 hlen
  · intro r1 r2 parts hlen
    unfold load_adjacency
    rw [loadAdjAux_append, loadAdjAux_append]
    cases h1 : loadAdjAux r1 [] with
    | error e => rfl
    | ok acc2 => exact loadAdjAux_cons_skip parts r2 acc2 hlen
  · intro parse r1 r2 row hlen hgood
    unfold load_cities
    rw [loadCitiesAux_append]
    obtain ⟨acc2, hok⟩ := loadCitiesAux_good_ok parse r1 [] hgood
    rw [hok]
    exact loadCitiesAux_cons_long parse row r2 acc2 hlen
  · intro parse r1 r2 n la lo hfail hgood
    unfold load_cities
    rw [loadCitiesAux_append]
    obtain ⟨acc2, hok⟩ := loadCitiesAux_good_ok parse r1 [] hgood
    rw [hok]
    exact loadCitiesAux_cons_parsefail parse n la lo r2 acc2 hfail
  · intro r1 r2 parts hlen hgood
    unfold load_adjacency
    rw [loadAdjAux_append]
    obtain ⟨acc2, hok⟩ := loadAdjAux_good_ok r1 [] hgood
    rw [hok]
    exact loadAdjAux_cons_long parts r2 acc2 hlen

/-- Witness for the amended C5 at concrete inputs. -/
theorem C5_witness :
    load_cities (fun _ => some 0) ([] ++ ["x"] :: [["a", "1", "2"]]) =
      load_cities (fun _ => some 0) ([] ++ [["a", "1", "2"]]) ∧
    load_adjacency ([["a", "b"]] ++ ["x"] :: []) = load_adjacency ([["a", "b"]] ++ []) ∧
    load_cities (fun _ => some 0) ([] ++ ["a", "b", "c", "d"] :: []) = .error () ∧
    load_cities (fun _ => none) ([] ++ ["a", "b", "c"] :: []) = .error () ∧
    load_adjacency ([] ++ ["a", "b", "c"] :: []) = .error () :=
  ⟨C5_amended_malformed_records.1 _ [] _ _ (by simp),
   C5_amended_malformed_records.2.1 _ _ _ (by simp),
   C5_amended_malformed_records.2.2.1 _ [] _ _ (by simp) (by simp),
   C5_amended_malformed_records.2.2.2.1 _ [] _ _ _ _ (Or.inl rfl) (by simp),
   C5_amended_malformed_records.2.2.2.2 [] _ _ (by simp only [List.length_cons]; omega) (by simp)⟩

/-- C10: when `load_cities` succeeds, the returned dictionary has no
duplicate names (one entry per distinct name), a name is present exactly
when some well-formed row carries it, and a name whose last well-formed row
is `[name, la, lo]` is bound to the parsed coordinates of that row (later
rows silently overwrite earlier ones). -/
theorem C10_load_cities_last_wins (parse : String → Option ℝ)
    (rows : List (List String)) (m : List (City × Coord))
    (hok : load_cities parse rows = .ok m) :
    (m.map Prod.fst).Nodup ∧
    (∀ k, (dictFind m k).isSome ↔ ∃ row ∈ rows, ∃ la lo, row = [k, la, lo]) ∧
    (∀ name r1 r2 la lo x y,
       rows = r1 ++ [name, la, lo] :: r2 →
       (∀ row ∈ r2, ¬ ∃ a b, row = [name, a, b]) →
       parse la = some x → parse lo = some y →
       dictFind m name = some (x, y)) := by
  unfold load_cities at hok
  refine ⟨loadCitiesAux_nodup parse rows [] m (by simp) hok, ?_, ?_⟩
  · intro k
    rw [loadCitiesAux_keys parse rows [] m hok k]
    simp [dictFind]
  · intro name r1 r2 la lo x y hsplit hlast hla hlo
    subst hsplit
    rw [loadCitiesAux_append] at hok
    cases h1 : loadCitiesAux parse r1 [] with
    | error e => rw [h1] at hok; exact Except.noConfusion hok
    | ok acc2 =>
      rw [h1] at hok
      simp only [loadCitiesAux] at hok
      rw [if_neg (by simp)] at hok
      simp only [hla, hlo] at hok
      rw [loadCitiesAux_untouched parse name r2 _ m hlast hok]
      exact dictFind_dictInsert_self acc2 name (x, y)

/-- Witness for C10 at a concrete input: of two rows for name "a", the
later one wins. -/
theorem C10_witness :
    dictFind [("a", ((3 : ℝ), (4 : ℝ)))] "a" = some (3, 4) :=
  (C10_load_cities_last_wins
      (fun s => if s = "3" then some 3 else if s = "4" then some 4 else some 0)
      [["a", "1", "2"], ["a", "3", "4"]] [("a", (3, 4))] rfl).2.2
    "a" [["a", "1", "2"]] [] "3" "4" 3 4 rfl (by simp) rfl rfl


/-! ### Popping the goal immediately. -/

lemma bruteAux_pop_goal (adj : Adj) (goal : City) (fuel : Nat) (city : City)
    (path : Route) (stack : List (City × Route)) (h : city = goal) :
    bruteAux adj goal (fuel + 1) ((city, path) :: stack) = some (.found path) := by
  simp only [bruteAux]
  rw [if_pos h]

lemma bfsAux_pop_goal (adj : Adj) (goal : City) (fuel : Nat) (city : City)
    (path : Route) (queue : List (City × Route)) (h : city = goal) :
    bfsAux adj goal (fuel + 1) ((city, path) :: queue) = some (.found path) := by
  simp only [bfsAux]
  rw [if_pos h]

lemma dfsAux_pop_goal (adj : Adj) (goal : City) (fuel : Nat) (city : City)
    (path : Route) (stack : List (City × Route)) (h : city = goal) :
    dfsAux adj goal (fuel + 1) ((city, path) :: stack) = some (.found path) := by
  simp only [dfsAux]
  rw [if_pos h]

lemma bestAux_pop_goal (adj : Adj) (cities : City → Option Coord) (goal : City)
    (gc : Coord) (fuel : Nat) (f : ℝ) (path : Route) :
    bestAux adj cities goal gc (fuel + 1) [(f, goal, path)] = some (.found path) := by
  simp only [bestAux, popMinWith]
  simp

lemma aStarAux_pop_goal (adj : Adj) (cities : City → Option Coord) (goal : City)
    (fuel : Nat) (f g : ℝ) (path : Route) (vis : City → Option ℝ) :
    aStarAux adj cities goal (fuel + 1) [(f, goal, path, g)] vis = some (.found path) := by
  simp only [aStarAux, popMinWith]
  simp

/-- C4: when start equals goal, each of the five search functions returns
the single-element route `[start]` immediately (the goal test precedes any
expansion), for any adjacency map and any location map containing the
start. -/
theorem C4_start_eq_goal (start : City) (adj : Adj) (cities : City → Option Coord)
    (cs : Coord) (hs : cities start = some cs) :
    brute_force_search start start adj cities = some (.found [start]) ∧
    bfs start start adj = some (.found [start]) ∧
    dfs start start adj = some (.found [start]) ∧
    best_first_search start start adj cities = some (.found [start]) ∧
    a_star_search start start adj cities = some (.found [start]) := by
  refine ⟨?_, ?_, ?_, ?_, ?_⟩
  · exact bruteAux_pop_goal adj start _ start [start] [] rfl
  · exact bfsAux_pop_goal adj start _ start [start] [] rfl
  · exact dfsAux_pop_goal adj start _ start [start] [] rfl
  · unfold best_first_search
    rw [hs]
    exact bestAux_pop_goal adj cities start cs _ _ [start]
  · exact aStarAux_pop_goal adj cities start _ 0 0 [start] (fun _ => none)

/-- Witness for C4 at a concrete input. -/
theorem C4_witness :
    brute_force_search "A" "A" [] (fun _ => some ((0 : ℝ), (0 : ℝ))) =
      some (.found ["A"]) ∧
    bfs "A" "A" [] = some (.found ["A"]) ∧
    dfs "A" "A" [] = some (.found ["A"]) ∧
    best_first_search "A" "A" [] (fun _ => some ((0 : ℝ), (0 : ℝ))) =
      some (.found ["A"]) ∧
    a_star_search "A" "A" [] (fun _ => some ((0 : ℝ), (0 : ℝ))) =
      some (.found ["A"]) :=
  C4_start_eq_goal "A" [] (fun _ => some ((0 : ℝ), (0 : ℝ))) (0, 0) rfl


/-! ### Basic route lemmas. -/

/-- The last city of a route (routes in the searches are never empty). -/
def lastOf (p : Route) : City := p.getLastD ""

/-- Heuristic distance between two cities through the location map (the
default is never read on lookups the program actually performs). -/
noncomputable def cdist (cities : City → Option Coord) (n m : City) : ℝ :=
  haversine ((cities n).getD (0, 0)) ((cities m).getD (0, 0))

lemma cdist_nonneg (cities : City → Option Coord) (n m : City) : 0 ≤ cdist cities n m :=
  haversine_nonneg _ _

lemma cdist_triangle (cities : City → Option Coord) (n k m : City) :
    cdist cities n m ≤ cdist cities n k + cdist cities k m :=
  haversine_triangle _ _ _

lemma cdist_self (cities : City → Option Coord) (n : City) : cdist cities n n = 0 :=
  haversine_self _

lemma routeDistance_cons_cons (cities : City → Option Coord) (a b : City) (rest : Route) :
    routeDistance cities (a :: b :: rest) =
      cdist cities a b + routeDistance cities (b :: rest) := rfl

lemma routeDistance_nonneg (cities : City → Option Coord) :
    ∀ p : Route, 0 ≤ routeDistance cities p := by
  intro p
  induction p with
  | nil => simp [routeDistance]
  | cons a rest ih =>
    cases rest with
    | nil => simp [routeDistance]
    | cons b rest2 =>
      rw [routeDistance_cons_cons]
      have := cdist_nonneg cities a b
      linarith

lemma routeDistance_append_last (cities : City → Option Coord) :
    ∀ (p : Route) (n : City), p ≠ [] →
      routeDistance cities (p ++ [n]) =
        routeDistance cities p + cdist cities (lastOf p) n := by
  intro p
  induction p with
  | nil => intro n h; exact absurd rfl h
  | cons a rest ih =>
    intro n _
    cases rest with
    | nil =>
      simp [routeDistance, lastOf, cdist]
    | cons b rest2 =>
      have hr := ih n (by simp)
      simp only [List.cons_append, routeDistance_cons_cons] at *
      rw [hr]
      have hlast : lastOf (a :: b :: rest2) = lastOf (b :: rest2) := by
        simp [lastOf, List.getLastD_cons]
      rw [hlast]
      ring

lemma routeDistance_prefix_le (cities : City → Option Coord) :
    ∀ p q : Route, routeDistance cities p ≤ routeDistance cities (p ++ q) := by
  intro p
  induction p with
  | nil => intro q; simpa [routeDistance] using routeDistance_nonneg cities q
  | cons a rest ih =>
    intro q
    cases rest with
    | nil =>
      cases q with
      | nil => simp
      | cons c q2 =>
        have h1 := routeDistance_nonneg cities (c :: q2)
        have h2 := cdist_nonneg cities a c
        simp only [List.cons_append, List.nil_append, routeDistance_cons_cons]
        simp [routeDistance]
        linarith
    | cons b rest2 =>
      have hr := ih q
      simp only [List.cons_append, routeDistance_cons_cons] at *
      linarith

/-! ### ValidRoute lemmas. -/

lemma validRoute_ne_nil {adj : Adj} {s g : City} {p : Route}
    (h : ValidRoute adj s g p) : p ≠ [] := by
  cases p with
  | nil => exact absurd h (by simp [ValidRoute])
  | cons a rest => simp

lemma validRoute_head {adj : Adj} {s g : City} :
    ∀ {p : Route}, ValidRoute adj s g p → p.head? = some s := by
  intro p h
  cases p with
  | nil => exact absurd h (by simp [ValidRoute])
  | cons a rest =>
    cases rest with
    | nil => simp [ValidRoute] at h; simp [h.1]
    | cons b rest2 => simp [ValidRoute] at h; simp [h.1]

lemma validRoute_last {adj : Adj} {s g : City} :
    ∀ {p : Route}, ValidRoute adj s g p → lastOf p = g := by
  intro p
  induction p generalizing s with
  | nil => intro h; exact absurd h (by simp [ValidRoute])
  | cons a rest ih =>
    intro h
    cases rest with
    | nil =>
      simp [ValidRoute] at h
      simp [lastOf, h.2]
    | cons b rest2 =>
      simp only [ValidRoute] at h
      have := ih h.2.2
      simpa [lastOf, List.getLastD_cons] using this

lemma validRoute_extend {adj : Adj} {s c : City} :
    ∀ {p : Route}, ValidRoute adj s c p → ∀ {n : City}, n ∈ adjGet adj c →
      ValidRoute adj s n (p ++ [n]) := by
  intro p
  induction p generalizing s with
  | nil => intro h; exact absurd h (by simp [ValidRoute])
  | cons a rest ih =>
    intro h n hn
    cases rest with
    | nil =>
      simp [ValidRoute] at h
      obtain ⟨h1, h2⟩ := h
      subst h1; subst h2
      exact ⟨rfl, ⟨hn, ⟨rfl, rfl⟩⟩⟩
    | cons b rest2 =>
      simp only [ValidRoute] at h
      obtain ⟨h1, h2, h3⟩ := h
      subst h1
      exact ⟨rfl, h2, ih h3 hn⟩

lemma validRoute_singleton {adj : Adj} {s : City} : ValidRoute adj s s [s] := ⟨rfl, rfl⟩

lemma adjGet_mem_flat {adj : Adj} {c n : City} (h : n ∈ adjGet adj c) :
    n ∈ adj.flatMap (fun kv => kv.1 :: kv.2) := by
  unfold adjGet dictFind at h
  cases hfind : adj.find? (fun kv => kv.1 = c) with
  | none => rw [hfind] at h; simp at h
  | some kv =>
    rw [hfind] at h
    simp at h
    have hkv := List.mem_of_find?_eq_some hfind
    rw [List.mem_flatMap]
    exact ⟨kv, hkv, by simp [h]⟩

lemma validRoute_mem_verts {adj : Adj} {start : City} :
    ∀ {c : City} {p : Route}, ValidRoute adj start c p → ∀ x ∈ p, x ∈ verts adj start := by
  have key : ∀ (p : Route) (s c : City), ValidRoute adj s c p →
      ∀ x ∈ p, x = s ∨ x ∈ adj.flatMap (fun kv => kv.1 :: kv.2) := by
    intro p
    induction p with
    | nil => intro s c h; exact absurd h (by simp [ValidRoute])
    | cons a rest ih =>
      intro s c h x hx
      cases rest with
      | nil =>
        simp [ValidRoute] at h
        simp at hx
        exact Or.inl (hx.trans h.1)
      | cons b rest2 =>
        simp only [ValidRoute] at h
        obtain ⟨h1, h2, h3⟩ := h
        rcases List.mem_cons.mp hx with hxa | hxrest
        · exact Or.inl (hxa.trans h1)
        · rcases ih b c h3 x hxrest with hxb | hflat
          · exact Or.inr (by rw [hxb]; exact adjGet_mem_flat h2)
          · exact Or.inr hflat
  intro c p h x hx
  rcases key p start c h x hx with h1 | h1
  · rw [h1]; exact List.mem_cons_self _ _
  · exact List.mem_cons_of_mem _ h1

/-! ### Heap-model lemmas. -/

lemma popMinWith_perm {α : Type} (le : α → α → Bool) :
    ∀ (l : List α) (m : α) (rest : List α),
      popMinWith le l = some (m, rest) → l.Perm (m :: rest) := by
  intro l
  induction l with
  | nil => intro m rest h; exact Option.noConfusion h
  | cons e l0 ih =>
    intro m rest h
    simp only [popMinWith] at h
    cases h0 : popMinWith le l0 with
    | none =>
      rw [h0] at h
      cases l0 with
      | nil =>
        injection h with h1
        injection h1 with h2 h3
        subst h2; subst h3
        exact List.Perm.refl _
      | cons y ys =>
        exfalso
        simp only [popMinWith] at h0
        cases h1 : popMinWith le ys with
        | none => rw [h1] at h0; exact Option.noConfusion h0
        | some p =>
          rw [h1] at h0
          obtain ⟨m1, rest1⟩ := p
          by_cases hle : le y m1 <;> simp [hle] at h0
    | some p =>
      obtain ⟨m0, rest0⟩ := p
      rw [h0] at h
      have hperm0 := ih m0 rest0 h0
      by_cases hle : le e m0
      · simp only [hle, if_true] at h
        injection h with h1
        injection h1 with h2 h3
        subst h2; subst h3
        exact List.Perm.refl _
      · simp only [Bool.not_eq_true] at hle
        simp only [hle, Bool.false_eq_true, if_false] at h
        injection h with h1
        injection h1 with h2 h3
        subst h2; subst h3
        exact (List.Perm.cons e hperm0).trans (List.Perm.swap m0 e rest0)

lemma popMinWith_none {α : Type} (le : α → α → Bool) :
    ∀ l : List α, popMinWith le l = none ↔ l = [] := by
  intro l
  cases l with
  | nil => simp [popMinWith]
  | cons e l0 =>
    simp only [popMinWith]
    cases h0 : popMinWith le l0 with
    | none => simp
    | some p => obtain ⟨m, r⟩ := p; by_cases hle : le e m <;> simp [hle]

lemma popMinWith_min {α : Type} (le : α → α → Bool)
    (htot : ∀ a b : α, le a b ∨ le b a)
    (htrans : ∀ a b c : α, le a b → le b c → le a c) :
    ∀ (l : List α) (m : α) (rest : List α),
      popMinWith le l = some (m, rest) → ∀ x ∈ l, le m x := by
  intro l
  induction l with
  | nil => intro m rest h; exact Option.noConfusion h
  | cons e l0 ih =>
    intro m rest h x hx
    simp only [popMinWith] at h
    cases h0 : popMinWith le l0 with
    | none =>
      rw [h0] at h
      have hl0 : l0 = [] := (popMinWith_none le l0).mp h0
      subst hl0
      injection h with h1
      injection h1 with h2 h3
      rw [← h2]
      simp only [List.mem_singleton] at hx
      rw [hx]
      rcases htot e e with hh | hh <;> exact hh
    | some p =>
      obtain ⟨m0, rest0⟩ := p
      rw [h0] at h
      by_cases hle : le e m0
      · simp only [hle, if_true] at h
        injection h with h1
        injection h1 with h2 h3
        rw [← h2]
        rcases List.mem_cons.mp hx with hxe | hx0
        · rw [hxe]
          rcases htot e e with hh | hh <;> exact hh
        · exact htrans _ _ _ hle (ih m0 rest0 h0 x hx0)
      · have hle2 : le e m0 = false := by
          rcases Bool.eq_false_or_eq_true (le e m0) with hh | hh
          · exact absurd hh hle
          · exact hh
        simp only [hle2, Bool.false_eq_true, if_false] at h
        injection h with h1
        injection h1 with h2 h3
        rw [← h2]
        rcases List.mem_cons.mp hx with hxe | hx0
        · rw [hxe]
          rcases htot e m0 with hh | hh
          · rw [hle2] at hh; exact Bool.noConfusion hh
          · exact hh
        · exact ih m0 rest0 h0 x hx0

/-! ### lookupAll lemmas. -/

lemma lookupAll_spec (cities : City → Option Coord) :
    ∀ (ns : List City) (l : List (City × Coord)),
      lookupAll cities ns = some l →
      l.map Prod.fst = ns ∧ ∀ nc ∈ l, cities nc.1 = some nc.2 := by
  intro ns
  induction ns with
  | nil =>
    intro l h
    simp only [lookupAll] at h
    injection h with h1
    subst h1
    simp
  | cons n ns0 ih =>
    intro l h
    simp only [lookupAll] at h
    cases hc : cities n with
    | none => rw [hc] at h; exact Option.noConfusion h
    | some c =>
      rw [hc] at h
      cases h0 : lookupAll cities ns0 with
      | none => rw [h0] at h; exact Option.noConfusion h
      | some l0 =>
        rw [h0] at h
        simp only [Option.map_some'] at h
        injection h with h1
        subst h1
        obtain ⟨ih1, ih2⟩ := ih l0 h0
        refine ⟨by simp [ih1], ?_⟩
        intro nc hnc
        rcases List.mem_cons.mp hnc with h2 | h2
        · rw [h2]; exact hc
        · exact ih2 nc h2

lemma lookupAll_isSome (cities : City → Option Coord) :
    ∀ ns : List City, (∀ n ∈ ns, (cities n).isSome) →
      ∃ l, lookupAll cities ns = some l := by
  intro ns
  induction ns with
  | nil => intro _; exact ⟨[], rfl⟩
  | cons n ns0 ih =>
    intro h
    obtain ⟨c, hc⟩ := Option.isSome_iff_exists.mp (h n (List.mem_cons_self _ _))
    obtain ⟨l0, hl0⟩ := ih (fun x hx => h x (List.mem_cons_of_mem _ hx))
    exact ⟨(n, c) :: l0, by simp only [lookupAll, hc, hl0, Option.map_some']⟩


/-! ### Soundness of the stack/queue searches: every found route is a
valid simple route from start to goal. -/

lemma nodup_push (p : Route) (n : City) (h1 : p.Nodup) (h2 : n ∉ p) :
    (p ++ [n]).Nodup := by
  rw [List.nodup_append]
  refine ⟨h1, List.nodup_singleton n, ?_⟩
  intro a ha hb
  simp only [List.mem_singleton] at hb
  rw [hb] at ha
  exact h2 ha

/-- The entry invariant for `brute_force_search` / `bfs` / `dfs` /
`best_first_search`: the carried route is a valid simple route from the
start to the entry's city. -/
def EntryInv (adj : Adj) (start : City) (e : City × Route) : Prop :=
  ValidRoute adj start e.1 e.2 ∧ e.2.Nodup

lemma entryInv_push {adj : Adj} {start city : City} {path : Route}
    (h : EntryInv adj start (city, path)) {n : City}
    (hn : n ∈ (adjGet adj city).filter (fun x => !path.contains x)) :
    EntryInv adj start (n, path ++ [n]) := by
  obtain ⟨hadj, hnp⟩ := List.mem_filter.mp hn
  have hnotin : n ∉ path := by simpa using hnp
  exact ⟨validRoute_extend h.1 hadj, nodup_push _ _ h.2 hnotin⟩

lemma bruteAux_found {adj : Adj} {start goal : City} :
    ∀ (fuel : Nat) (st : List (City × Route)) (r : Route),
      (∀ e ∈ st, EntryInv adj start e) →
      bruteAux adj goal fuel st = some (.found r) →
      ValidRoute adj start goal r ∧ r.Nodup := by
  intro fuel
  induction fuel with
  | zero =>
    intro st r _ h
    simp only [bruteAux] at h
    exact Option.noConfusion h
  | succ n ih =>
    intro st r hinv h
    cases st with
    | nil =>
      simp only [bruteAux] at h
      injection h with h1
      exact SResult.noConfusion h1
    | cons e rest =>
      obtain ⟨city, path⟩ := e
      simp only [bruteAux] at h
      by_cases hg : city = goal
      · rw [if_pos hg] at h
        injection h with h1
        injection h1 with h2
        have hh := hinv (city, path) (List.mem_cons_self _ _)
        rw [← h2, ← hg]
        exact hh
      · rw [if_neg hg] at h
        apply ih _ r _ h
        intro e' he'
        rcases List.mem_append.mp he' with hpu | hre
        · rw [List.mem_reverse] at hpu
          obtain ⟨x, hx, hxe⟩ := List.mem_map.mp hpu
          rw [← hxe]
          exact entryInv_push (hinv (city, path) (List.mem_cons_self _ _)) hx
        · exact hinv e' (List.mem_cons_of_mem _ hre)

lemma bfsAux_found {adj : Adj} {start goal : City} :
    ∀ (fuel : Nat) (st : List (City × Route)) (r : Route),
      (∀ e ∈ st, EntryInv adj start e) →
      bfsAux adj goal fuel st = some (.found r) →
      ValidRoute adj start goal r ∧ r.Nodup := by
  intro fuel
  induction fuel with
  | zero =>
    intro st r _ h
    simp only [bfsAux] at h
    exact Option.noConfusion h
  | succ n ih =>
    intro st r hinv h
    cases st with
    | nil =>
      simp only [bfsAux] at h
      injection h with h1
      exact SResult.noConfusion h1
    | cons e rest =>
      obtain ⟨city, path⟩ := e
      simp only [bfsAux] at h
      by_cases hg : city = goal
      · rw [if_pos hg] at h
        injection h with h1
        injection h1 with h2
        have hh := hinv (city, path) (List.mem_cons_self _ _)
        rw [← h2, ← hg]
        exact hh
      · rw [if_neg hg] at h
        apply ih _ r _ h
        intro e' he'
        rcases List.mem_append.mp he' with hre | hpu
        · exact hinv e' (List.mem_cons_of_mem _ hre)
        · obtain ⟨x, hx, hxe⟩ := List.mem_map.mp hpu
          rw [← hxe]
          exact entryInv_push (hinv (city, path) (List.mem_cons_self _ _)) hx

/-- The entry invariant for the best-first heap entries. -/
def BEntryInv (adj : Adj) (start : City) (e : ℝ × City × Route) : Prop :=
  ValidRoute adj start e.2.1 e.2.2 ∧ e.2.2.Nodup

lemma bestAux_found {adj : Adj} {start goal : City}
    {cities : City → Option Coord} {gc : Coord} :
    ∀ (fuel : Nat) (pq : List (ℝ × City × Route)) (r : Route),
      (∀ e ∈ pq, BEntryInv adj start e) →
      bestAux adj cities goal gc fuel pq = some (.found r) →
      ValidRoute adj start goal r ∧ r.Nodup := by
  intro fuel
  induction fuel with
  | zero =>
    intro pq r _ h
    simp only [bestAux] at h
    exact Option.noConfusion h
  | succ n ih =>
    intro pq r hinv h
    simp only [bestAux] at h
    cases hpop : popMinWith bestLe pq with
    | none =>
      rw [hpop] at h
      injection h with h1
      exact SResult.noConfusion h1
    | some p =>
      obtain ⟨⟨f, city, path⟩, rest⟩ := p
      rw [hpop] at h
      dsimp only at h
      have hperm := popMinWith_perm bestLe pq _ _ hpop
      have hmempq : ∀ x ∈ (f, city, path) :: rest, x ∈ pq :=
        fun x hx => hperm.symm.subset hx
      by_cases hg : city = goal
      · rw [if_pos hg] at h
        injection h with h1
        injection h1 with h2
        have hh := hinv (f, city, path) (hmempq _ (List.mem_cons_self _ _))
        rw [← h2, ← hg]
        exact hh
      · rw [if_neg hg] at h
        cases hlook : lookupAll cities ((adjGet adj city).filter (fun x => !path.contains x)) with
        | none =>
          rw [hlook] at h
          dsimp only at h
          injection h with h1
          exact SResult.noConfusion h1
        | some ncs =>
          rw [hlook] at h
          dsimp only at h
          apply ih _ r _ h
          intro e' he'
          rcases List.mem_append.mp he' with hre | hpu
          · exact hinv e' (hmempq _ (List.mem_cons_of_mem _ hre))
          · obtain ⟨nc, hnc, hne⟩ := List.mem_map.mp hpu
            obtain ⟨hmapfst, _⟩ := lookupAll_spec cities _ ncs hlook
            have hn : nc.1 ∈ (adjGet adj city).filter (fun x => !path.contains x) := by
              rw [← hmapfst]
              exact List.mem_map_of_mem Prod.fst hnc
            rw [← hne]
            have hh := hinv (f, city, path) (hmempq _ (List.mem_cons_self _ _))
            exact entryInv_push ⟨hh.1, hh.2⟩ hn


/-! ### Fuel sufficiency for the stack/queue searches. -/

/-- Termination measure: each route of length `L` in the frontier weighs
`B ^ (B - L)`. -/
def routesMeasure (B : Nat) (ps : List Route) : Nat :=
  (ps.map (fun p => B ^ (B - p.length))).sum

lemma routesMeasure_append (B : Nat) (l1 l2 : List Route) :
    routesMeasure B (l1 ++ l2) = routesMeasure B l1 + routesMeasure B l2 := by
  simp [routesMeasure]

lemma routesMeasure_reverse (B : Nat) (l : List Route) :
    routesMeasure B l.reverse = routesMeasure B l := by
  simp only [routesMeasure, List.map_reverse]
  exact List.sum_reverse _

lemma routesMeasure_cons (B : Nat) (p : Route) (l : List Route) :
    routesMeasure B (p :: l) = B ^ (B - p.length) + routesMeasure B l := by
  simp [routesMeasure]

lemma routesMeasure_const_len (B L : Nat) :
    ∀ ps : List Route, (∀ p ∈ ps, p.length = L) →
      routesMeasure B ps = ps.length * B ^ (B - L) := by
  intro ps
  induction ps with
  | nil => intro _; simp [routesMeasure]
  | cons p l ih =>
    intro h
    rw [routesMeasure_cons, ih (fun q hq => h q (List.mem_cons_of_mem _ hq)),
      h p (List.mem_cons_self _ _), List.length_cons]
    ring

lemma nodup_length_le (p : Route) (V : List City) (h1 : p.Nodup)
    (h2 : ∀ x ∈ p, x ∈ V) : p.length ≤ V.length := by
  have hc1 : p.toFinset.card = p.length := List.toFinset_card_of_nodup h1
  have hsub : p.toFinset ⊆ V.toFinset := by
    intro x hx
    rw [List.mem_toFinset] at hx ⊢
    exact h2 x hx
  have hc2 : p.toFinset.card ≤ V.toFinset.card := Finset.card_le_card hsub
  have hc3 : V.toFinset.card ≤ V.length := V.toFinset_card_le
  omega

lemma adjGet_length_le (adj : Adj) (c start : City) :
    (adjGet adj c).length ≤ (verts adj start).length := by
  unfold adjGet dictFind
  cases hfind : adj.find? (fun kv => kv.1 = c) with
  | none => simp
  | some kv =>
    simp only [Option.map_some', Option.getD_some]
    have hkv := List.mem_of_find?_eq_some hfind
    obtain ⟨s, t, hst⟩ := List.append_of_mem hkv
    have hlen : kv.2.length + 1 ≤ (adj.flatMap (fun kv => kv.1 :: kv.2)).length := by
      rw [hst, List.flatMap_append, List.flatMap_cons]
      simp only [List.length_append, List.length_cons]
      omega
    unfold verts
    simp only [List.length_cons]
    omega

lemma pow_step_lt (B L k : Nat) (hB : 0 < B) (hk : k < B) (hL1 : L + 1 ≤ B) :
    k * B ^ (B - (L + 1)) < B ^ (B - L) := by
  have h1 : B - L = (B - (L + 1)) + 1 := by omega
  rw [h1, pow_succ]
  have hX : 0 < B ^ (B - (L + 1)) := Nat.pos_pow_of_pos _ hB
  calc k * B ^ (B - (L + 1)) < B * B ^ (B - (L + 1)) :=
        Nat.mul_lt_mul_of_lt_of_le hk (Nat.le_refl _) hX
    _ = B ^ (B - (L + 1)) * B := Nat.mul_comm _ _

/-- The measure strictly decreases at every expansion step: popping an
entry with route `p` and pushing at most `k < B` routes of length
`p.length + 1`. -/
lemma routesMeasure_step {B : Nat} {path : Route} {pushed rest : List Route}
    (hB : 0 < B) (hk : pushed.length < B)
    (hlen : ∀ q ∈ pushed, q.length = path.length + 1)
    (hL1 : path.length + 1 ≤ B) :
    routesMeasure B pushed + routesMeasure B rest <
      routesMeasure B (path :: rest) := by
  rw [routesMeasure_cons]
  have h1 : routesMeasure B pushed = pushed.length * B ^ (B - (path.length + 1)) :=
    routesMeasure_const_len B (path.length + 1) pushed hlen
  have h2 := pow_step_lt B path.length pushed.length hB hk hL1
  omega

lemma entryInv_length_le {adj : Adj} {start : City} {city : City} {path : Route}
    (h : EntryInv adj start (city, path)) :
    path.length ≤ (verts adj start).length :=
  nodup_length_le path (verts adj start) h.2
    (validRoute_mem_verts h.1)

lemma entryInv_length_pos {adj : Adj} {start : City} {city : City} {path : Route}
    (h : EntryInv adj start (city, path)) : 0 < path.length := by
  have := validRoute_ne_nil h.1
  cases path with
  | nil => exact absurd rfl this
  | cons a l => simp

lemma pushed_entries_spec (adj : Adj) (city : City) (path : Route) :
    ∀ e ∈ ((adjGet adj city).filter (fun x => !path.contains x)).map
        (fun x => (x, path ++ [x])),
      e.2.length = path.length + 1 := by
  intro e he
  obtain ⟨x, _, hxe⟩ := List.mem_map.mp he
  rw [← hxe]
  simp

lemma pushed_entries_count (adj : Adj) (start city : City) (path : Route) :
    (((adjGet adj city).filter (fun x => !path.contains x)).map
        (fun x => (x, path ++ [x]))).length ≤ (verts adj start).length := by
  rw [List.length_map]
  exact le_trans (List.length_filter_le _ _) (adjGet_length_le adj city start)

lemma bruteAux_ne_none {adj : Adj} {start goal : City} :
    ∀ (fuel : Nat) (st : List (City × Route)),
      (∀ e ∈ st, EntryInv adj start e) →
      routesMeasure ((verts adj start).length + 2) (st.map Prod.snd) < fuel →
      bruteAux adj goal fuel st ≠ none := by
  intro fuel
  induction fuel with
  | zero => intro st _ hm; exact absurd hm (Nat.not_lt_zero _)
  | succ n ih =>
    intro st hinv hm
    cases st with
    | nil =>
      intro habs
      simp only [bruteAux] at habs
      exact Option.noConfusion habs
    | cons e rest =>
      obtain ⟨city, path⟩ := e
      simp only [bruteAux]
      by_cases hg : city = goal
      · rw [if_pos hg]; exact fun habs => Option.noConfusion habs
      · rw [if_neg hg]
        have hhead := hinv (city, path) (List.mem_cons_self _ _)
        apply ih
        · intro e' he'
          rcases List.mem_append.mp he' with hpu | hre
          · rw [List.mem_reverse] at hpu
            obtain ⟨x, hx, hxe⟩ := List.mem_map.mp hpu
            rw [← hxe]
            exact entryInv_push hhead hx
          · exact hinv e' (List.mem_cons_of_mem _ hre)
        · rw [List.map_append, List.map_reverse, routesMeasure_append,
            routesMeasure_reverse]
          have hstep : routesMeasure ((verts adj start).length + 2)
                ((((adjGet adj city).filter (fun x => !path.contains x)).map
                  (fun x => (x, path ++ [x]))).map Prod.snd) +
              routesMeasure ((verts adj start).length + 2) (rest.map Prod.snd) <
              routesMeasure ((verts adj start).length + 2)
                (path :: rest.map Prod.snd) := by
            apply routesMeasure_step
            · omega
            · rw [List.length_map]
              have := pushed_entries_count adj start city path
              omega
            · intro q hq
              obtain ⟨e2, he2, he2q⟩ := List.mem_map.mp hq
              rw [← he2q]
              exact pushed_entries_spec adj city path e2 he2
            · have := entryInv_length_le hhead
              omega
          simp only [List.map_cons] at hm
          rw [routesMeasure_cons] at hm
          rw [routesMeasure_cons] at hstep
          omega

lemma bfsAux_ne_none {adj : Adj} {start goal : City} :
    ∀ (fuel : Nat) (st : List (City × Route)),
      (∀ e ∈ st, EntryInv adj start e) →
      routesMeasure ((verts adj start).length + 2) (st.map Prod.snd) < fuel →
      bfsAux adj goal fuel st ≠ none := by
  intro fuel
  induction fuel with
  | zero => intro st _ hm; exact absurd hm (Nat.not_lt_zero _)
  | succ n ih =>
    intro st hinv hm
    cases st with
    | nil =>
      intro habs
      simp only [bfsAux] at habs
      exact Option.noConfusion habs
    | cons e rest =>
      obtain ⟨city, path⟩ := e
      simp only [bfsAux]
      by_cases hg : city = goal
      · rw [if_pos hg]; exact fun habs => Option.noConfusion habs
      · rw [if_neg hg]
        have hhead := hinv (city, path) (List.mem_cons_self _ _)
        apply ih
        · intro e' he'
          rcases List.mem_append.mp he' with hre | hpu
          · exact hinv e' (List.mem_cons_of_mem _ hre)
          · obtain ⟨x, hx, hxe⟩ := List.mem_map.mp hpu
            rw [← hxe]
            exact entryInv_push hhead hx
        · rw [List.map_append, routesMeasure_append]
          have hstep : routesMeasure ((verts adj start).length + 2)
                ((((adjGet adj city).filter (fun x => !path.contains x)).map
                  (fun x => (x, path ++ [x]))).map Prod.snd) +
              routesMeasure ((verts adj start).length + 2) (rest.map Prod.snd) <
              routesMeasure ((verts adj start).length + 2)
                (path :: rest.map Prod.snd) := by
            apply routesMeasure_step
            · omega
            · rw [List.length_map]
              have := pushed_entries_count adj start city path
              omega
            · intro q hq
              obtain ⟨e2, he2, he2q⟩ := List.mem_map.mp hq
              rw [← he2q]
              exact pushed_entries_spec adj city path e2 he2
            · have := entryInv_length_le hhead
              omega
          simp only [List.map_cons] at hm
          rw [routesMeasure_cons] at hm
          rw [routesMeasure_cons] at hstep
          omega


lemma routesMeasure_perm (B : Nat) {l1 l2 : List Route} (h : l1.Perm l2) :
    routesMeasure B l1 = routesMeasure B l2 :=
  List.Perm.sum_eq (h.map _)

lemma bestAux_ne_none {adj : Adj} {start goal : City}
    {cities : City → Option Coord} {gc : Coord} :
    ∀ (fuel : Nat) (pq : List (ℝ × City × Route)),
      (∀ e ∈ pq, BEntryInv adj start e) →
      routesMeasure ((verts adj start).length + 2) (pq.map (fun e => e.2.2)) < fuel →
      bestAux adj cities goal gc fuel pq ≠ none := by
  intro fuel
  induction fuel with
  | zero => intro pq _ hm; exact absurd hm (Nat.not_lt_zero _)
  | succ n ih =>
    intro pq hinv hm
    simp only [bestAux]
    cases hpop : popMinWith bestLe pq with
    | none => exact fun habs => Option.noConfusion habs
    | some p =>
      obtain ⟨⟨f, city, path⟩, rest⟩ := p
      dsimp only
      have hperm := popMinWith_perm bestLe pq _ _ hpop
      have hmempq : ∀ x ∈ (f, city, path) :: rest, x ∈ pq :=
        fun x hx => hperm.symm.subset hx
      by_cases hg : city = goal
      · rw [if_pos hg]; exact fun habs => Option.noConfusion habs
      · rw [if_neg hg]
        cases hlook : lookupAll cities
            ((adjGet adj city).filter (fun x => !path.contains x)) with
        | none => exact fun habs => Option.noConfusion habs
        | some ncs =>
          have hhead := hinv (f, city, path) (hmempq _ (List.mem_cons_self _ _))
          obtain ⟨hmapfst, _⟩ := lookupAll_spec cities _ ncs hlook
          apply ih
          · intro e' he'
            rcases List.mem_append.mp he' with hre | hpu
            · exact hinv e' (hmempq _ (List.mem_cons_of_mem _ hre))
            · obtain ⟨nc, hnc, hne⟩ := List.mem_map.mp hpu
              have hn : nc.1 ∈ (adjGet adj city).filter (fun x => !path.contains x) := by
                rw [← hmapfst]
                exact List.mem_map_of_mem Prod.fst hnc
              rw [← hne]
              have hpush := entryInv_push ⟨hhead.1, hhead.2⟩ hn
              exact ⟨hpush.1, hpush.2⟩
          · have hmperm : routesMeasure ((verts adj start).length + 2)
                (pq.map (fun e => e.2.2)) =
                routesMeasure ((verts adj start).length + 2)
                  (path :: rest.map (fun e => e.2.2)) :=
              routesMeasure_perm _ (by simpa using hperm.map (fun e => e.2.2))
            rw [hmperm] at hm
            rw [List.map_append, routesMeasure_append]
            have hcount : ncs.length ≤ (verts adj start).length := by
              have h1 : ncs.length =
                  ((adjGet adj city).filter (fun x => !path.contains x)).length := by
                rw [← hmapfst, List.length_map]
              rw [h1]
              exact le_trans (List.length_filter_le _ _) (adjGet_length_le adj city start)
            have hstep : routesMeasure ((verts adj start).length + 2)
                  ((ncs.map (fun nc => (haversine nc.2 gc, nc.1, path ++ [nc.1]))).map
                    (fun e => e.2.2)) +
                routesMeasure ((verts adj start).length + 2)
                  (rest.map (fun e => e.2.2)) <
                routesMeasure ((verts adj start).length + 2)
                  (path :: rest.map (fun e => e.2.2)) := by
              apply routesMeasure_step
              · omega
              · rw [List.length_map, List.length_map]
                omega
              · intro q hq
                rw [List.map_map] at hq
                obtain ⟨nc, _, hncq⟩ := List.mem_map.mp hq
                rw [← hncq]
                simp
              · have := entryInv_length_le ⟨hhead.1, hhead.2⟩
                omega
            rw [routesMeasure_cons] at hm hstep
            omega

lemma bruteAux_ne_keyError {adj : Adj} {goal : City} :
    ∀ (fuel : Nat) (st : List (City × Route)),
      bruteAux adj goal fuel st ≠ some .keyError := by
  intro fuel
  induction fuel with
  | zero =>
    intro st habs
    simp only [bruteAux] at habs
    exact Option.noConfusion habs
  | succ n ih =>
    intro st habs
    cases st with
    | nil =>
      simp only [bruteAux] at habs
      injection habs with h1
      exact SResult.noConfusion h1
    | cons e rest =>
      obtain ⟨city, path⟩ := e
      simp only [bruteAux] at habs
      by_cases hg : city = goal
      · rw [if_pos hg] at habs
        injection habs with h1
        exact SResult.noConfusion h1
      · rw [if_neg hg] at habs
        exact ih _ habs

lemma bfsAux_ne_keyError {adj : Adj} {goal : City} :
    ∀ (fuel : Nat) (st : List (City × Route)),
      bfsAux adj goal fuel st ≠ some .keyError := by
  intro fuel
  induction fuel with
  | zero =>
    intro st habs
    simp only [bfsAux] at habs
    exact Option.noConfusion habs
  | succ n ih =>
    intro st habs
    cases st with
    | nil =>
      simp only [bfsAux] at habs
      injection habs with h1
      exact SResult.noConfusion h1
    | cons e rest =>
      obtain ⟨city, path⟩ := e
      simp only [bfsAux] at habs
      by_cases hg : city = goal
      · rw [if_pos hg] at habs
        injection habs with h1
        exact SResult.noConfusion h1
      · rw [if_neg hg] at habs
        exact ih _ habs

lemma bestAux_ne_keyError {adj : Adj} {start goal : City}
    {cities : City → Option Coord} {gc : Coord}
    (hcov : ∀ c ∈ verts adj start, (cities c).isSome) :
    ∀ (fuel : Nat) (pq : List (ℝ × City × Route)),
      bestAux adj cities goal gc fuel pq ≠ some .keyError := by
  intro fuel
  induction fuel with
  | zero =>
    intro pq habs
    simp only [bestAux] at habs
    exact Option.noConfusion habs
  | succ n ih =>
    intro pq habs
    simp only [bestAux] at habs
    cases hpop : popMinWith bestLe pq with
    | none =>
      rw [hpop] at habs
      injection habs with h1
      exact SResult.noConfusion h1
    | some p =>
      obtain ⟨⟨f, city, path⟩, rest⟩ := p
      rw [hpop] at habs
      dsimp only at habs
      by_cases hg : city = goal
      · rw [if_pos hg] at habs
        injection habs with h1
        exact SResult.noConfusion h1
      · rw [if_neg hg] at habs
        have hsome : ∀ x ∈ (adjGet adj city).filter (fun x => !path.contains x),
            (cities x).isSome := by
          intro x hx
          have hx1 : x ∈ adjGet adj city := (List.mem_filter.mp hx).1
          exact hcov x (List.mem_cons_of_mem _ (adjGet_mem_flat hx1))
        obtain ⟨ncs, hlook⟩ := lookupAll_isSome cities _ hsome
        rw [hlook] at habs
        exact ih _ habs

/-! ### "No route" behaviour of the stack/queue searches. -/

lemma init_entry_inv (adj : Adj) (start : City) :
    ∀ e ∈ [(start, ([start] : Route))], EntryInv adj start e := by
  intro e he
  simp only [List.mem_singleton] at he
  rw [he]
  exact ⟨validRoute_singleton, List.nodup_singleton _⟩

lemma init_measure_lt (adj : Adj) (start : City) :
    routesMeasure ((verts adj start).length + 2) [[start]] < fuelBound adj start := by
  unfold fuelBound
  simp only [routesMeasure, List.map_cons, List.map_nil, List.sum_cons,
    List.sum_nil, List.length_cons, List.length_nil]
  have h := Nat.pow_le_pow_right
    (show 1 ≤ (verts adj start).length + 2 by omega)
    (show (verts adj start).length + 2 - (0 + 1) ≤ (verts adj start).length + 2 by omega)
  omega

lemma brute_force_search_no_route (adj : Adj) (start goal : City)
    (cities : City → Option Coord) (hnr : ¬ Reachable adj start goal) :
    brute_force_search start goal adj cities = some .notFound := by
  unfold brute_force_search
  have hinv := init_entry_inv adj start
  have hm : routesMeasure ((verts adj start).length + 2)
      ([(start, ([start] : Route))].map Prod.snd) < fuelBound adj start := by
    simpa using init_measure_lt adj start
  cases hres : bruteAux adj goal (fuelBound adj start) [(start, [start])] with
  | none => exact absurd hres (bruteAux_ne_none _ _ hinv hm)
  | some r =>
    cases r with
    | found p => exact absurd ⟨p, (bruteAux_found _ _ p hinv hres).1⟩ hnr
    | notFound => rfl
    | keyError => exact absurd hres (bruteAux_ne_keyError _ _)

lemma bfs_no_route (adj : Adj) (start goal : City)
    (hnr : ¬ Reachable adj start goal) :
    bfs start goal adj = some .notFound := by
  unfold bfs
  have hinv := init_entry_inv adj start
  have hm : routesMeasure ((verts adj start).length + 2)
      ([(start, ([start] : Route))].map Prod.snd) < fuelBound adj start := by
    simpa using init_measure_lt adj start
  cases hres : bfsAux adj goal (fuelBound adj start) [(start, [start])] with
  | none => exact absurd hres (bfsAux_ne_none _ _ hinv hm)
  | some r =>
    cases r with
    | found p => exact absurd ⟨p, (bfsAux_found _ _ p hinv hres).1⟩ hnr
    | notFound => rfl
    | keyError => exact absurd hres (bfsAux_ne_keyError _ _)

lemma best_first_search_no_route (adj : Adj) (start goal : City)
    (cities : City → Option Coord)
    (hcov : ∀ c ∈ verts adj start, (cities c).isSome)
    (hgoal : (cities goal).isSome)
    (hnr : ¬ Reachable adj start goal) :
    best_first_search start goal adj cities = some .notFound := by
  unfold best_first_search
  obtain ⟨cs, hcs⟩ := Option.isSome_iff_exists.mp
    (hcov start (List.mem_cons_self _ _))
  obtain ⟨cg, hcg⟩ := Option.isSome_iff_exists.mp hgoal
  rw [hcs, hcg]
  show bestAux adj cities goal cg (fuelBound adj start)
      [(haversine cs cg, start, [start])] = some .notFound
  have hinv : ∀ e ∈ [(haversine cs cg, start, ([start] : Route))],
      BEntryInv adj start e := by
    intro e he
    simp only [List.mem_singleton] at he
    rw [he]
    exact ⟨validRoute_singleton, List.nodup_singleton _⟩
  have hm : routesMeasure ((verts adj start).length + 2)
      ([(haversine cs cg, start, ([start] : Route))].map (fun e => e.2.2)) <
      fuelBound adj start := by
    simpa using init_measure_lt adj start
  cases hres : bestAux adj cities goal cg (fuelBound adj start)
      [(haversine cs cg, start, [start])] with
  | none => exact absurd hres (bestAux_ne_none _ _ hinv hm)
  | some r =>
    cases r with
    | found p => exact absurd ⟨p, (bestAux_found _ _ p hinv hres).1⟩ hnr
    | notFound => rfl
    | keyError => exact absurd hres (bestAux_ne_keyError hcov _ _)


/-! ### A* support definitions. -/

/-- An A* heap entry `(f-score, city, path, g-score)`. -/
abbrev AEntry := ℝ × City × Route × ℝ

def aF (e : AEntry) : ℝ := e.1

def aCity (e : AEntry) : City := e.2.1

def aPath (e : AEntry) : Route := e.2.2.1

def aG (e : AEntry) : ℝ := e.2.2.2

/-- The route `p` is recorded in the `visited` best-g map: its endpoint has
a recorded g-score not larger than the route's cost.  Once a route is
blocked, extending it can never pass the strict-improvement test. -/
def Blocked (cities : City → Option Coord) (vis : City → Option ℝ) (p : Route) : Prop :=
  ∃ v, vis (lastOf p) = some v ∧ v ≤ routeDistance cities p

/-- `vis'` refines `vis`: every recorded g-score survives, not larger. -/
def Improves (vis vis' : City → Option ℝ) : Prop :=
  ∀ n v, vis n = some v → ∃ v', vis' n = some v' ∧ v' ≤ v

/-- All lists over elements of `S` of length at most `k`. -/
def listsUpTo (S : List City) : Nat → Finset Route
  | 0 => {[]}
  | k + 1 => {[]} ∪ S.toFinset.biUnion (fun a => (listsUpTo S k).image (fun l => a :: l))

open Classical in
/-- The A* termination potential contributed by the `visited` map: the
number of candidate routes not yet blocked. -/
noncomputable def unblockedCard (cities : City → Option Coord) (F : Finset Route)
    (vis : City → Option ℝ) : Nat :=
  (F.filter (fun p => ¬ Blocked cities vis p)).card

lemma improves_refl (vis : City → Option ℝ) : Improves vis vis :=
  fun n v h => ⟨v, h, le_refl v⟩

lemma improves_trans {v1 v2 v3 : City → Option ℝ} (h1 : Improves v1 v2)
    (h2 : Improves v2 v3) : Improves v1 v3 := by
  intro n v h
  obtain ⟨w, hw, hwv⟩ := h1 n v h
  obtain ⟨w', hw', hww⟩ := h2 n w hw
  exact ⟨w', hw', le_trans hww hwv⟩

lemma blocked_mono {cities : City → Option Coord} {vis vis' : City → Option ℝ}
    (h : Improves vis vis') {p : Route} (hb : Blocked cities vis p) :
    Blocked cities vis' p := by
  obtain ⟨v, hv, hvc⟩ := hb
  obtain ⟨v', hv', hvv⟩ := h _ _ hv
  exact ⟨v', hv', le_trans hvv hvc⟩

lemma improves_update {vis : City → Option ℝ} {n : City} {g : ℝ}
    (h : vis n = none ∨ ∃ v, vis n = some v ∧ g ≤ v) :
    Improves vis (fun c => if c = n then some g else vis c) := by
  intro m v hm
  by_cases hmn : m = n
  · rcases h with h | ⟨w, hw, hgw⟩
    · rw [hmn] at hm; rw [hm] at h; exact Option.noConfusion h
    · rw [hmn] at hm; rw [hm] at hw
      injection hw with hw1
      exact ⟨g, by simp [hmn], by rw [hw1]; exact hgw⟩
  · exact ⟨v, by simp [hmn, hm], le_refl v⟩

lemma unblockedCard_mono {cities : City → Option Coord} {F : Finset Route}
    {vis vis' : City → Option ℝ} (h : Improves vis vis') :
    unblockedCard cities F vis' ≤ unblockedCard cities F vis := by
  classical
  apply Finset.card_le_card
  intro p hp
  rw [Finset.mem_filter] at hp ⊢
  exact ⟨hp.1, fun hb => hp.2 (blocked_mono h hb)⟩

lemma unblockedCard_flip {cities : City → Option Coord} {F : Finset Route}
    {vis vis' : City → Option ℝ} (h : Improves vis vis') {p : Route}
    (hpF : p ∈ F) (hpre : ¬ Blocked cities vis p) (hpost : Blocked cities vis' p) :
    unblockedCard cities F vis' < unblockedCard cities F vis := by
  classical
  apply Finset.card_lt_card
  constructor
  · intro q hq
    rw [Finset.mem_filter] at hq ⊢
    exact ⟨hq.1, fun hb => hq.2 (blocked_mono h hb)⟩
  · intro hsub
    have hp1 : p ∈ F.filter (fun q => ¬ Blocked cities vis q) := by
      rw [Finset.mem_filter]; exact ⟨hpF, hpre⟩
    have hp2 := hsub hp1
    rw [Finset.mem_filter] at hp2
    exact hp2.2 hpost

lemma mem_listsUpTo (S : List City) :
    ∀ (k : Nat) (p : Route), p.length ≤ k → (∀ x ∈ p, x ∈ S) →
      p ∈ listsUpTo S k := by
  intro k
  induction k with
  | zero =>
    intro p hlen _
    have : p = [] := List.length_eq_zero.mp (Nat.le_zero.mp hlen)
    rw [this]
    simp [listsUpTo]
  | succ n ih =>
    intro p hlen hmem
    cases p with
    | nil => simp [listsUpTo]
    | cons a l =>
      simp only [listsUpTo, Finset.mem_union, Finset.mem_biUnion]
      right
      refine ⟨a, ?_, ?_⟩
      · rw [List.mem_toFinset]; exact hmem a (List.mem_cons_self _ _)
      · rw [Finset.mem_image]
        refine ⟨l, ?_, rfl⟩
        exact ih l (by simpa using hlen) (fun x hx => hmem x (List.mem_cons_of_mem _ hx))

lemma card_listsUpTo (S : List City) :
    ∀ k : Nat, (listsUpTo S k).card ≤ (S.length + 1) ^ k := by
  intro k
  induction k with
  | zero => simp [listsUpTo]
  | succ n ih =>
    have h1 : (listsUpTo S (n + 1)).card ≤
        1 + (S.toFinset.biUnion (fun a => (listsUpTo S n).image (fun l => a :: l))).card := by
      simp only [listsUpTo]
      have := Finset.card_union_le ({[]} : Finset Route)
        (S.toFinset.biUnion (fun a => (listsUpTo S n).image (fun l => a :: l)))
      simpa using this
    have h2 : (S.toFinset.biUnion (fun a => (listsUpTo S n).image (fun l => a :: l))).card ≤
        S.toFinset.card * (listsUpTo S n).card := by
      apply le_trans (Finset.card_biUnion_le)
      have : ∀ a ∈ S.toFinset, ((listsUpTo S n).image (fun l => a :: l)).card ≤
          (listsUpTo S n).card := fun a _ => Finset.card_image_le
      calc (S.toFinset.sum (fun a => ((listsUpTo S n).image (fun l => a :: l)).card)) ≤
            S.toFinset.sum (fun _ => (listsUpTo S n).card) := Finset.sum_le_sum this
        _ = S.toFinset.card * (listsUpTo S n).card := by
            rw [Finset.sum_const, smul_eq_mul]
    have h3 : S.toFinset.card ≤ S.length := S.toFinset_card_le
    have h4 : (S.length + 1) ^ (n + 1) = (S.length + 1) ^ n * S.length + (S.length + 1) ^ n := by
      rw [pow_succ]; ring
    have h5 : (1 : Nat) ≤ (S.length + 1) ^ n := Nat.one_le_pow _ _ (by omega)
    calc (listsUpTo S (n + 1)).card ≤
          1 + S.toFinset.card * (listsUpTo S n).card := by omega
      _ ≤ 1 + S.length * (S.length + 1) ^ n := by
          have := Nat.mul_le_mul h3 ih
          omega
      _ ≤ (S.length + 1) ^ (n + 1) := by
          rw [h4]
          have : S.length * (S.length + 1) ^ n = (S.length + 1) ^ n * S.length := by ring
          omega

/-! ### Index helper lemmas. -/

lemma take_append_le {α : Type} :
    ∀ (l1 l2 : List α) (n : Nat), n ≤ l1.length → (l1 ++ l2).take n = l1.take n := by
  intro l1
  induction l1 with
  | nil =>
    intro l2 n hn
    have : n = 0 := by simpa using hn
    simp [this]
  | cons a l ih =>
    intro l2 n hn
    cases n with
    | zero => simp
    | succ m =>
      simp only [List.cons_append, List.take_succ_cons]
      rw [ih l2 m (by simpa using hn)]

lemma getD_append_le {α : Type} [Inhabited α] (l1 l2 : List α) (n : Nat) (d : α)
    (hn : n < l1.length) : (l1 ++ l2).getD n d = l1.getD n d := by
  rw [List.getD_eq_getElem?_getD, List.getD_eq_getElem?_getD,
    List.getElem?_append_left hn]

lemma getD_take_lt {α : Type} (l : List α) (n m : Nat) (d : α) (h : m < n) :
    (l.take n).getD m d = l.getD m d := by
  rw [List.getD_eq_getElem?_getD, List.getD_eq_getElem?_getD,
    List.getElem?_take_of_lt h]

lemma lastOf_eq_getD : ∀ p : Route, lastOf p = p.getD (p.length - 1) "" := by
  intro p
  induction p with
  | nil => rfl
  | cons a l ih =>
    cases l with
    | nil => rfl
    | cons b l2 =>
      have h1 : lastOf (a :: b :: l2) = lastOf (b :: l2) := by
        simp [lastOf, List.getLastD_cons]
      rw [h1, ih]
      simp only [List.length_cons]
      have h2 : (b :: l2).length - 1 + 1 = (b :: l2).length := by
        simp only [List.length_cons]; omega
      rw [show l2.length + 1 + 1 - 1 = l2.length + 1 from by omega]
      rfl

lemma lastOf_append (p : Route) (n : City) : lastOf (p ++ [n]) = n := by
  simp [lastOf, List.getLastD_concat]

lemma lastOf_take (Q : Route) (i : Nat) (h : i < Q.length) :
    lastOf (Q.take (i + 1)) = Q.getD i "" := by
  rw [lastOf_eq_getD]
  have hlen : (Q.take (i + 1)).length = i + 1 := by
    rw [List.length_take]
    omega
  rw [hlen]
  simp only [Nat.add_sub_cancel]
  exact getD_take_lt Q (i + 1) i "" (by omega)

lemma routeDistance_short (cities : City → Option Coord) (p : Route)
    (h : p.length ≤ 1) : routeDistance cities p = 0 := by
  cases p with
  | nil => rfl
  | cons a l =>
    cases l with
    | nil => rfl
    | cons b l2 => simp at h

lemma routeDistance_take_succ (cities : City → Option Coord) (Q : Route) (i : Nat)
    (h : i + 1 < Q.length) :
    routeDistance cities (Q.take (i + 2)) =
      routeDistance cities (Q.take (i + 1)) + cdist cities (Q.getD i "") (Q.getD (i + 1) "") := by
  have hsome : Q[i + 1]? = some (Q.getD (i + 1) "") := by
    rw [List.getD_eq_getElem?_getD]
    cases hq : Q[i + 1]? with
    | none =>
      rw [List.getElem?_eq_none_iff] at hq
      omega
    | some x => simp
  have hsplit : Q.take (i + 2) = Q.take (i + 1) ++ [Q.getD (i + 1) ""] := by
    have := @List.take_succ _ Q (i + 1)
    rw [hsome] at this
    simpa using this
  rw [hsplit, routeDistance_append_last, lastOf_take Q i (by omega)]
  intro habs
  have : (Q.take (i + 1)).length = 0 := by rw [habs]; rfl
  rw [List.length_take] at this
  omega


/-! ### The A* expansion step. -/

lemma aExpand_shape (cities : City → Option Coord) (goal city : City)
    (path : Route) (g : ℝ) (hg : g = routeDistance cities path)
    (hpath : path ≠ []) (hlast : lastOf path = city) :
    ∀ (ns : List City) (pq : List AEntry) (vis : City → Option ℝ)
      (pq' : List AEntry) (vis' : City → Option ℝ),
      aExpand cities goal city path g ns pq vis = some (pq', vis') →
      (∃ new, pq' = pq ++ new ∧
        ∀ e ∈ new,
          (∃ n ∈ ns, e = (g + cdist cities city n + cdist cities n goal, n,
              path ++ [n], g + cdist cities city n)) ∧
          ¬ Blocked cities vis (aPath e) ∧
          ∃ w, vis' (aCity e) = some w ∧ w ≤ aG e) ∧
      Improves vis vis' ∧
      (∀ m ∈ ns, ∃ w, vis' m = some w ∧ w ≤ g + cdist cities city m) ∧
      (∀ m, vis' m = vis m ∨ ∃ e ∈ pq', aCity e = m ∧ vis' m = some (aG e)) := by
  intro ns
  induction ns with
  | nil =>
    intro pq vis pq' vis' h
    simp only [aExpand] at h
    injection h with h1
    injection h1 with h2 h3
    subst h2; subst h3
    refine ⟨⟨[], by simp, by simp⟩, improves_refl vis, by simp, fun m => Or.inl rfl⟩
  | cons n ns0 ih =>
    intro pq vis pq' vis' h
    simp only [aExpand] at h
    rcases hcc : cities city with _ | cc
    · rw [hcc] at h; exact Option.noConfusion h
    rcases hcn : cities n with _ | nc
    · rw [hcc, hcn] at h; exact Option.noConfusion h
    rcases hcg : cities goal with _ | gc
    · rw [hcc, hcn, hcg] at h; exact Option.noConfusion h
    rw [hcc, hcn, hcg] at h
    dsimp only at h
    have hc1 : cdist cities city n = haversine cc nc := by
      unfold cdist
      rw [hcc, hcn]
      rfl
    have hc2 : cdist cities n goal = haversine nc gc := by
      unfold cdist
      rw [hcn, hcg]
      rfl
    have hnewg : routeDistance cities (path ++ [n]) = g + haversine cc nc := by
      rw [routeDistance_append_last cities path n hpath, hlast, ← hg, hc1]
    rcases hvn : vis n with _ | v
    · -- unvisited: push
      rw [hvn] at h
      have himp1 : Improves vis (fun c => if c = n then some (g + haversine cc nc) else vis c) :=
        improves_update (Or.inl hvn)
      obtain ⟨⟨new2, hpq', hnew2⟩, himp2, hnbrs, hlastc⟩ := ih _ _ _ _ h
      refine ⟨⟨(g + haversine cc nc + haversine nc gc, n, path ++ [n], g + haversine cc nc) :: new2,
          by rw [hpq']; simp, ?_⟩, improves_trans himp1 himp2, ?_, ?_⟩
      · intro e he
        rcases List.mem_cons.mp he with he1 | he2
        · subst he1
          refine ⟨⟨n, List.mem_cons_self _ _, by rw [hc1, hc2]⟩, ?_, ?_⟩
          · intro hb
            obtain ⟨w, hw, _⟩ := hb
            rw [show aPath (g + haversine cc nc + haversine nc gc, n, path ++ [n],
                g + haversine cc nc) = path ++ [n] from rfl, lastOf_append] at hw
            rw [hvn] at hw
            exact Option.noConfusion hw
          · obtain ⟨w, hw, hwle⟩ := himp2 n (g + haversine cc nc) (by simp)
            exact ⟨w, hw, hwle⟩
        · obtain ⟨⟨n', hn', hshape⟩, hnb, hw⟩ := hnew2 e he2
          refine ⟨⟨n', List.mem_cons_of_mem _ hn', hshape⟩, ?_, hw⟩
          intro hb
          exact hnb (blocked_mono himp1 hb)
      · intro m hm
        rcases List.mem_cons.mp hm with hm1 | hm2
        · subst hm1
          obtain ⟨w, hw, hwle⟩ := himp2 m (g + haversine cc nc) (by simp)
          exact ⟨w, hw, by rw [hc1]; exact hwle⟩
        · exact hnbrs m hm2
      · intro m
        rcases hlastc m with h1 | ⟨e, he, hec, hev⟩
        · by_cases hmn : m = n
          · subst hmn
            right
            refine ⟨(g + haversine cc nc + haversine nc gc, m, path ++ [m],
                g + haversine cc nc), by rw [hpq']; simp, rfl, ?_⟩
            rw [h1]
            simp [aG]
          · left
            rw [h1]
            simp [hmn]
        · exact Or.inr ⟨e, he, hec, hev⟩
    · rw [hvn] at h
      dsimp only at h
      by_cases hlt : g + haversine cc nc < v
      · -- strict improvement: push
        rw [if_pos hlt] at h
        have himp1 : Improves vis (fun c => if c = n then some (g + haversine cc nc) else vis c) :=
          improves_update (Or.inr ⟨v, hvn, le_of_lt hlt⟩)
        obtain ⟨⟨new2, hpq', hnew2⟩, himp2, hnbrs, hlastc⟩ := ih _ _ _ _ h
        refine ⟨⟨(g + haversine cc nc + haversine nc gc, n, path ++ [n], g + haversine cc nc) :: new2,
            by rw [hpq']; simp, ?_⟩, improves_trans himp1 himp2, ?_, ?_⟩
        · intro e he
          rcases List.mem_cons.mp he with he1 | he2
          · subst he1
            refine ⟨⟨n, List.mem_cons_self _ _, by rw [hc1, hc2]⟩, ?_, ?_⟩
            · intro hb
              obtain ⟨w, hw, hwc⟩ := hb
              rw [show aPath (g + haversine cc nc + haversine nc gc, n, path ++ [n],
                  g + haversine cc nc) = path ++ [n] from rfl, lastOf_append] at hw
              rw [show routeDistance cities
                  (aPath (g + haversine cc nc + haversine nc gc, n, path ++ [n],
                    g + haversine cc nc)) = g + haversine cc nc from hnewg] at hwc
              rw [hvn] at hw
              injection hw with hw1
              rw [← hw1] at hwc
              linarith
            · obtain ⟨w, hw, hwle⟩ := himp2 n (g + haversine cc nc) (by simp)
              exact ⟨w, hw, hwle⟩
          · obtain ⟨⟨n', hn', hshape⟩, hnb, hw⟩ := hnew2 e he2
            refine ⟨⟨n', List.mem_cons_of_mem _ hn', hshape⟩, ?_, hw⟩
            intro hb
            exact hnb (blocked_mono himp1 hb)
        · intro m hm
          rcases List.mem_cons.mp hm with hm1 | hm2
          · subst hm1
            obtain ⟨w, hw, hwle⟩ := himp2 m (g + haversine cc nc) (by simp)
            exact ⟨w, hw, by rw [hc1]; exact hwle⟩
          · exact hnbrs m hm2
        · intro m
          rcases hlastc m with h1 | ⟨e, he, hec, hev⟩
          · by_cases hmn : m = n
            · subst hmn
              right
              refine ⟨(g + haversine cc nc + haversine nc gc, m, path ++ [m],
                  g + haversine cc nc), by rw [hpq']; simp, rfl, ?_⟩
              rw [h1]
              simp [aG]
            · left
              rw [h1]
              simp [hmn]
          · exact Or.inr ⟨e, he, hec, hev⟩
      · -- blocked: skip
        rw [if_neg hlt] at h
        obtain ⟨⟨new2, hpq', hnew2⟩, himp2, hnbrs, hlastc⟩ := ih _ _ _ _ h
        refine ⟨⟨new2, hpq', ?_⟩, himp2, ?_, hlastc⟩
        · intro e he
          obtain ⟨⟨n', hn', hshape⟩, hnb, hw⟩ := hnew2 e he
          exact ⟨⟨n', List.mem_cons_of_mem _ hn', hshape⟩, hnb, hw⟩
        · intro m hm
          rcases List.mem_cons.mp hm with hm1 | hm2
          · subst hm1
            obtain ⟨w, hw, hwle⟩ := himp2 m v hvn
            refine ⟨w, hw, ?_⟩
            rw [hc1]
            have := not_lt.mp hlt
            linarith
          · exact hnbrs m hm2


lemma aExpand_count (cities : City → Option Coord) (goal city : City)
    (path : Route) (g : ℝ) (hg : g = routeDistance cities path)
    (hpath : path ≠ []) (hlast : lastOf path = city) (F : Finset Route) :
    ∀ (ns : List City) (pq : List AEntry) (vis : City → Option ℝ)
      (pq' : List AEntry) (vis' : City → Option ℝ),
      (∀ n ∈ ns, path ++ [n] ∈ F) →
      aExpand cities goal city path g ns pq vis = some (pq', vis') →
      unblockedCard cities F vis' + pq'.length ≤
        unblockedCard cities F vis + pq.length := by
  intro ns
  induction ns with
  | nil =>
    intro pq vis pq' vis' _ h
    simp only [aExpand] at h
    injection h with h1
    injection h1 with h2 h3
    subst h2; subst h3
    exact le_refl _
  | cons n ns0 ih =>
    intro pq vis pq' vis' hF h
    simp only [aExpand] at h
    rcases hcc : cities city with _ | cc
    · rw [hcc] at h; exact Option.noConfusion h
    rcases hcn : cities n with _ | nc
    · rw [hcc, hcn] at h; exact Option.noConfusion h
    rcases hcg : cities goal with _ | gc
    · rw [hcc, hcn, hcg] at h; exact Option.noConfusion h
    rw [hcc, hcn, hcg] at h
    dsimp only at h
    have hnewg : routeDistance cities (path ++ [n]) = g + haversine cc nc := by
      rw [routeDistance_append_last cities path n hpath, hlast, ← hg]
      unfold cdist
      rw [hcc, hcn]
      rfl
    have hF0 : ∀ m ∈ ns0, path ++ [m] ∈ F := fun m hm => hF m (List.mem_cons_of_mem _ hm)
    rcases hvn : vis n with _ | v
    · rw [hvn] at h
      dsimp only at h
      have himp1 : Improves vis (fun c => if c = n then some (g + haversine cc nc) else vis c) :=
        improves_update (Or.inl hvn)
      have hpre : ¬ Blocked cities vis (path ++ [n]) := by
        intro hb
        obtain ⟨w, hw, _⟩ := hb
        rw [lastOf_append, hvn] at hw
        exact Option.noConfusion hw
      have hpost : Blocked cities
          (fun c => if c = n then some (g + haversine cc nc) else vis c) (path ++ [n]) := by
        refine ⟨g + haversine cc nc, ?_, ?_⟩
        · rw [lastOf_append]; simp
        · rw [hnewg]
      have hflip := unblockedCard_flip himp1 (hF n (List.mem_cons_self _ _)) hpre hpost
      have hrec := ih _ _ _ _ hF0 h
      rw [List.length_append] at hrec
      simp only [List.length_cons, List.length_nil] at hrec
      omega
    · rw [hvn] at h
      dsimp only at h
      by_cases hlt : g + haversine cc nc < v
      · rw [if_pos hlt] at h
        have himp1 : Improves vis (fun c => if c = n then some (g + haversine cc nc) else vis c) :=
          improves_update (Or.inr ⟨v, hvn, le_of_lt hlt⟩)
        have hpre : ¬ Blocked cities vis (path ++ [n]) := by
          intro hb
          obtain ⟨w, hw, hwc⟩ := hb
          rw [lastOf_append, hvn] at hw
          injection hw with hw1
          rw [hnewg] at hwc
          rw [← hw1] at hwc
          linarith
        have hpost : Blocked cities
            (fun c => if c = n then some (g + haversine cc nc) else vis c) (path ++ [n]) := by
          refine ⟨g + haversine cc nc, ?_, ?_⟩
          · rw [lastOf_append]; simp
          · rw [hnewg]
        have hflip := unblockedCard_flip himp1 (hF n (List.mem_cons_self _ _)) hpre hpost
        have hrec := ih _ _ _ _ hF0 h
        rw [List.length_append] at hrec
        simp only [List.length_cons, List.length_nil] at hrec
        omega
      · rw [if_neg hlt] at h
        exact ih _ _ _ _ hF0 h

lemma aExpand_paths (cities : City → Option Coord) (goal city : City)
    (path : Route) (g : ℝ) (hg : g = routeDistance cities path)
    (hpath : path ≠ []) (hlast : lastOf path = city) (exc : Route)
    (hexc : exc.length ≤ 1) :
    ∀ (ns : List City) (pq : List AEntry) (vis : City → Option ℝ)
      (pq' : List AEntry) (vis' : City → Option ℝ),
      aExpand cities goal city path g ns pq vis = some (pq', vis') →
      (pq.map aPath).Nodup →
      (∀ e ∈ pq, Blocked cities vis (aPath e) ∨ aPath e = exc) →
      (pq'.map aPath).Nodup ∧
        (∀ e ∈ pq', Blocked cities vis' (aPath e) ∨ aPath e = exc) := by
  intro ns
  induction ns with
  | nil =>
    intro pq vis pq' vis' h hnd hbl
    simp only [aExpand] at h
    injection h with h1
    injection h1 with h2 h3
    subst h2; subst h3
    exact ⟨hnd, hbl⟩
  | cons n ns0 ih =>
    intro pq vis pq' vis' h hnd hbl
    simp only [aExpand] at h
    rcases hcc : cities city with _ | cc
    · rw [hcc] at h; exact Option.noConfusion h
    rcases hcn : cities n with _ | nc
    · rw [hcc, hcn] at h; exact Option.noConfusion h
    rcases hcg : cities goal with _ | gc
    · rw [hcc, hcn, hcg] at h; exact Option.noConfusion h
    rw [hcc, hcn, hcg] at h
    dsimp only at h
    have hnewg : routeDistance cities (path ++ [n]) = g + haversine cc nc := by
      rw [routeDistance_append_last cities path n hpath, hlast, ← hg]
      unfold cdist
      rw [hcc, hcn]
      rfl
    have hlen2 : (path ++ [n]).length ≠ exc.length := by
      rw [List.length_append]
      cases path with
      | nil => exact absurd rfl hpath
      | cons a l => simp only [List.length_cons, List.length_singleton]; omega
    rcases hvn : vis n with _ | v
    · rw [hvn] at h
      dsimp only at h
      have himp1 : Improves vis (fun c => if c = n then some (g + haversine cc nc) else vis c) :=
        improves_update (Or.inl hvn)
      apply ih _ _ _ _ h
      · rw [List.map_append]
        rw [List.nodup_append]
        refine ⟨hnd, by simp, ?_⟩
        intro p hp hp2
        simp only [List.map_cons, List.map_nil, List.mem_singleton] at hp2
        obtain ⟨e0, he0, he0p⟩ := List.mem_map.mp hp
        rcases hbl e0 he0 with hb | hb
        · rw [he0p] at hb
          rw [hp2] at hb
          obtain ⟨w, hw, _⟩ := hb
          rw [show aPath (g + haversine cc nc + haversine nc gc, n, path ++ [n],
              g + haversine cc nc) = path ++ [n] from rfl, lastOf_append, hvn] at hw
          exact Option.noConfusion hw
        · rw [he0p] at hb
          rw [hp2] at hb
          apply hlen2
          rw [show aPath (g + haversine cc nc + haversine nc gc, n, path ++ [n],
              g + haversine cc nc) = path ++ [n] from rfl] at hb
          rw [hb]
      · intro e he
        rcases List.mem_append.mp he with he1 | he2
        · rcases hbl e he1 with hb | hb
          · exact Or.inl (blocked_mono himp1 hb)
          · exact Or.inr hb
        · simp only [List.mem_singleton] at he2
          subst he2
          left
          refine ⟨g + haversine cc nc, ?_, ?_⟩
          · rw [show aPath (g + haversine cc nc + haversine nc gc, n, path ++ [n],
                g + haversine cc nc) = path ++ [n] from rfl, lastOf_append]
            simp
          · rw [show aPath (g + haversine cc nc + haversine nc gc, n, path ++ [n],
                g + haversine cc nc) = path ++ [n] from rfl, hnewg]
    · rw [hvn] at h
      dsimp only at h
      by_cases hlt : g + haversine cc nc < v
      · rw [if_pos hlt] at h
        have himp1 : Improves vis (fun c => if c = n then some (g + haversine cc nc) else vis c) :=
          improves_update (Or.inr ⟨v, hvn, le_of_lt hlt⟩)
        apply ih _ _ _ _ h
        · rw [List.map_append]
          rw [List.nodup_append]
          refine ⟨hnd, by simp, ?_⟩
          intro p hp hp2
          simp only [List.map_cons, List.map_nil, List.mem_singleton] at hp2
          obtain ⟨e0, he0, he0p⟩ := List.mem_map.mp hp
          rcases hbl e0 he0 with hb | hb
          · rw [he0p] at hb
            rw [hp2] at hb
            obtain ⟨w, hw, hwc⟩ := hb
            rw [show aPath (g + haversine cc nc + haversine nc gc, n, path ++ [n],
                g + haversine cc nc) = path ++ [n] from rfl, lastOf_append, hvn] at hw
            injection hw with hw1
            rw [show aPath (g + haversine cc nc + haversine nc gc, n, path ++ [n],
                g + haversine cc nc) = path ++ [n] from rfl, hnewg] at hwc
            rw [← hw1] at hwc
            linarith
          · rw [he0p] at hb
            rw [hp2] at hb
            apply hlen2
            rw [show aPath (g + haversine cc nc + haversine nc gc, n, path ++ [n],
                g + haversine cc nc) = path ++ [n] from rfl] at hb
            rw [hb]
        · intro e he
          rcases List.mem_append.mp he with he1 | he2
          · rcases hbl e he1 with hb | hb
            · exact Or.inl (blocked_mono himp1 hb)
            · exact Or.inr hb
          · simp only [List.mem_singleton] at he2
            subst he2
            left
            refine ⟨g + haversine cc nc, ?_, ?_⟩
            · rw [show aPath (g + haversine cc nc + haversine nc gc, n, path ++ [n],
                  g + haversine cc nc) = path ++ [n] from rfl, lastOf_append]
              simp
            · rw [show aPath (g + haversine cc nc + haversine nc gc, n, path ++ [n],
                  g + haversine cc nc) = path ++ [n] from rfl, hnewg]
      · rw [if_neg hlt] at h
        exact ih _ _ _ _ h hnd hbl


/-- Small helpers about valid routes and indices. -/
lemma validRoute_getD_zero {adj : Adj} {s g : City} {p : Route}
    (h : ValidRoute adj s g p) : p.getD 0 "" = s := by
  cases p with
  | nil => exact absurd h (by simp [ValidRoute])
  | cons a l =>
    have h2 := validRoute_head h
    simp only [List.head?_cons, Option.some.injEq] at h2
    simp [h2]

lemma mem_getD_index {p : Route} {n : City} (h : n ∈ p) :
    ∃ i, i < p.length ∧ p.getD i "" = n := by
  obtain ⟨i, hi⟩ := List.mem_iff_getElem?.mp h
  have hlt : i < p.length := by
    by_contra hge
    rw [List.getElem?_eq_none_iff.mpr (by omega)] at hi
    exact Option.noConfusion hi
  refine ⟨i, hlt, ?_⟩
  rw [List.getD_eq_getElem?_getD, hi]
  rfl

/-- The state invariant of the A* loop. -/
structure AInv (adj : Adj) (cities : City → Option Coord) (start goal : City)
    (pq : List AEntry) (vis : City → Option ℝ) : Prop where
  valid : ∀ e ∈ pq, ValidRoute adj start (aCity e) (aPath e)
  gval : ∀ e ∈ pq, aG e = routeDistance cities (aPath e)
  fval : ∀ e ∈ pq, aF e = aG e + cdist cities (aCity e) goal ∨ e = (0, start, [start], 0)
  nodupPath : ∀ e ∈ pq, (aPath e).Nodup ∨
    (aCity e = start ∧ ∃ q, aPath e = q ++ [start] ∧ q.Nodup ∧ q ≠ [])
  blockedInv : ∀ e ∈ pq, Blocked cities vis (aPath e) ∨ aPath e = [start]
  pathsNodup : (pq.map aPath).Nodup
  prefBlocked : ∀ e ∈ pq, ∀ i, 0 < i → i < (aPath e).length →
    ∃ v, vis ((aPath e).getD i "") = some v ∧
      v ≤ routeDistance cities ((aPath e).take (i + 1))
  startNbrs : (∀ n, vis n = none) ∨
    ∀ n ∈ adjGet adj start, ∃ v, vis n = some v ∧ v ≤ cdist cities start n
  visJ : ∀ n v, vis n = some v →
    (∃ e ∈ pq, aCity e = n ∧ aG e ≤ v) ∨
    (n ≠ goal ∧ ∀ m ∈ adjGet adj n, ∃ w, vis m = some w ∧ w ≤ v + cdist cities n m)
  visAtCity : ∀ e ∈ pq, (∃ v, vis (aCity e) = some v ∧ v ≤ aG e) ∨ aPath e = [start]

lemma AInv_init (adj : Adj) (cities : City → Option Coord) (start goal : City) :
    AInv adj cities start goal [(0, start, [start], 0)] (fun _ => none) := by
  refine ⟨?_, ?_, ?_, ?_, ?_, ?_, ?_, ?_, ?_, ?_⟩
  · intro e he
    simp only [List.mem_singleton] at he
    rw [he]
    exact validRoute_singleton
  · intro e he
    simp only [List.mem_singleton] at he
    rw [he]
    rfl
  · intro e he
    simp only [List.mem_singleton] at he
    exact Or.inr he
  · intro e he
    simp only [List.mem_singleton] at he
    rw [he]
    exact Or.inl (List.nodup_singleton _)
  · intro e he
    simp only [List.mem_singleton] at he
    rw [he]
    exact Or.inr rfl
  · simp
  · intro e he i hi1 hi2
    simp only [List.mem_singleton] at he
    rw [he] at hi2
    simp only [aPath, List.length_singleton] at hi2
    omega
  · exact Or.inl (fun n => rfl)
  · intro n v h
    exact Option.noConfusion h
  · intro e he
    simp only [List.mem_singleton] at he
    rw [he]
    exact Or.inr rfl

lemma aStep_AInv {adj : Adj} {cities : City → Option Coord} {start goal : City}
    {pq : List AEntry} {vis : City → Option ℝ}
    (hinv : AInv adj cities start goal pq vis)
    {f0 : ℝ} {city : City} {path : Route} {g : ℝ} {rest : List AEntry}
    (hpop : popMinWith aLe pq = some ((f0, city, path, g), rest))
    (hgoal : city ≠ goal) {pq' : List AEntry} {vis' : City → Option ℝ}
    (hexp : aExpand cities goal city path g (adjGet adj city) rest vis = some (pq', vis')) :
    AInv adj cities start goal pq' vis' := by
  have hperm := popMinWith_perm aLe pq _ _ hpop
  have hmem : (f0, city, path, g) ∈ pq := hperm.symm.subset (List.mem_cons_self _ _)
  have hsub : ∀ x ∈ rest, x ∈ pq := fun x hx => hperm.symm.subset (List.mem_cons_of_mem _ hx)
  have hvalid_p : ValidRoute adj start city path := hinv.valid _ hmem
  have hg_p : g = routeDistance cities path := hinv.gval _ hmem
  have hpath_ne : path ≠ [] := validRoute_ne_nil hvalid_p
  have hlast_p : lastOf path = city := validRoute_last hvalid_p
  have hg_nonneg : 0 ≤ g := by rw [hg_p]; exact routeDistance_nonneg cities path
  obtain ⟨⟨new, hpq', hnew⟩, himp, hnbrs, hlastc⟩ :=
    aExpand_shape cities goal city path g hg_p hpath_ne hlast_p _ _ _ _ _ hexp
  have hrestNodup : (rest.map aPath).Nodup := by
    have h1 : (pq.map aPath).Nodup := hinv.pathsNodup
    have h2 := (hperm.map aPath).nodup_iff.mp h1
    simp only [List.map_cons] at h2
    exact h2.of_cons
  have hrestBlocked : ∀ e ∈ rest, Blocked cities vis (aPath e) ∨ aPath e = [start] :=
    fun e he => hinv.blockedInv e (hsub e he)
  obtain ⟨hndPaths, hblPaths⟩ :=
    aExpand_paths cities goal city path g hg_p hpath_ne hlast_p [start] (by simp)
      _ _ _ _ _ hexp hrestNodup hrestBlocked
  have hnewg_eq : ∀ n : City, routeDistance cities (path ++ [n]) = g + cdist cities city n := by
    intro n
    rw [routeDistance_append_last cities path n hpath_ne, hlast_p, ← hg_p]
  refine ⟨?_, ?_, ?_, ?_, hblPaths, hndPaths, ?_, ?_, ?_, ?_⟩
  · -- valid
    intro e he
    rw [hpq'] at he
    rcases List.mem_append.mp he with hre | hne
    · exact hinv.valid e (hsub e hre)
    · obtain ⟨⟨n, hn, hshape⟩, _, _⟩ := hnew e hne
      rw [hshape]
      exact validRoute_extend hvalid_p hn
  · -- gval
    intro e he
    rw [hpq'] at he
    rcases List.mem_append.mp he with hre | hne
    · exact hinv.gval e (hsub e hre)
    · obtain ⟨⟨n, hn, hshape⟩, _, _⟩ := hnew e hne
      rw [hshape]
      show g + cdist cities city n = routeDistance cities (path ++ [n])
      rw [hnewg_eq n]
  · -- fval
    intro e he
    rw [hpq'] at he
    rcases List.mem_append.mp he with hre | hne
    · exact hinv.fval e (hsub e hre)
    · obtain ⟨⟨n, hn, hshape⟩, _, _⟩ := hnew e hne
      rw [hshape]
      exact Or.inl rfl
  · -- nodupPath
    intro e he
    rw [hpq'] at he
    rcases List.mem_append.mp he with hre | hne
    · exact hinv.nodupPath e (hsub e hre)
    · obtain ⟨⟨n, hn, hshape⟩, hnb, _⟩ := hnew e hne
      rcases hinv.nodupPath _ hmem with hnd | ⟨hcity_s, q, hq, hqnd, hqne⟩
      · -- parent path has no duplicates
        simp only [aPath] at hnd
        by_cases hninp : n ∈ path
        · obtain ⟨i, hilt, hieq⟩ := mem_getD_index hninp
          cases Nat.eq_zero_or_pos i with
          | inl hi0 =>
            -- n is the start
            rw [hi0] at hieq
            have hstart : path.getD 0 "" = start := validRoute_getD_zero hvalid_p
            rw [hstart] at hieq
            right
            rw [hshape]
            refine ⟨?_, path, ?_, hnd, hpath_ne⟩
            · show n = start
              exact hieq.symm
            · show path ++ [n] = path ++ [start]
              rw [hieq]
          | inr hipos =>
            -- n occurs later in the parent path: the push was blocked
            exfalso
            obtain ⟨v, hv, hvle⟩ := hinv.prefBlocked _ hmem i hipos hilt
            apply hnb
            rw [hshape]
            refine ⟨v, ?_, ?_⟩
            · show vis (lastOf (path ++ [n])) = some v
              rw [lastOf_append]
              simp only [aPath] at hv
              rw [hieq] at hv
              exact hv
            · show v ≤ routeDistance cities (aPath (g + cdist cities city n + cdist cities n goal,
                  n, path ++ [n], g + cdist cities city n))
              show v ≤ routeDistance cities (path ++ [n])
              rw [hnewg_eq n]
              have h1 : routeDistance cities (path.take (i + 1)) ≤
                  routeDistance cities path := by
                conv_rhs => rw [← List.take_append_drop (i + 1) path]
                exact routeDistance_prefix_le cities _ _
              have h2 := cdist_nonneg cities city n
              rw [← hg_p] at h1
              simp only [aPath] at hvle
              linarith [hvle, h1, h2]
        · left
          rw [hshape]
          show (path ++ [n]).Nodup
          exact nodup_push path n hnd hninp
      · -- parent is a start-repeating entry: no push can have happened
        exfalso
        have hq2 : aPath ((f0 : ℝ), city, path, g) ≠ [start] := by
          rw [hq]
          intro habs
          have := congrArg List.length habs
          simp only [List.length_append, List.length_singleton] at this
          cases q with
          | nil => exact hqne rfl
          | cons a l => simp at this
        rcases hinv.visAtCity _ hmem with ⟨v, hv, hvle⟩ | habs
        · -- vis is nonempty at the start city
          have hne_vis : ¬ (∀ m, vis m = none) := by
            intro hall
            rw [hall] at hv
            exact Option.noConfusion hv
          rcases hinv.startNbrs with hempty | hnb2
          · exact hne_vis hempty
          · have hn_start : n ∈ adjGet adj start := by rw [← hcity_s]; exact hn
            obtain ⟨w, hw, hwle⟩ := hnb2 n hn_start
            apply hnb
            rw [hshape]
            refine ⟨w, ?_, ?_⟩
            · show vis (lastOf (path ++ [n])) = some w
              rw [lastOf_append]
              exact hw
            · show w ≤ routeDistance cities (path ++ [n])
              rw [hnewg_eq n]
              have h3 : city = start := hcity_s
              have h4 : cdist cities start n = cdist cities city n := by rw [h3]
              linarith [hwle, hg_nonneg, h4.symm.le, h4.le]
        · exact hq2 habs
  · -- prefBlocked
    intro e he i hipos hilt
    rw [hpq'] at he
    rcases List.mem_append.mp he with hre | hne
    · obtain ⟨v, hv, hvle⟩ := hinv.prefBlocked e (hsub e hre) i hipos hilt
      obtain ⟨v', hv', hvv⟩ := himp _ _ hv
      exact ⟨v', hv', le_trans hvv hvle⟩
    · obtain ⟨⟨n, hn, hshape⟩, _, hwit⟩ := hnew e hne
      rw [hshape] at hilt ⊢
      simp only [aPath] at hilt ⊢
      rw [List.length_append, List.length_singleton] at hilt
      by_cases hip : i < path.length
      · obtain ⟨v, hv, hvle⟩ := hinv.prefBlocked _ hmem i hipos hip
        obtain ⟨v', hv', hvv⟩ := himp _ _ hv
        refine ⟨v', ?_, ?_⟩
        · rw [getD_append_le path [n] i "" hip]
          simp only [aPath] at hv'
          exact hv'
        · rw [take_append_le path [n] (i + 1) (by omega)]
          simp only [aPath] at hvle
          exact le_trans hvv hvle
      · have hieq : i = path.length := by omega
        obtain ⟨w, hw, hwle⟩ := hwit
        refine ⟨w, ?_, ?_⟩
        · rw [hieq]
          rw [List.getD_eq_getElem?_getD, List.getElem?_concat_length]
          rw [hshape] at hw
          simp only [aCity] at hw
          exact hw
        · rw [hieq]
          have hfull : (path ++ [n]).take (path.length + 1) = path ++ [n] := by
            have : (path ++ [n]).length = path.length + 1 := by
              rw [List.length_append, List.length_singleton]
            rw [← this, List.take_length]
          rw [hfull]
          rw [hshape] at hwle
          simp only [aG] at hwle
          rw [hnewg_eq n]
          exact hwle
  · -- startNbrs
    rcases hinv.startNbrs with hempty | hnb2
    · rcases hinv.visAtCity _ hmem with ⟨v, hv, _⟩ | hps
      · rw [hempty _] at hv
        exact Option.noConfusion hv
      · -- the popped entry is the initial one: its expansion visits all of
        -- the start's neighbours
        simp only [aPath] at hps
        have hcity_s : city = start := by
          rw [← hlast_p, hps]
          rfl
        have hg0 : g = 0 := by
          rw [hg_p, hps]
          exact routeDistance_short cities [start] (by simp)
        right
        intro m hm
        have hm2 : m ∈ adjGet adj city := by rw [hcity_s]; exact hm
        obtain ⟨w, hw, hwle⟩ := hnbrs m hm2
        refine ⟨w, hw, ?_⟩
        rw [hg0] at hwle
        have : cdist cities city m = cdist cities start m := by rw [hcity_s]
        rw [this] at hwle
        linarith
    · right
      intro m hm
      obtain ⟨v, hv, hvle⟩ := hnb2 m hm
      obtain ⟨v', hv', hvv⟩ := himp _ _ hv
      exact ⟨v', hv', le_trans hvv hvle⟩
  · -- visJ
    intro n v hv
    rcases hlastc n with hsame | ⟨e, he, hec, hev⟩
    · rw [hsame] at hv
      rcases hinv.visJ n v hv with ⟨e0, he0, hc0, hg0⟩ | ⟨hng, hbd⟩
      · have he0' : e0 ∈ ((f0, city, path, g) : AEntry) :: rest := hperm.subset he0
        rcases List.mem_cons.mp he0' with heq | hre
        · -- the witness was the popped entry: its full expansion bounds all
          -- neighbours of n
          right
          have hc1 : city = n := by rw [heq] at hc0; exact hc0
          refine ⟨by rw [← hc1]; exact hgoal, ?_⟩
          intro m hm
          have hm2 : m ∈ adjGet adj city := by rw [hc1]; exact hm
          obtain ⟨w, hw, hwle⟩ := hnbrs m hm2
          have hgv : g ≤ v := by rw [heq] at hg0; exact hg0
          refine ⟨w, hw, ?_⟩
          have : cdist cities city m = cdist cities n m := by rw [hc1]
          rw [this] at hwle
          linarith
        · left
          exact ⟨e0, by rw [hpq']; exact List.mem_append_left _ hre, hc0, hg0⟩
      · right
        refine ⟨hng, ?_⟩
        intro m hm
        obtain ⟨w, hw, hwle⟩ := hbd m hm
        obtain ⟨w', hw', hww⟩ := himp _ _ hw
        exact ⟨w', hw', le_trans hww hwle⟩
    · left
      refine ⟨e, he, hec, ?_⟩
      rw [hev] at hv
      injection hv with h1
      rw [h1]
  · -- visAtCity
    intro e he
    rw [hpq'] at he
    rcases List.mem_append.mp he with hre | hne
    · rcases hinv.visAtCity e (hsub e hre) with ⟨v, hv, hvle⟩ | hps
      · obtain ⟨v', hv', hvv⟩ := himp _ _ hv
        exact Or.inl ⟨v', hv', le_trans hvv hvle⟩
      · exact Or.inr hps
    · obtain ⟨_, _, hwit⟩ := hnew e hne
      exact Or.inl hwit


lemma lastOf_mem : ∀ p : Route, p ≠ [] → lastOf p ∈ p := by
  intro p
  induction p with
  | nil => intro h; exact absurd rfl h
  | cons a l ih =>
    intro _
    cases l with
    | nil => simp [lastOf]
    | cons b l2 =>
      have h1 : lastOf (a :: b :: l2) = lastOf (b :: l2) := by
        simp [lastOf, List.getLastD_cons]
      rw [h1]
      exact List.mem_cons_of_mem _ (ih (by simp))

/-- The main A* loop: a found result is a valid route to the goal, with no
repeated city when start and goal differ. -/
lemma aStarAux_run {adj : Adj} {cities : City → Option Coord} {start goal : City} :
    ∀ (fuel : Nat) (pq : List AEntry) (vis : City → Option ℝ),
      AInv adj cities start goal pq vis →
      ∀ r, aStarAux adj cities goal fuel pq vis = some (.found r) →
        ValidRoute adj start goal r ∧ (start ≠ goal → r.Nodup) := by
  intro fuel
  induction fuel with
  | zero =>
    intro pq vis _ r h
    simp only [aStarAux] at h
    exact Option.noConfusion h
  | succ n ih =>
    intro pq vis hinv r h
    simp only [aStarAux] at h
    cases hpop : popMinWith aLe pq with
    | none =>
      rw [hpop] at h
      injection h with h1
      exact SResult.noConfusion h1
    | some p =>
      obtain ⟨⟨f0, city, path, g⟩, rest⟩ := p
      rw [hpop] at h
      dsimp only at h
      have hperm := popMinWith_perm aLe pq _ _ hpop
      have hmem : ((f0, city, path, g) : AEntry) ∈ pq :=
        hperm.symm.subset (List.mem_cons_self _ _)
      by_cases hg : city = goal
      · rw [if_pos hg] at h
        injection h with h1
        injection h1 with h2
        have hvalid := hinv.valid _ hmem
        rw [hg] at hvalid
        refine ⟨by rw [← h2]; exact hvalid, ?_⟩
        intro hne
        rcases hinv.nodupPath _ hmem with hnd | ⟨hcs, _⟩
        · rw [← h2]; exact hnd
        · exfalso
          apply hne
          have : city = start := hcs
          rw [← this, hg]
      · rw [if_neg hg] at h
        cases hexp : aExpand cities goal city path g (adjGet adj city) rest vis with
        | none =>
          rw [hexp] at h
          injection h with h1
          exact SResult.noConfusion h1
        | some pv =>
          obtain ⟨pq', vis'⟩ := pv
          rw [hexp] at h
          exact ih pq' vis' (aStep_AInv hinv hpop hg hexp) r h

lemma aExpand_ne_none_of_cov (cities : City → Option Coord) (goal city : City)
    (path : Route) (g : ℝ) (hcity : (cities city).isSome)
    (hgoal : (cities goal).isSome) :
    ∀ (ns : List City), (∀ n ∈ ns, (cities n).isSome) →
      ∀ (pq : List AEntry) (vis : City → Option ℝ),
        aExpand cities goal city path g ns pq vis ≠ none := by
  intro ns
  induction ns with
  | nil =>
    intro _ pq vis habs
    simp only [aExpand] at habs
    exact Option.noConfusion habs
  | cons n ns0 ih =>
    intro hns pq vis habs
    simp only [aExpand] at habs
    obtain ⟨cc, hcc⟩ := Option.isSome_iff_exists.mp hcity
    obtain ⟨nc, hcn⟩ := Option.isSome_iff_exists.mp (hns n (List.mem_cons_self _ _))
    obtain ⟨gc, hcg⟩ := Option.isSome_iff_exists.mp hgoal
    rw [hcc, hcn, hcg] at habs
    dsimp only at habs
    have hns0 : ∀ m ∈ ns0, (cities m).isSome :=
      fun m hm => hns m (List.mem_cons_of_mem _ hm)
    rcases hvn : vis n with _ | v
    · rw [hvn] at habs
      dsimp only at habs
      exact ih hns0 _ _ habs
    · rw [hvn] at habs
      dsimp only at habs
      by_cases hlt : g + haversine cc nc < v
      · rw [if_pos hlt] at habs
        exact ih hns0 _ _ habs
      · rw [if_neg hlt] at habs
        exact ih hns0 _ _ habs

lemma aStarAux_ne_keyError {adj : Adj} {cities : City → Option Coord}
    {start goal : City} (hcov : ∀ c ∈ verts adj start, (cities c).isSome)
    (hgoalcov : (cities goal).isSome) :
    ∀ (fuel : Nat) (pq : List AEntry) (vis : City → Option ℝ),
      AInv adj cities start goal pq vis →
      aStarAux adj cities goal fuel pq vis ≠ some .keyError := by
  intro fuel
  induction fuel with
  | zero =>
    intro pq vis _ habs
    simp only [aStarAux] at habs
    exact Option.noConfusion habs
  | succ n ih =>
    intro pq vis hinv habs
    simp only [aStarAux] at habs
    cases hpop : popMinWith aLe pq with
    | none =>
      rw [hpop] at habs
      injection habs with h1
      exact SResult.noConfusion h1
    | some p =>
      obtain ⟨⟨f0, city, path, g⟩, rest⟩ := p
      rw [hpop] at habs
      dsimp only at habs
      have hperm := popMinWith_perm aLe pq _ _ hpop
      have hmem : ((f0, city, path, g) : AEntry) ∈ pq :=
        hperm.symm.subset (List.mem_cons_self _ _)
      by_cases hg : city = goal
      · rw [if_pos hg] at habs
        injection habs with h1
        exact SResult.noConfusion h1
      · rw [if_neg hg] at habs
        have hvalid := hinv.valid _ hmem
        have hpath_ne : path ≠ [] := validRoute_ne_nil hvalid
        have hcity_mem : city ∈ verts adj start := by
          have h1 : lastOf path = city := validRoute_last hvalid
          have h2 : lastOf path ∈ path := lastOf_mem path hpath_ne
          rw [h1] at h2
          exact validRoute_mem_verts hvalid city h2
        have hcity_cov : (cities city).isSome := hcov city hcity_mem
        have hns_cov : ∀ m ∈ adjGet adj city, (cities m).isSome := by
          intro m hm
          exact hcov m (List.mem_cons_of_mem _ (adjGet_mem_flat hm))
        cases hexp : aExpand cities goal city path g (adjGet adj city) rest vis with
        | none =>
          exact aExpand_ne_none_of_cov cities goal city path g hcity_cov hgoalcov
            _ hns_cov _ _ hexp
        | some pv =>
          obtain ⟨pq', vis'⟩ := pv
          rw [hexp] at habs
          exact ih pq' vis' (aStep_AInv hinv hpop hg hexp) habs

lemma aStarAux_ne_none {adj : Adj} {cities : City → Option Coord}
    {start goal : City} :
    ∀ (fuel : Nat) (pq : List AEntry) (vis : City → Option ℝ),
      AInv adj cities start goal pq vis →
      unblockedCard cities
          (listsUpTo (verts adj start) ((verts adj start).length + 2)) vis +
        pq.length < fuel →
      aStarAux adj cities goal fuel pq vis ≠ none := by
  intro fuel
  induction fuel with
  | zero => intro pq vis _ hm; exact absurd hm (Nat.not_lt_zero _)
  | succ n ih =>
    intro pq vis hinv hm
    simp only [aStarAux]
    cases hpop : popMinWith aLe pq with
    | none => exact fun habs => Option.noConfusion habs
    | some p =>
      obtain ⟨⟨f0, city, path, g⟩, rest⟩ := p
      dsimp only
      have hperm := popMinWith_perm aLe pq _ _ hpop
      have hmem : ((f0, city, path, g) : AEntry) ∈ pq :=
        hperm.symm.subset (List.mem_cons_self _ _)
      by_cases hg : city = goal
      · rw [if_pos hg]; exact fun habs => Option.noConfusion habs
      · rw [if_neg hg]
        cases hexp : aExpand cities goal city path g (adjGet adj city) rest vis with
        | none => exact fun habs => Option.noConfusion habs
        | some pv =>
          obtain ⟨pq', vis'⟩ := pv
          apply ih pq' vis' (aStep_AInv hinv hpop hg hexp)
          have hvalid := hinv.valid _ hmem
          have hg_p : g = routeDistance cities path := hinv.gval _ hmem
          have hpath_ne : path ≠ [] := validRoute_ne_nil hvalid
          have hlast_p : lastOf path = city := validRoute_last hvalid
          have hmemv : ∀ x ∈ path, x ∈ verts adj start := validRoute_mem_verts hvalid
          have hlen : path.length ≤ (verts adj start).length + 1 := by
            rcases hinv.nodupPath _ hmem with hnd | ⟨_, q, hq, hqnd, _⟩
            · have := nodup_length_le path (verts adj start) hnd hmemv
              omega
            · have hqsub : ∀ x ∈ q, x ∈ verts adj start := by
                intro x hx
                apply hmemv
                rw [show aPath ((f0 : ℝ), city, path, g) = path from rfl] at hq
                rw [hq]
                exact List.mem_append_left _ hx
              have := nodup_length_le q (verts adj start) hqnd hqsub
              have hql := congrArg List.length hq
              simp only [aPath, List.length_append, List.length_singleton] at hql
              omega
          have hF : ∀ m ∈ adjGet adj city, path ++ [m] ∈
              listsUpTo (verts adj start) ((verts adj start).length + 2) := by
            intro m hmm
            apply mem_listsUpTo
            · rw [List.length_append, List.length_singleton]
              omega
            · intro x hx
              rcases List.mem_append.mp hx with hx1 | hx2
              · exact hmemv x hx1
              · simp only [List.mem_singleton] at hx2
                rw [hx2]
                exact List.mem_cons_of_mem _ (adjGet_mem_flat hmm)
          have hcount := aExpand_count cities goal city path g hg_p hpath_ne hlast_p
            _ _ _ _ _ _ hF hexp
          have hplen : pq.length = rest.length + 1 := by
            have := hperm.length_eq
            simpa using this
          omega


lemma a_star_search_no_route (adj : Adj) (start goal : City)
    (cities : City → Option Coord)
    (hcov : ∀ c ∈ verts adj start, (cities c).isSome)
    (hgoal : (cities goal).isSome)
    (hnr : ¬ Reachable adj start goal) :
    a_star_search start goal adj cities = some .notFound := by
  unfold a_star_search
  have hinv := AInv_init adj cities start goal
  have hm : unblockedCard cities
      (listsUpTo (verts adj start) ((verts adj start).length + 2)) (fun _ => none) +
      ([(((0 : ℝ), start, [start], (0 : ℝ)))] : List AEntry).length < fuelBoundA adj start := by
    have h1 : unblockedCard cities
        (listsUpTo (verts adj start) ((verts adj start).length + 2)) (fun _ => none) ≤
        (listsUpTo (verts adj start) ((verts adj start).length + 2)).card := by
      classical
      exact Finset.card_filter_le _ _
    have h2 := card_listsUpTo (verts adj start) ((verts adj start).length + 2)
    have h3 : ((verts adj start).length + 1) ^ ((verts adj start).length + 2) ≤
        ((verts adj start).length + 2) ^ ((verts adj start).length + 3) := by
      calc ((verts adj start).length + 1) ^ ((verts adj start).length + 2) ≤
            ((verts adj start).length + 2) ^ ((verts adj start).length + 2) :=
          Nat.pow_le_pow_left (by omega) _
        _ ≤ ((verts adj start).length + 2) ^ ((verts adj start).length + 3) :=
          Nat.pow_le_pow_right (by omega) (by omega)
    unfold fuelBoundA
    simp only [List.length_cons, List.length_nil]
    omega
  cases hres : aStarAux adj cities goal (fuelBoundA adj start)
      [(0, start, [start], 0)] (fun _ => none) with
  | none => exact absurd hres (aStarAux_ne_none _ _ _ hinv hm)
  | some r =>
    cases r with
    | found p =>
      have := (aStarAux_run _ _ _ hinv p hres).1
      exact absurd ⟨p, this⟩ hnr
    | notFound => rfl
    | keyError => exact absurd hres (aStarAux_ne_keyError hcov hgoal _ _ _ hinv)

/-- For a start city with no adjacency entries, nothing except the start
itself is reachable. -/
lemma not_reachable_no_nbrs (adj : Adj) (start goal : City) (h : start ≠ goal)
    (hadj : adjGet adj start = []) : ¬ Reachable adj start goal := by
  rintro ⟨p, hp⟩
  cases p with
  | nil => simp [ValidRoute] at hp
  | cons c rest =>
    cases rest with
    | nil =>
      simp only [ValidRoute] at hp
      exact h (hp.1 ▸ hp.2)
    | cons c2 rest2 =>
      simp only [ValidRoute] at hp
      obtain ⟨h1, h2, _⟩ := hp
      rw [h1, hadj] at h2
      exact absurd h2 (List.not_mem_nil c2)

/-! ### Claim C3. -/

/-- C3 is refuted as stated: with a location map that has no coordinates,
`best_first_search` raises `KeyError` on the unreachable pair (A, B)
instead of returning the `None` result, and so does `a_star_search` as
soon as the start has a neighbour to expand. -/
theorem C3_counterexample :
    best_first_search "A" "B" [] (fun _ => none) = some .keyError ∧
    a_star_search "A" "B" [("A", ["C"])] (fun _ => none) = some .keyError ∧
    ¬ Reachable [] "A" "B" ∧
    ¬ Reachable [("A", ["C"])] "A" "B" := by
  refine ⟨rfl, ?_, ?_, ?_⟩
  · rfl
  · exact not_reachable_no_nbrs [] "A" "B" (by decide) rfl
  · rintro ⟨p, hp⟩
    cases p with
    | nil => simp [ValidRoute] at hp
    | cons c rest =>
      cases rest with
      | nil =>
        simp only [ValidRoute] at hp
        rw [hp.1] at hp
        exact absurd hp.2 (by decide)
      | cons c2 rest2 =>
        simp only [ValidRoute] at hp
        obtain ⟨h1, h2, h3⟩ := hp
        rw [h1] at h2
        have hc2 : c2 = "C" := by
          have : adjGet [("A", ["C"])] "A" = ["C"] := rfl
          rw [this] at h2
          simpa using h2
        rw [hc2] at h3
        cases rest2 with
        | nil =>
          simp only [ValidRoute] at h3
          exact absurd h3.2 (by decide)
        | cons c3 rest3 =>
          simp only [ValidRoute] at h3
          obtain ⟨_, h4, _⟩ := h3
          have : adjGet [("A", ["C"])] "C" = [] := rfl
          rw [this] at h4
          exact absurd h4 (List.not_mem_nil c3)

/-- C3 (amended): when the goal is unreachable from the start, all five
search functions terminate and return the "not found" value and none of
them raises — provided the location map has coordinates for the start, the
goal, and every city mentioned in the adjacency map.  (Without that
proviso, `best_first_search` and `a_star_search` raise `KeyError`, as the
counterexample shows; the three uninformed searches never need the
location map.) -/
theorem C3_amended_unreachable_not_found (adj : Adj) (start goal : City)
    (cities : City → Option Coord)
    (hcov : ∀ c ∈ verts adj start, (cities c).isSome)
    (hgoal : (cities goal).isSome)
    (hnr : ¬ Reachable adj start goal) :
    brute_force_search start goal adj cities = some .notFound ∧
    bfs start goal adj = some .notFound ∧
    dfs start goal adj = some .notFound ∧
    best_first_search start goal adj cities = some .notFound ∧
    a_star_search start goal adj cities = some .notFound := by
  refine ⟨brute_force_search_no_route adj start goal cities hnr,
    bfs_no_route adj start goal hnr, ?_,
    best_first_search_no_route adj start goal cities hcov hgoal hnr,
    a_star_search_no_route adj start goal cities hcov hgoal hnr⟩
  show dfs start goal adj = some .notFound
  have heq : dfs start goal adj = brute_force_search start goal adj cities := by
    unfold dfs brute_force_search
    exact dfsAux_eq_bruteAux adj goal _ _
  rw [heq]
  exact brute_force_search_no_route adj start goal cities hnr

/-- Witness for the amended C3 at a concrete unreachable instance. -/
theorem C3_witness :
    brute_force_search "A" "B" [] (fun _ => some ((0 : ℝ), (0 : ℝ))) = some .notFound ∧
    bfs "A" "B" [] = some .notFound ∧
    dfs "A" "B" [] = some .notFound ∧
    best_first_search "A" "B" [] (fun _ => some ((0 : ℝ), (0 : ℝ))) = some .notFound ∧
    a_star_search "A" "B" [] (fun _ => some ((0 : ℝ), (0 : ℝ))) = some .notFound :=
  C3_amended_unreachable_not_found [] "A" "B" (fun _ => some ((0 : ℝ), (0 : ℝ)))
    (fun c _ => rfl) rfl
    (not_reachable_no_nbrs [] "A" "B" (by decide) rfl)


/-! ### Claim C6. -/

/-- C6: any route returned by any of the five search functions is a simple
valid route — its first element is the start, its last element is the
goal, every consecutive pair of cities is adjacent in the adjacency map,
and no city appears twice. -/
theorem C6_found_routes_simple (adj : Adj) (start goal : City)
    (cities : City → Option Coord) (r : Route) :
    (brute_force_search start goal adj cities = some (.found r) →
      ValidRoute adj start goal r ∧ r.head? = some start ∧ lastOf r = goal ∧ r.Nodup) ∧
    (bfs start goal adj = some (.found r) →
      ValidRoute adj start goal r ∧ r.head? = some start ∧ lastOf r = goal ∧ r.Nodup) ∧
    (dfs start goal adj = some (.found r) →
      ValidRoute adj start goal r ∧ r.head? = some start ∧ lastOf r = goal ∧ r.Nodup) ∧
    (best_first_search start goal adj cities = some (.found r) →
      ValidRoute adj start goal r ∧ r.head? = some start ∧ lastOf r = goal ∧ r.Nodup) ∧
    (a_star_search start goal adj cities = some (.found r) →
      ValidRoute adj start goal r ∧ r.head? = some start ∧ lastOf r = goal ∧ r.Nodup) := by
  refine ⟨?_, ?_, ?_, ?_, ?_⟩
  · intro h
    have hv := bruteAux_found _ _ r (init_entry_inv adj start) h
    exact ⟨hv.1, validRoute_head hv.1, validRoute_last hv.1, hv.2⟩
  · intro h
    have hv := bfsAux_found _ _ r (init_entry_inv adj start) h
    exact ⟨hv.1, validRoute_head hv.1, validRoute_last hv.1, hv.2⟩
  · intro h
    have heq : dfs start goal adj =
        bruteAux adj goal (fuelBound adj start) [(start, [start])] := by
      unfold dfs
      exact dfsAux_eq_bruteAux adj goal _ _
    rw [heq] at h
    have hv := bruteAux_found _ _ r (init_entry_inv adj start) h
    exact ⟨hv.1, validRoute_head hv.1, validRoute_last hv.1, hv.2⟩
  · intro h
    unfold best_first_search at h
    cases hcs : cities start with
    | none =>
      rw [hcs] at h
      cases hcg : cities goal with
      | none => rw [hcg] at h; injection h with h1; exact SResult.noConfusion h1
      | some cg => rw [hcg] at h; injection h with h1; exact SResult.noConfusion h1
    | some cs =>
      rw [hcs] at h
      cases hcg : cities goal with
      | none => rw [hcg] at h; injection h with h1; exact SResult.noConfusion h1
      | some cg =>
        rw [hcg] at h
        have hinv : ∀ e ∈ [(haversine cs cg, start, ([start] : Route))],
            BEntryInv adj start e := by
          intro e he
          simp only [List.mem_singleton] at he
          rw [he]
          exact ⟨validRoute_singleton, List.nodup_singleton _⟩
        have hv := bestAux_found _ _ r hinv h
        exact ⟨hv.1, validRoute_head hv.1, validRoute_last hv.1, hv.2⟩
  · intro h
    by_cases hsg : start = goal
    · subst hsg
      have hpop : a_star_search start start adj cities = some (.found [start]) :=
        aStarAux_pop_goal adj cities start
          (((verts adj start).length + 2) ^ ((verts adj start).length + 3) + 1)
          0 0 [start] (fun _ => none)
      rw [hpop] at h
      injection h with h1
      injection h1 with h2
      rw [← h2]
      exact ⟨validRoute_singleton, rfl, rfl, List.nodup_singleton _⟩
    · have hv := aStarAux_run (fuelBoundA adj start) _ _
        (AInv_init adj cities start goal) r h
      exact ⟨hv.1, validRoute_head hv.1, validRoute_last hv.1, hv.2 hsg⟩

/-- Witness for C6 on a concrete two-city graph and on the degenerate
start-equals-goal instance. -/
theorem C6_witness :
    ValidRoute [("A", ["B"]), ("B", ["A"])] "A" "B" ["A", "B"] ∧
    (["A", "B"] : Route).head? = some "A" ∧ lastOf ["A", "B"] = "B" ∧
    (["A", "B"] : Route).Nodup :=
  (C6_found_routes_simple [("A", ["B"]), ("B", ["A"])] "A" "B"
    (fun _ => some ((0 : ℝ), (0 : ℝ))) ["A", "B"]).1 rfl


/-! ### Claim C2: BFS minimality.  First, route surgery lemmas. -/

lemma validRoute_split {adj : Adj} {x : City} :
    ∀ (p1 : Route) {s g : City} (p2 : Route),
      ValidRoute adj s g (p1 ++ x :: p2) →
      ValidRoute adj s x (p1 ++ [x]) ∧ ValidRoute adj x g (x :: p2) := by
  intro p1
  induction p1 with
  | nil =>
    intro s g p2 h
    simp only [List.nil_append] at h ⊢
    have hx : x = s := by
      have h2 := validRoute_head h
      simp only [List.head?_cons, Option.some.injEq] at h2
      exact h2
    subst hx
    exact ⟨validRoute_singleton, h⟩
  | cons a p1x ih =>
    intro s g p2 h
    cases p1x with
    | nil =>
      simp only [List.cons_append, List.nil_append] at h ⊢
      simp only [ValidRoute] at h
      obtain ⟨h1, h2, h3⟩ := h
      exact ⟨⟨h1, h2, validRoute_singleton⟩, h3⟩
    | cons b p1y =>
      simp only [List.cons_append] at h ⊢
      simp only [ValidRoute] at h
      obtain ⟨h1, h2, h3⟩ := h
      have h3x : ValidRoute adj b g ((b :: p1y) ++ x :: p2) := by
        simpa [List.cons_append] using h3
      have hih := ih p2 h3x
      refine ⟨⟨h1, h2, ?_⟩, hih.2⟩
      have := hih.1
      simpa [List.cons_append] using this

lemma validRoute_glue {adj : Adj} {x g : City} :
    ∀ (p1 : Route) {s : City} (p2 : Route),
      ValidRoute adj s x (p1 ++ [x]) → ValidRoute adj x g (x :: p2) →
      ValidRoute adj s g (p1 ++ x :: p2) := by
  intro p1
  induction p1 with
  | nil =>
    intro s p2 h1 h2
    simp only [List.nil_append] at h1 ⊢
    simp only [ValidRoute] at h1
    rw [← h1.1]
    exact h2
  | cons a p1x ih =>
    intro s p2 h1 h2
    cases p1x with
    | nil =>
      simp only [List.cons_append, List.nil_append] at h1 ⊢
      simp only [ValidRoute] at h1
      obtain ⟨ha, hx, _⟩ := h1
      exact ⟨ha, hx, h2⟩
    | cons b p1y =>
      simp only [List.cons_append] at h1 ⊢
      simp only [ValidRoute] at h1
      obtain ⟨ha, hb, h3⟩ := h1
      have h3x : ValidRoute adj b x ((b :: p1y) ++ [x]) := by
        simpa [List.cons_append] using h3
      have hrec := ih p2 h3x h2
      exact ⟨ha, hb, by simpa [List.cons_append] using hrec⟩

lemma not_nodup_split : ∀ (l : Route), ¬ l.Nodup →
    ∃ (l1 : Route) (a : City) (l2 l3 : Route), l = l1 ++ a :: l2 ++ a :: l3 := by
  intro l
  induction l with
  | nil => intro h; exact absurd List.nodup_nil h
  | cons x rest ih =>
    intro h
    by_cases hx : x ∈ rest
    · obtain ⟨s, t, hst⟩ := List.append_of_mem hx
      exact ⟨[], x, s, t, by rw [hst]; simp⟩
    · have hrest : ¬ rest.Nodup := by
        intro hn
        exact h (List.nodup_cons.mpr ⟨hx, hn⟩)
      obtain ⟨l1, a, l2, l3, hl⟩ := ih hrest
      exact ⟨x :: l1, a, l2, l3, by rw [hl]; simp⟩

/-- Any valid route can be shortened to a simple (duplicate-free) valid
route between the same endpoints. -/
lemma exists_nodup_validRoute {adj : Adj} {s g : City} :
    ∀ (N : Nat) (p : Route), p.length ≤ N → ValidRoute adj s g p →
      ∃ q, ValidRoute adj s g q ∧ q.Nodup ∧ q.length ≤ p.length := by
  intro N
  induction N with
  | zero =>
    intro p hlen h
    have hnil : p = [] := List.length_eq_zero.mp (Nat.le_zero.mp hlen)
    rw [hnil] at h
    exact absurd h (by simp [ValidRoute])
  | succ n ih =>
    intro p hlen h
    by_cases hnd : p.Nodup
    · exact ⟨p, h, hnd, le_refl _⟩
    · obtain ⟨l1, a, l2, l3, hp⟩ := not_nodup_split p hnd
      rw [hp] at h
      simp only [List.append_assoc, List.cons_append] at h
      have hsplit1 := validRoute_split l1 (l2 ++ a :: l3) h
      have h2 : ValidRoute adj a g ((a :: l2) ++ a :: l3) := by
        simpa [List.cons_append] using hsplit1.2
      have hsplit2 := validRoute_split (a :: l2) l3 h2
      have hglue := validRoute_glue l1 l3 hsplit1.1 hsplit2.2
      have hlen2 : (l1 ++ a :: l3).length ≤ n := by
        rw [hp] at hlen
        simp only [List.length_append, List.length_cons] at hlen ⊢
        omega
      obtain ⟨q, hq1, hq2, hq3⟩ := ih _ hlen2 hglue
      refine ⟨q, hq1, hq2, ?_⟩
      rw [hp]
      simp only [List.length_append, List.length_cons] at hq3 ⊢
      omega

lemma validRoute_consec {adj : Adj} {s g : City} :
    ∀ {Q : Route}, ValidRoute adj s g Q → ∀ i, i + 1 < Q.length →
      Q.getD (i + 1) "" ∈ adjGet adj (Q.getD i "") := by
  intro Q
  induction Q generalizing s with
  | nil =>
    intro h
    exact absurd h (by simp [ValidRoute])
  | cons a rest ih =>
    intro h i hi
    cases rest with
    | nil => simp at hi
    | cons b rest2 =>
      simp only [ValidRoute] at h
      obtain ⟨h1, h2, h3⟩ := h
      cases i with
      | zero =>
        simp only [List.getD_cons_succ, List.getD_cons_zero]
        exact h2
      | succ j =>
        simp only [List.getD_cons_succ]
        apply ih h3 j
        simp only [List.length_cons] at hi ⊢
        omega

lemma drop_eq_getD_cons (Q : Route) (i : Nat) (h : i < Q.length) :
    Q.drop i = Q.getD i "" :: Q.drop (i + 1) := by
  rw [List.drop_eq_getElem_cons h]
  congr 1
  rw [List.getD_eq_getElem?_getD, List.getElem?_eq_getElem h]
  rfl

lemma getD_mem_drop (Q : Route) (i : Nat) (h : i < Q.length) :
    Q.getD i "" ∈ Q.drop i := by
  rw [drop_eq_getD_cons Q i h]
  exact List.mem_cons_self _ _

lemma mem_drop_succ_of_mem {Q : Route} {i : Nat} {x : City}
    (h : x ∈ Q.drop (i + 1)) : x ∈ Q.drop i := by
  have hsub : Q.drop (i + 1) ⊆ Q.drop i := by
    have h1 : List.drop 1 (Q.drop i) = Q.drop (i + 1) := by
      rw [List.drop_drop]
    rw [← h1]
    exact (List.drop_sublist 1 (Q.drop i)).subset
  exact hsub h

lemma getD_not_mem_drop_succ {Q : Route} {i : Nat} (hnd : Q.Nodup)
    (h : i < Q.length) : Q.getD i "" ∉ Q.drop (i + 1) := by
  have hdnd : (Q.drop i).Nodup := hnd.sublist (List.drop_sublist i Q)
  rw [drop_eq_getD_cons Q i h] at hdnd
  exact (List.nodup_cons.mp hdnd).1


/-- The list of entries pushed by one `bfs` expansion step. -/
abbrev bfsPushes (adj : Adj) (city : City) (path : Route) : List (City × Route) :=
  ((adjGet adj city).filter (fun n => !path.contains n)).map (fun n => (n, path ++ [n]))

lemma mem_bfsPushes_elim {adj : Adj} {city : City} {path : Route} {e : City × Route}
    (h : e ∈ bfsPushes adj city path) :
    ∃ n, n ∈ adjGet adj city ∧ n ∉ path ∧ e = (n, path ++ [n]) := by
  obtain ⟨n, hn, he⟩ := List.mem_map.mp h
  have hf := List.mem_filter.mp hn
  exact ⟨n, hf.1, by simpa using hf.2, he.symm⟩

lemma bfsPushes_mem_intro {adj : Adj} {city n : City} {path : Route}
    (hn : n ∈ adjGet adj city) (hnp : n ∉ path) :
    (n, path ++ [n]) ∈ bfsPushes adj city path := by
  apply List.mem_map.mpr
  exact ⟨n, List.mem_filter.mpr ⟨hn, by simpa using hnp⟩, rfl⟩

lemma bfsPushes_len {adj : Adj} {city : City} {path : Route} {e : City × Route}
    (h : e ∈ bfsPushes adj city path) : e.2.length = path.length + 1 := by
  obtain ⟨n, _, _, he⟩ := mem_bfsPushes_elim h
  rw [he]
  simp

/-- The BFS queue is sorted by nondecreasing path length. -/
def LenOrdered (queue : List (City × Route)) : Prop :=
  queue.Pairwise (fun e1 e2 => e1.2.length ≤ e2.2.length)

/-- Every path in the BFS queue is at most one longer than the head path. -/
def LenBounded : List (City × Route) → Prop
  | [] => True
  | h :: t => ∀ e ∈ h :: t, e.2.length ≤ h.2.length + 1

/-- Some queue entry sits on the reference route `Q` at position `i`, with a
path of at most `i + 1` cities that avoids the remainder of `Q`. -/
def BfsCover (Q : Route) (queue : List (City × Route)) : Prop :=
  ∃ e ∈ queue, ∃ i, i < Q.length ∧ e.1 = Q.getD i "" ∧ e.2.length ≤ i + 1 ∧
    ∀ x ∈ Q.drop (i + 1), x ∉ e.2

lemma bfs_step_lenOrdered {adj : Adj} {city : City} {path : Route}
    {rest : List (City × Route)}
    (hord : LenOrdered ((city, path) :: rest))
    (hbdd : LenBounded ((city, path) :: rest)) :
    LenOrdered (rest ++ bfsPushes adj city path) := by
  have hordrest : LenOrdered rest := (List.pairwise_cons.mp hord).2
  rw [LenOrdered, List.pairwise_append]
  refine ⟨hordrest, ?_, ?_⟩
  · apply List.pairwise_of_forall_mem_list
    intro a ha b hb
    rw [bfsPushes_len ha, bfsPushes_len hb]
  · intro a ha b hb
    have h1 : a.2.length ≤ path.length + 1 := hbdd a (List.mem_cons_of_mem _ ha)
    have h2 : b.2.length = path.length + 1 := bfsPushes_len hb
    omega

lemma bfs_step_lenBounded {adj : Adj} {city : City} {path : Route}
    {rest : List (City × Route)}
    (hord : LenOrdered ((city, path) :: rest))
    (hbdd : LenBounded ((city, path) :: rest)) :
    LenBounded (rest ++ bfsPushes adj city path) := by
  cases rest with
  | nil =>
    simp only [List.nil_append]
    cases hp : bfsPushes adj city path with
    | nil => trivial
    | cons h0 t0 =>
      show ∀ e ∈ h0 :: t0, e.2.length ≤ h0.2.length + 1
      intro e he
      have he2 : e ∈ bfsPushes adj city path := by rw [hp]; exact he
      have h02 : h0 ∈ bfsPushes adj city path := by
        rw [hp]; exact List.mem_cons_self _ _
      rw [bfsPushes_len he2, bfsPushes_len h02]
      omega
  | cons h0 t0 =>
    show ∀ e ∈ h0 :: (t0 ++ bfsPushes adj city path), e.2.length ≤ h0.2.length + 1
    intro e he
    have hh0 : path.length ≤ h0.2.length :=
      (List.pairwise_cons.mp hord).1 h0 (List.mem_cons_self _ _)
    rcases List.mem_cons.mp he with heq | hmem
    · rw [heq]; omega
    · rcases List.mem_append.mp hmem with h1 | h1
      · have hb : e.2.length ≤ path.length + 1 :=
          hbdd e (List.mem_cons_of_mem _ (List.mem_cons_of_mem _ h1))
        omega
      · have := bfsPushes_len h1
        omega

lemma bfs_step_cover {adj : Adj} {start goal city : City} {path : Route}
    {rest : List (City × Route)} {Q : Route}
    (hQv : ValidRoute adj start goal Q) (hQnd : Q.Nodup) (hg : city ≠ goal)
    (hcov : BfsCover Q ((city, path) :: rest)) :
    BfsCover Q (rest ++ bfsPushes adj city path) := by
  obtain ⟨e, he, i, hi, hci, hlen, havoid⟩ := hcov
  rcases List.mem_cons.mp he with heq | hmem
  · have hcity : city = Q.getD i "" := by rw [heq] at hci; exact hci
    have hlen2 : path.length ≤ i + 1 := by rw [heq] at hlen; exact hlen
    have havoid2 : ∀ x ∈ Q.drop (i + 1), x ∉ path := by
      intro x hx
      have := havoid x hx
      rw [heq] at this
      exact this
    have hlast : Q.getD (Q.length - 1) "" = goal := by
      rw [← lastOf_eq_getD]
      exact validRoute_last hQv
    have hi1 : i + 1 < Q.length := by
      by_contra hle
      have hieq : i = Q.length - 1 := by omega
      rw [hieq, hlast] at hcity
      exact hg hcity
    have hm_adj : Q.getD (i + 1) "" ∈ adjGet adj city := by
      rw [hcity]
      exact validRoute_consec hQv i hi1
    have hm_drop : Q.getD (i + 1) "" ∈ Q.drop (i + 1) := getD_mem_drop Q (i + 1) hi1
    have hm_np : Q.getD (i + 1) "" ∉ path := havoid2 _ hm_drop
    refine ⟨(Q.getD (i + 1) "", path ++ [Q.getD (i + 1) ""]),
      List.mem_append_right _ (bfsPushes_mem_intro hm_adj hm_np), i + 1, hi1, rfl, ?_, ?_⟩
    · show (path ++ [Q.getD (i + 1) ""]).length ≤ i + 2
      rw [List.length_append, List.length_singleton]
      omega
    · intro x hx
      have hx1 : x ∈ Q.drop (i + 1) := mem_drop_succ_of_mem hx
      have hxp : x ∉ path := havoid2 x hx1
      have hxm : x ≠ Q.getD (i + 1) "" := by
        intro hxe
        rw [hxe] at hx
        exact getD_not_mem_drop_succ hQnd hi1 hx
      show x ∉ path ++ [Q.getD (i + 1) ""]
      intro hmem2
      rcases List.mem_append.mp hmem2 with h1 | h1
      · exact hxp h1
      · exact hxm (List.mem_singleton.mp h1)
  · exact ⟨e, List.mem_append_left _ hmem, i, hi, hci, hlen, havoid⟩

/-- Main loop invariant run for BFS minimality: with an ordered, bounded,
covering queue the loop never reports "not found", and any found route has
at most as many cities as the reference simple route `Q`. -/
lemma bfsAux_min_run {adj : Adj} {start goal : City} {Q : Route}
    (hQv : ValidRoute adj start goal Q) (hQnd : Q.Nodup) :
    ∀ (fuel : Nat) (queue : List (City × Route)),
      LenOrdered queue → LenBounded queue → BfsCover Q queue →
      ∀ res, bfsAux adj goal fuel queue = some res →
        res ≠ .notFound ∧ ∀ r, res = .found r → r.length ≤ Q.length := by
  intro fuel
  induction fuel with
  | zero =>
    intro queue _ _ _ res h
    simp only [bfsAux] at h
    exact Option.noConfusion h
  | succ n ih =>
    intro queue hord hbdd hcov res h
    cases queue with
    | nil =>
      obtain ⟨e, he, _⟩ := hcov
      exact absurd he (List.not_mem_nil e)
    | cons e0 rest =>
      obtain ⟨city, path⟩ := e0
      simp only [bfsAux] at h
      by_cases hg : city = goal
      · rw [if_pos hg] at h
        injection h with h1
        rw [← h1]
        constructor
        · intro hc
          exact SResult.noConfusion hc
        · intro r hr
          injection hr with h2
          rw [← h2]
          obtain ⟨e, he, i, hi, _, hlen, _⟩ := hcov
          have hle : path.length ≤ e.2.length := by
            rcases List.mem_cons.mp he with heq | hmem
            · rw [heq]
            · exact (List.pairwise_cons.mp hord).1 e hmem
          omega
      · rw [if_neg hg] at h
        exact ih _ (bfs_step_lenOrdered hord hbdd) (bfs_step_lenBounded hord hbdd)
          (bfs_step_cover hQv hQnd hg hcov) res h

/-- When the goal is reachable, `bfs` returns a route that is at least as
short (in number of cities, hence in number of edges) as every simple valid
route. -/
lemma bfs_reachable_found {adj : Adj} {start goal : City}
    (hreach : Reachable adj start goal) :
    ∃ r, bfs start goal adj = some (.found r) ∧
      ∀ Q, ValidRoute adj start goal Q → Q.Nodup → r.length ≤ Q.length := by
  obtain ⟨p, hp⟩ := hreach
  obtain ⟨Q0, hQ0v, hQ0nd, _⟩ := exists_nodup_validRoute p.length p (le_refl _) hp
  have hord0 : LenOrdered [(start, ([start] : Route))] := List.pairwise_singleton _ _
  have hbdd0 : LenBounded [(start, ([start] : Route))] := by
    show ∀ e ∈ [(start, ([start] : Route))], e.2.length ≤ ([start] : Route).length + 1
    intro e he
    rw [List.mem_singleton.mp he]
    simp
  have hinit : ∀ Qr, ValidRoute adj start goal Qr → Qr.Nodup →
      BfsCover Qr [(start, [start])] := by
    intro Qr hQv hQnd
    have hQpos : 0 < Qr.length := by
      cases Qr with
      | nil => exact absurd hQv (by simp [ValidRoute])
      | cons a l => simp
    refine ⟨(start, [start]), List.mem_cons_self _ _, 0, hQpos,
      (validRoute_getD_zero hQv).symm, by simp, ?_⟩
    intro x hx
    show x ∉ [start]
    intro hxs
    rw [List.mem_singleton.mp hxs] at hx
    have := getD_not_mem_drop_succ hQnd hQpos
    rw [validRoute_getD_zero hQv] at this
    exact this hx
  have hm : routesMeasure ((verts adj start).length + 2)
      ([(start, ([start] : Route))].map Prod.snd) < fuelBound adj start := by
    simpa using init_measure_lt adj start
  cases hres : bfsAux adj goal (fuelBound adj start) [(start, [start])] with
  | none => exact absurd hres (bfsAux_ne_none _ _ (init_entry_inv adj start) hm)
  | some res =>
    have hrun0 := bfsAux_min_run hQ0v hQ0nd _ _ hord0 hbdd0 (hinit Q0 hQ0v hQ0nd) res hres
    cases res with
    | notFound => exact absurd rfl hrun0.1
    | keyError => exact absurd hres (bfsAux_ne_keyError _ _)
    | found r =>
      refine ⟨r, hres, ?_⟩
      intro Qr hQv hQnd
      have hrun := bfsAux_min_run hQv hQnd _ _ hord0 hbdd0 (hinit Qr hQv hQnd)
        (.found r) hres
      exact hrun.2 r rfl


/-- C2: when the goal is reachable, `bfs` returns a route whose edge count
(`length - 1`) is minimal: no simple valid route has fewer edges, and no
route returned by `brute_force_search` or `dfs` on the same adjacency map
and endpoints has fewer edges. -/
theorem C2_bfs_shortest (adj : Adj) (start goal : City)
    (cities : City → Option Coord) (hreach : Reachable adj start goal) :
    ∃ r, bfs start goal adj = some (.found r) ∧
      (∀ q, ValidRoute adj start goal q → q.Nodup → r.length - 1 ≤ q.length - 1) ∧
      (∀ q, brute_force_search start goal adj cities = some (.found q) →
        r.length - 1 ≤ q.length - 1) ∧
      (∀ q, dfs start goal adj = some (.found q) → r.length - 1 ≤ q.length - 1) := by
  obtain ⟨r, hr, hmin⟩ := bfs_reachable_found hreach
  refine ⟨r, hr, ?_, ?_, ?_⟩
  · intro q hq hqnd
    have := hmin q hq hqnd
    omega
  · intro q hq
    have hv := bruteAux_found _ _ q (init_entry_inv adj start) hq
    have := hmin q hv.1 hv.2
    omega
  · intro q hq
    have heq : dfs start goal adj =
        bruteAux adj goal (fuelBound adj start) [(start, [start])] := by
      unfold dfs
      exact dfsAux_eq_bruteAux adj goal _ _
    rw [heq] at hq
    have hv := bruteAux_found _ _ q (init_entry_inv adj start) hq
    have := hmin q hv.1 hv.2
    omega

/-- Witness for C2 on a concrete two-city graph. -/
theorem C2_witness :
    ∃ r, bfs "A" "B" [("A", ["B"]), ("B", ["A"])] = some (.found r) ∧
      (∀ q, ValidRoute [("A", ["B"]), ("B", ["A"])] "A" "B" q → q.Nodup →
        r.length - 1 ≤ q.length - 1) ∧
      (∀ q, brute_force_search "A" "B" [("A", ["B"]), ("B", ["A"])]
          (fun _ => some ((0 : ℝ), (0 : ℝ))) = some (.found q) →
        r.length - 1 ≤ q.length - 1) ∧
      (∀ q, dfs "A" "B" [("A", ["B"]), ("B", ["A"])] = some (.found q) →
        r.length - 1 ≤ q.length - 1) :=
  C2_bfs_shortest [("A", ["B"]), ("B", ["A"])] "A" "B"
    (fun _ => some ((0 : ℝ), (0 : ℝ)))
    ⟨["A", "B"], rfl, by decide, rfl, rfl⟩


/-! ### Claim C1: A* optimality against best-first search. -/

lemma aLe_true_fle {e1 e2 : AEntry} (h : aLe e1 e2 = true) : e1.1 ≤ e2.1 := by
  unfold aLe at h
  by_cases h1 : e1.1 < e2.1
  · exact le_of_lt h1
  · rw [if_neg h1] at h
    by_cases h2 : e2.1 < e1.1
    · rw [if_pos h2] at h
      exact absurd h (by simp)
    · exact not_lt.mp h2

lemma aLe_false_fle {e1 e2 : AEntry} (h : aLe e1 e2 = false) : e2.1 ≤ e1.1 := by
  unfold aLe at h
  by_cases h1 : e1.1 < e2.1
  · rw [if_pos h1] at h
    exact absurd h (by simp)
  · exact not_lt.mp h1

/-- The entry returned by `popMinWith` minimizes any projection `f` that is
monotone along the comparison in both directions. -/
lemma popMinWith_proj_min {α : Type} (le : α → α → Bool) (f : α → ℝ)
    (h1 : ∀ a b : α, le a b = true → f a ≤ f b)
    (h2 : ∀ a b : α, le a b = false → f b ≤ f a) :
    ∀ (l : List α) (m : α) (rest : List α),
      popMinWith le l = some (m, rest) → ∀ x ∈ l, f m ≤ f x := by
  intro l
  induction l with
  | nil => intro m rest h; exact Option.noConfusion h
  | cons e l0 ih =>
    intro m rest h x hx
    simp only [popMinWith] at h
    cases h0 : popMinWith le l0 with
    | none =>
      rw [h0] at h
      have hl0 : l0 = [] := (popMinWith_none le l0).mp h0
      subst hl0
      injection h with hh
      injection hh with hm hr
      subst hm
      simp only [List.mem_singleton] at hx
      rw [hx]
    | some p =>
      obtain ⟨m0, rest0⟩ := p
      rw [h0] at h
      by_cases hle : le e m0
      · simp only [hle, if_true] at h
        injection h with hh
        injection hh with hm hr
        subst hm
        rcases List.mem_cons.mp hx with hx1 | hx2
        · rw [hx1]
        · exact le_trans (h1 _ _ hle) (ih m0 rest0 h0 x hx2)
      · simp only [Bool.not_eq_true] at hle
        simp only [hle, Bool.false_eq_true, if_false] at h
        injection h with hh
        injection hh with hm hr
        subst hm
        rcases List.mem_cons.mp hx with hx1 | hx2
        · rw [hx1]
          exact h2 _ _ hle
        · exact ih m0 rest0 h0 x hx2

lemma lastOf_drop (Q : Route) (i : Nat) (h : i < Q.length) :
    lastOf (Q.drop i) = lastOf Q := by
  rw [lastOf_eq_getD, lastOf_eq_getD, List.length_drop]
  rw [List.getD_eq_getElem?_getD, List.getD_eq_getElem?_getD, List.getElem?_drop]
  have hidx : i + (Q.length - i - 1) = Q.length - 1 := by omega
  rw [hidx]

/-- Splitting a route's total distance at index `i`: the segment up to `i`
plus the segment from `i` on (they overlap in the single city `Q i`). -/
lemma routeDistance_take_drop (cities : City → Option Coord) (Q : Route) :
    ∀ i, i < Q.length →
      routeDistance cities Q =
        routeDistance cities (Q.take (i + 1)) + routeDistance cities (Q.drop i) := by
  intro i
  induction i with
  | zero =>
    intro h
    rw [routeDistance_short cities (Q.take 1) (by rw [List.length_take]; omega),
      List.drop_zero]
    ring
  | succ j ih =>
    intro h
    have hj : j < Q.length := by omega
    have hrec := ih hj
    have hts := routeDistance_take_succ cities Q j h
    have hd1 : Q.drop j = Q.getD j "" :: Q.drop (j + 1) := drop_eq_getD_cons Q j hj
    have hd2 : Q.drop (j + 1) = Q.getD (j + 1) "" :: Q.drop (j + 2) :=
      drop_eq_getD_cons Q (j + 1) h
    have hdd : routeDistance cities (Q.drop j) =
        cdist cities (Q.getD j "") (Q.getD (j + 1) "") +
          routeDistance cities (Q.drop (j + 1)) := by
      rw [hd1, hd2, routeDistance_cons_cons, ← hd2]
    show routeDistance cities Q =
      routeDistance cities (Q.take (j + 2)) + routeDistance cities (Q.drop (j + 1))
    linarith

/-- Polygon inequality: the straight-line distance from the first to the
last city of a route never exceeds the route's total distance. -/
lemma cdist_first_last (cities : City → Option Coord) :
    ∀ (p : Route) (a : City),
      cdist cities a (lastOf (a :: p)) ≤ routeDistance cities (a :: p) := by
  intro p
  induction p with
  | nil =>
    intro a
    have h0 : routeDistance cities [a] = 0 := routeDistance_short cities [a] (by simp)
    rw [show lastOf [a] = a from rfl, cdist_self, h0]
  | cons b p2 ih =>
    intro a
    have h1 : lastOf (a :: b :: p2) = lastOf (b :: p2) := by
      simp [lastOf, List.getLastD_cons]
    rw [h1, routeDistance_cons_cons]
    have h2 := cdist_triangle cities a b (lastOf (b :: p2))
    have h3 := ih b
    linarith

/-- Some heap entry sits on the reference route `Q` at position `i` with a
g-score no larger than the cost of `Q`'s prefix through `i`. -/
def PqCover (cities : City → Option Coord) (Q : Route) (pq : List AEntry) : Prop :=
  ∃ i, i < Q.length ∧ ∃ e ∈ pq, aCity e = Q.getD i "" ∧
    aG e ≤ routeDistance cities (Q.take (i + 1))

/-- Some city of `Q` has a recorded best-g no larger than the cost of `Q`'s
prefix through it. -/
def VisCover (cities : City → Option Coord) (Q : Route) (vis : City → Option ℝ) : Prop :=
  ∃ j, j < Q.length ∧ ∃ v, vis (Q.getD j "") = some v ∧
    v ≤ routeDistance cities (Q.take (j + 1))

/-- Chaining the `visJ` invariant along `Q`: a vis-cover always yields an
actual heap entry covering `Q`. -/
lemma visCover_to_pqCover {adj : Adj} {cities : City → Option Coord}
    {start goal : City} {pq : List AEntry} {vis : City → Option ℝ} {Q : Route}
    (hinv : AInv adj cities start goal pq vis)
    (hQv : ValidRoute adj start goal Q)
    (hvc : VisCover cities Q vis) : PqCover cities Q pq := by
  have hlast : Q.getD (Q.length - 1) "" = goal := by
    rw [← lastOf_eq_getD]
    exact validRoute_last hQv
  have main : ∀ (k j : Nat), j < Q.length → Q.length - j ≤ k →
      ∀ v, vis (Q.getD j "") = some v →
        v ≤ routeDistance cities (Q.take (j + 1)) → PqCover cities Q pq := by
    intro k
    induction k with
    | zero =>
      intro j hj hk
      omega
    | succ n ih =>
      intro j hj hk v hvis hvle
      rcases hinv.visJ _ _ hvis with ⟨e, he, hec, heg⟩ | ⟨hng, hnbr⟩
      · exact ⟨j, hj, e, he, hec, le_trans heg hvle⟩
      · have hj1 : j + 1 < Q.length := by
          by_contra hc
          have hje : j = Q.length - 1 := by omega
          rw [hje, hlast] at hng
          exact hng rfl
        have hadj : Q.getD (j + 1) "" ∈ adjGet adj (Q.getD j "") :=
          validRoute_consec hQv j hj1
        obtain ⟨w, hw, hwle⟩ := hnbr _ hadj
        apply ih (j + 1) hj1 (by omega) w hw
        have hc := routeDistance_take_succ cities Q j hj1
        show w ≤ routeDistance cities (Q.take (j + 2))
        linarith
  obtain ⟨j, hj, v, hvis, hvle⟩ := hvc
  exact main (Q.length - j) j hj (le_refl _) v hvis hvle

/-- One non-goal A* step preserves the optimality cover for `Q`. -/
lemma aStep_opt {adj : Adj} {cities : City → Option Coord} {start goal : City}
    {pq : List AEntry} {vis : City → Option ℝ} {Q : Route}
    (hinv : AInv adj cities start goal pq vis)
    (hQv : ValidRoute adj start goal Q)
    {f0 : ℝ} {city : City} {path : Route} {g0 : ℝ} {rest : List AEntry}
    (hpop : popMinWith aLe pq = some ((f0, city, path, g0), rest))
    (hgoal : city ≠ goal) {pq' : List AEntry} {vis' : City → Option ℝ}
    (hexp : aExpand cities goal city path g0 (adjGet adj city) rest vis = some (pq', vis'))
    (hopt : PqCover cities Q pq ∨ VisCover cities Q vis) :
    PqCover cities Q pq' ∨ VisCover cities Q vis' := by
  have hpc : PqCover cities Q pq := by
    rcases hopt with h | h
    · exact h
    · exact visCover_to_pqCover hinv hQv h
  obtain ⟨i, hi, e, he, hec, heg⟩ := hpc
  have hperm := popMinWith_perm aLe pq _ _ hpop
  have hmem : ((f0, city, path, g0) : AEntry) ∈ pq :=
    hperm.symm.subset (List.mem_cons_self _ _)
  have hg0 : g0 = routeDistance cities path := hinv.gval _ hmem
  have hvalid : ValidRoute adj start city path := hinv.valid _ hmem
  have hpne : path ≠ [] := validRoute_ne_nil hvalid
  have hlastp : lastOf path = city := validRoute_last hvalid
  obtain ⟨⟨new, hpq', _⟩, _, hnbrs, _⟩ :=
    aExpand_shape cities goal city path g0 hg0 hpne hlastp _ _ _ _ _ hexp
  rcases List.mem_cons.mp (hperm.subset he) with heq | her
  · have hcity : city = Q.getD i "" := by rw [heq] at hec; exact hec
    have hgle : g0 ≤ routeDistance cities (Q.take (i + 1)) := by
      rw [heq] at heg; exact heg
    have hine : Q.getD i "" ≠ goal := by rw [← hcity]; exact hgoal
    have hlast : Q.getD (Q.length - 1) "" = goal := by
      rw [← lastOf_eq_getD]
      exact validRoute_last hQv
    have hi1 : i + 1 < Q.length := by
      by_contra hc
      have hie : i = Q.length - 1 := by omega
      rw [hie, hlast] at hine
      exact hine rfl
    have hadj : Q.getD (i + 1) "" ∈ adjGet adj city := by
      rw [hcity]
      exact validRoute_consec hQv i hi1
    obtain ⟨w, hw, hwle⟩ := hnbrs _ hadj
    right
    refine ⟨i + 1, hi1, w, hw, ?_⟩
    rw [hcity] at hwle
    have hc := routeDistance_take_succ cities Q i hi1
    show w ≤ routeDistance cities (Q.take (i + 2))
    linarith
  · left
    exact ⟨i, hi, e, by rw [hpq']; exact List.mem_append_left _ her, hec, heg⟩

/-- At the pop of a goal entry, the f-minimality of the heap together with
the cover and the admissibility of the straight-line heuristic give
optimality against `Q`. -/
lemma aPop_goal_opt {adj : Adj} {cities : City → Option Coord} {start goal : City}
    {pq : List AEntry} {vis : City → Option ℝ} {Q : Route}
    (hinv : AInv adj cities start goal pq vis)
    (hQv : ValidRoute adj start goal Q)
    {f0 : ℝ} {path : Route} {g0 : ℝ} {rest : List AEntry}
    (hpop : popMinWith aLe pq = some ((f0, goal, path, g0), rest))
    (hopt : PqCover cities Q pq ∨ VisCover cities Q vis) :
    routeDistance cities path ≤ routeDistance cities Q := by
  have hpc : PqCover cities Q pq := by
    rcases hopt with h | h
    · exact h
    · exact visCover_to_pqCover hinv hQv h
  obtain ⟨i, hi, e, he, hec, heg⟩ := hpc
  have hperm := popMinWith_perm aLe pq _ _ hpop
  have hmem : ((f0, goal, path, g0) : AEntry) ∈ pq :=
    hperm.symm.subset (List.mem_cons_self _ _)
  have hgval : g0 = routeDistance cities path := hinv.gval _ hmem
  have hfmin : aF (f0, goal, path, g0) ≤ aF e :=
    popMinWith_proj_min aLe aF (fun a b => aLe_true_fle) (fun a b => aLe_false_fle)
      pq _ _ hpop e he
  have hQnonneg := routeDistance_nonneg cities Q
  have hpathnonneg := routeDistance_nonneg cities path
  have hfe_le : aF e ≤ routeDistance cities Q ∨ aF e = 0 := by
    rcases hinv.fval e he with hfe | hfe
    · left
      have hadm : cdist cities (Q.getD i "") goal ≤ routeDistance cities (Q.drop i) := by
        have hd : Q.drop i = Q.getD i "" :: Q.drop (i + 1) := drop_eq_getD_cons Q i hi
        have hlg : lastOf (Q.drop i) = goal := by
          rw [lastOf_drop Q i hi]
          exact validRoute_last hQv
        rw [hd] at hlg
        calc cdist cities (Q.getD i "") goal
            = cdist cities (Q.getD i "") (lastOf (Q.getD i "" :: Q.drop (i + 1))) := by
              rw [hlg]
          _ ≤ routeDistance cities (Q.getD i "" :: Q.drop (i + 1)) :=
              cdist_first_last cities _ _
          _ = routeDistance cities (Q.drop i) := by rw [← hd]
      have hsplit := routeDistance_take_drop cities Q i hi
      rw [hfe, hec]
      linarith
    · right
      rw [hfe]
      rfl
  have hfm : aF (f0, goal, path, g0) = g0 ∨ routeDistance cities path = 0 := by
    rcases hinv.fval _ hmem with hfm | hfm
    · left
      have : aF (f0, goal, path, g0) = g0 + cdist cities goal goal := hfm
      rw [cdist_self] at this
      rw [this]
      ring
    · right
      have hpath : path = [start] := by
        have := congrArg (fun e => aPath e) hfm
        simpa [aPath] using this
      rw [hpath]
      exact routeDistance_short cities _ (by simp)
  rcases hfm with hfm | hfm
  · rcases hfe_le with hfe | hfe
    · rw [← hgval]
      rw [hfm] at hfmin
      linarith
    · rw [← hgval]
      rw [hfm] at hfmin
      rw [hfe] at hfmin
      have : g0 = routeDistance cities path := hgval
      linarith
  · rw [hfm]
    exact hQnonneg

/-- The A* loop run lemma for optimality: under the state invariant and the
cover for `Q`, any found route costs no more than `Q`. -/
lemma aStarAux_opt {adj : Adj} {cities : City → Option Coord} {start goal : City}
    {Q : Route} (hQv : ValidRoute adj start goal Q) :
    ∀ (fuel : Nat) (pq : List AEntry) (vis : City → Option ℝ),
      AInv adj cities start goal pq vis →
      (PqCover cities Q pq ∨ VisCover cities Q vis) →
      ∀ r, aStarAux adj cities goal fuel pq vis = some (.found r) →
        routeDistance cities r ≤ routeDistance cities Q := by
  intro fuel
  induction fuel with
  | zero =>
    intro pq vis _ _ r h
    simp only [aStarAux] at h
    exact Option.noConfusion h
  | succ n ih =>
    intro pq vis hinv hopt r h
    simp only [aStarAux] at h
    cases hpop : popMinWith aLe pq with
    | none =>
      rw [hpop] at h
      injection h with h1
      exact SResult.noConfusion h1
    | some p =>
      obtain ⟨⟨f0, city, path, g0⟩, rest⟩ := p
      rw [hpop] at h
      dsimp only at h
      by_cases hg : city = goal
      · rw [if_pos hg] at h
        injection h with h1
        injection h1 with h2
        rw [← h2]
        rw [hg] at hpop
        exact aPop_goal_opt hinv hQv hpop hopt
      · rw [if_neg hg] at h
        cases hexp : aExpand cities goal city path g0 (adjGet adj city) rest vis with
        | none =>
          rw [hexp] at h
          injection h with h1
          exact SResult.noConfusion h1
        | some pv =>
          obtain ⟨pq', vis'⟩ := pv
          rw [hexp] at h
          exact ih pq' vis' (aStep_AInv hinv hpop hg hexp)
            (aStep_opt hinv hQv hpop hg hexp hopt) r h


/-- C1: in this program every edge's cost is exactly the haversine distance
between its endpoints, so the premise "edge distances equal or exceed the
straight-line distance" holds by construction; whenever `a_star_search` and
`best_first_search` both return a route, the total accumulated haversine
distance of the A* route is at most that of the best-first route. -/
theorem C1_a_star_le_best_first (adj : Adj) (start goal : City)
    (cities : City → Option Coord) (pa pb : Route)
    (ha : a_star_search start goal adj cities = some (.found pa))
    (hb : best_first_search start goal adj cities = some (.found pb)) :
    routeDistance cities pa ≤ routeDistance cities pb := by
  have hbv : ValidRoute adj start goal pb := by
    unfold best_first_search at hb
    cases hcs : cities start with
    | none =>
      rw [hcs] at hb
      cases hcg : cities goal with
      | none => rw [hcg] at hb; injection hb with h1; exact SResult.noConfusion h1
      | some cg => rw [hcg] at hb; injection hb with h1; exact SResult.noConfusion h1
    | some cs =>
      rw [hcs] at hb
      cases hcg : cities goal with
      | none => rw [hcg] at hb; injection hb with h1; exact SResult.noConfusion h1
      | some cg =>
        rw [hcg] at hb
        have hinvb : ∀ e ∈ [(haversine cs cg, start, ([start] : Route))],
            BEntryInv adj start e := by
          intro e he
          simp only [List.mem_singleton] at he
          rw [he]
          exact ⟨validRoute_singleton, List.nodup_singleton _⟩
        exact (bestAux_found _ _ pb hinvb hb).1
  have hpb0 : 0 < pb.length := by
    cases pb with
    | nil => exact absurd hbv (by simp [ValidRoute])
    | cons a l => simp
  have hopt0 : PqCover cities pb [((0 : ℝ), start, [start], (0 : ℝ))] ∨
      VisCover cities pb (fun _ => none) := by
    left
    refine ⟨0, hpb0, (0, start, [start], 0), List.mem_cons_self _ _, ?_, ?_⟩
    · show start = pb.getD 0 ""
      exact (validRoute_getD_zero hbv).symm
    · show (0 : ℝ) ≤ routeDistance cities (pb.take 1)
      rw [routeDistance_short cities _ (by rw [List.length_take]; omega)]
  exact aStarAux_opt hbv (fuelBoundA adj start) _ _
    (AInv_init adj cities start goal) hopt0 pa ha

/-- Witness for C1 at a concrete instance where both searches return a
route. -/
theorem C1_witness :
    routeDistance (fun _ => some ((0 : ℝ), (0 : ℝ))) ["A"] ≤
      routeDistance (fun _ => some ((0 : ℝ), (0 : ℝ))) ["A"] :=
  C1_a_star_le_best_first [] "A" "A" (fun _ => some ((0 : ℝ), (0 : ℝ)))
    ["A"] ["A"] rfl rfl

end SearchMethod
